import Mathlib

/-!
# JsonObject: a shallow embedding of `jsonobject.h` / `jsonobject.cpp`

The C++ class `JsonObject` is a tagged value with a hand-written parser and a
serializer.  This file embeds the class in Lean and proves properties of the
embedded code.

Modelling conventions

* `std::string` is `Str = List Char`; one `Char` stands for one `char` of the
  buffer.  The parser only compares characters with ASCII constants, so the
  theorems hold for every character sequence.
* A pointer `data + k` into the top-level buffer is the pair of the buffer and
  the offset `k` (the parameter `base`).  `readAt` reads one character; an index
  equal to the buffer length reads the terminating NUL of `std::string`.
* `size_t` and `int` counters are natural numbers: every counter of the parser
  is bounded by twice the buffer length, so no wrap-around is reachable for
  buffers that fit in memory.
* Reference parameters (`size_t &end`, `JsonObject &obj`) and `*this` are passed
  in and returned.
* `std::map<std::string, JsonObject>` is an association list kept in strictly
  ascending key order (`mapSet`), the iteration order of `std::map`.
* The scanning loops of `_parseText`, `_parseNumber`, `_compareWord` and `parse`
  advance by one character per iteration and are structural recursions on the
  number of characters left.  The loops of `_parseObject` and `_parseArray` jump
  and recurse; they take a `fuel` argument and return `none` when it runs out.
  `parse` supplies `2 * len` units, which is always enough (`fuel_suffices`, `parse_isSome`).
* The constructor from `double` formats a floating point number with an output stream; it is
  embedded with the formatted text as its argument (`ofDouble`): a Number is its stored text.
  The method `toNumber` is embedded over an arbitrary type of
  `double` values, with the library function `std::stod` as a parameter that yields `none`
  where `std::stod` throws.
* An argument passed by `const` reference is a value when it denotes an object other than the
  receiver (`setValue`, `append`; the parser only passes temporaries).  The members are
  private and the accessors return copies, so the only other object such a reference can denote
  is the receiver itself: the calls `v.append(v)` and `v.setValue(key, v)` are embedded by
  `appendSelf` and `setValueSelf`, and `appendRef` and `setValueRef` take either argument.
-/

/-- Model of `std::string`: the sequence of its characters. -/
abbrev Str := List Char

/-- The enum `JsonObject::Type`. -/
inductive JsonType where
  | JSON_NULL
  | JSON_BOOL
  | JSON_NUMBER
  | JSON_STRING
  | JSON_ARRAY
  | JSON_OBJECT
  | JSON_ERROR
  deriving DecidableEq, Repr

/-- The enum `JsonObject::StringifyMode`. -/
inductive StringifyMode where
  | MODE_COMPACT
  | MODE_2_SPACES
  | MODE_4_SPACES
  deriving DecidableEq, Repr

/-- The integer value of a `StringifyMode` (`static_cast<int8_t>(mode)`). -/
def StringifyMode.spaces : StringifyMode → Nat
  | .MODE_COMPACT => 0
  | .MODE_2_SPACES => 2
  | .MODE_4_SPACES => 4

/-- The data members of class `JsonObject`. -/
structure JsonObject where
  m_value : Str
  m_array : List JsonObject
  m_type : JsonType
  m_map : List (Str × JsonObject)
  m_keys : List Str

/-- The constant `NUM_SYMBOLS`. -/
def NUM_SYMBOLS : List Char :=
  ['.', '0', '1', '2', '3', '4', '5', '6', '7', '8', '9', '-', '+', 'e', 'E']

/-- The method `isCharNumber`: membership in `NUM_SYMBOLS`. -/
def isCharNumber (symbol : Char) : Bool :=
  NUM_SYMBOLS.any (fun c => c == symbol)

/-- Read `data[i]`; the index `data.length` holds the terminating NUL. -/
def readAt (data : Str) (i : Nat) : Char :=
  data.getD i (Char.ofNat 0)

/-- The constructor `std::string(p, n)` with `p = data + start`. -/
def substr (data : Str) (start n : Nat) : Str :=
  (data.drop start).take n

/-- The comparison `operator<` of `std::string`: lexicographic on the character codes. -/
def strLt : Str → Str → Bool
  | [], [] => false
  | [], _ :: _ => true
  | _ :: _, [] => false
  | a :: as, b :: bs =>
    if a.toNat < b.toNat then true
    else if b.toNat < a.toNat then false
    else strLt as bs

/-- The lookup `m_map.find(key)`: the mapped value, `none` for `m_map.end()`. -/
def mapFind : List (Str × JsonObject) → Str → Option JsonObject
  | [], _ => none
  | (k, x) :: rest, key => if k = key then some x else mapFind rest key

/-- The assignment `m_map[key] = value`: insert at the sorted position or overwrite. -/
def mapSet : List (Str × JsonObject) → Str → JsonObject → List (Str × JsonObject)
  | [], key, value => [(key, value)]
  | (k, x) :: rest, key, value =>
    if strLt key k then (key, value) :: (k, x) :: rest
    else if strLt k key then (k, x) :: mapSet rest key value
    else (k, value) :: rest

/-- The call `m_map.erase(m_map.find(key))` guarded by `find(key) != end()`. -/
def mapErase : List (Str × JsonObject) → Str → List (Str × JsonObject)
  | [], _ => []
  | (k, x) :: rest, key => if k = key then rest else (k, x) :: mapErase rest key

/-- The decimal digits of a natural number, most significant first. -/
def natDigits (n : Nat) : Str := Nat.toDigits 10 n

/-- The function `std::to_string(int)`. -/
def to_string (value : Int) : Str :=
  if value < 0 then '-' :: natDigits value.natAbs else natDigits value.natAbs

namespace JsonObject

/-- The default constructor `JsonObject()`. -/
def new : JsonObject :=
  { m_value := [], m_array := [], m_type := .JSON_NULL, m_map := [], m_keys := [] }

/-- The constructor `JsonObject(bool)`. -/
def ofBool (value : Bool) : JsonObject :=
  { new with
    m_type := .JSON_BOOL,
    m_value := if value then ['t', 'r', 'u', 'e'] else ['f', 'a', 'l', 's', 'e'] }

/-- The constructor `JsonObject(int)`. -/
def ofInt (value : Int) : JsonObject :=
  { new with m_type := .JSON_NUMBER, m_value := to_string value }

/-- The constructors `JsonObject(const char*)` and `JsonObject(const std::string&)`. -/
def ofString (value : Str) : JsonObject :=
  { new with m_type := .JSON_STRING, m_value := value }

/-- The constructor `JsonObject(double, precision)`; `text` is the text `streamObj.str()` that
the output stream produces for the number. -/
def ofDouble (text : Str) : JsonObject :=
  { new with m_type := .JSON_NUMBER, m_value := text }

/-- The constructor `JsonObject(const std::vector<JsonObject>&)`. -/
def ofArray (value : List JsonObject) : JsonObject :=
  { new with m_type := .JSON_ARRAY, m_array := value }

/-- The method `type()`. -/
def type (self : JsonObject) : JsonType := self.m_type

/-- The method `clear()`. -/
def clear (self : JsonObject) : JsonObject :=
  { self with m_type := .JSON_NULL, m_map := [], m_value := [], m_array := [], m_keys := [] }

/-- The method `keys()`: the returned list and the object with its refreshed cache. -/
def keys (self : JsonObject) : List Str × JsonObject :=
  if self.m_keys.length ≠ self.m_map.length then
    let ks := self.m_keys ++ self.m_map.map Prod.fst
    (ks, { self with m_keys := ks })
  else (self.m_keys, self)

/-- The method `exist(key)`. -/
def exist (self : JsonObject) (key : Str) : Bool :=
  (mapFind self.m_map key).isSome

/-- The method `value(key)`. -/
def value (self : JsonObject) (key : Str) : JsonObject :=
  match mapFind self.m_map key with
  | some x => x
  | none => new

/-- The method `setValue(key, value)`, for a `value` that denotes an object other than the
receiver (see `setValueSelf` for the call `v.setValue(key, v)`). -/
def setValue (self : JsonObject) (key : Str) (value : JsonObject) : JsonObject :=
  let self1 := if self.m_type ≠ .JSON_OBJECT then self.clear else self
  { self1 with m_type := .JSON_OBJECT, m_map := mapSet self1.m_map key value }

/-- The method `append(value)`, for a `value` that denotes an object other than the receiver
(see `appendSelf` for the call `v.append(v)`). -/
def append (self : JsonObject) (value : JsonObject) : JsonObject :=
  let self1 := if self.m_type ≠ .JSON_ARRAY then self.clear else self
  { self1 with m_type := .JSON_ARRAY, m_array := self1.m_array ++ [value] }

/-- The object that the parameter `const JsonObject &value` of a call denotes: an object other
than the receiver, given by its value, or the receiver `*this` itself. -/
inductive Argument where
  | other (x : JsonObject)
  | receiver

/-- The call `v.append(v)`: `value` denotes `*this`, so `push_back(value)` copies the receiver
as it is when that statement is reached, after `clear()` and the assignment to `m_type`. -/
def appendSelf (self : JsonObject) : JsonObject :=
  let self1 := if self.m_type ≠ .JSON_ARRAY then self.clear else self
  let self2 := { self1 with m_type := .JSON_ARRAY }
  { self2 with m_array := self2.m_array ++ [self2] }

/-- The call `v.setValue(key, v)`: `value` denotes `*this`.  After `clear()` and the assignment
to `m_type`, `m_map[key]` finds the entry or inserts a default-constructed one, and the
assignment `entry = value` copies the members of the receiver into it in the order of their
declaration: `m_value`, `m_array`, `m_type`, `m_map`, `m_keys`.  The source of
`entry.m_map = m_map` is the map that holds `entry`; what the library reads as `entry.m_map`
while it copies the node of `key` is not fixed by the source (libstdc++ has emptied the
destination by then) and is the parameter `inCopy`. -/
def setValueSelf (inCopy : List (Str × JsonObject)) (self : JsonObject) (key : Str) :
    JsonObject :=
  let self1 := if self.m_type ≠ .JSON_OBJECT then self.clear else self
  let self2 := { self1 with m_type := .JSON_OBJECT }
  let entry0 :=
    match mapFind self2.m_map key with
    | some x => x
    | none => new
  let map1 := mapSet self2.m_map key entry0
  let entry1 :=
    { entry0 with m_value := self2.m_value, m_array := self2.m_array, m_type := self2.m_type }
  let entry2 :=
    { entry1 with
      m_map := mapSet map1 key { entry1 with m_map := inCopy },
      m_keys := self2.m_keys }
  { self2 with m_map := mapSet map1 key entry2 }

/-- The method `append(value)` for either argument. -/
def appendRef (self : JsonObject) (value : Argument) : JsonObject :=
  match value with
  | .other x => self.append x
  | .receiver => self.appendSelf

/-- The method `setValue(key, value)` for either argument. -/
def setValueRef (inCopy : List (Str × JsonObject)) (self : JsonObject) (key : Str)
    (value : Argument) : JsonObject :=
  match value with
  | .other x => self.setValue key x
  | .receiver => self.setValueSelf inCopy key

/-- The method `at(index)`. -/
def «at» (self : JsonObject) (index : Nat) : JsonObject :=
  if index ≥ self.m_array.length then new else self.m_array.getD index new

/-- The method `size()`. -/
def size (self : JsonObject) : Nat :=
  if self.m_type = .JSON_OBJECT then self.m_map.length
  else if self.m_type = .JSON_ARRAY then self.m_array.length
  else 0

/-- The method `remove(key)`. -/
def remove (self : JsonObject) (key : Str) : JsonObject :=
  { self with m_keys := [], m_map := mapErase self.m_map key }

/-- The method `toBool(defVal)`. -/
def toBool (self : JsonObject) (defVal : Bool) : Bool :=
  if self.m_type = .JSON_BOOL then self.m_value == ['t', 'r', 'u', 'e'] else defVal

/-- The method `toNumber(defVal)`.  `D` stands for `double` and `stod` for `std::stod`, which
converts the text or throws (`none`); the result is `none` when the call throws. -/
def toNumber {D : Type} (stod : Str → Option D) (self : JsonObject) (defVal : D) : Option D :=
  if self.m_type = .JSON_NUMBER then stod self.m_value else some defVal

/-- The method `toString(defVal)`. -/
def toString (self : JsonObject) (defVal : Str) : Str :=
  if self.m_type = .JSON_STRING then self.m_value else defVal

/-- The method `toArray()`. -/
def toArray (self : JsonObject) : List JsonObject :=
  if self.m_type = .JSON_ARRAY then self.m_array else []

/-- The method `toMap()`. -/
def toMap (self : JsonObject) : List (Str × JsonObject) :=
  if self.m_type = .JSON_OBJECT then self.m_map else []

end JsonObject

namespace JsonObject

/-- The temporary `std::string(n, ' ')`. -/
def pad (n : Nat) : Str := List.replicate n ' '

/-- The local `newLine` of `_stringify`. -/
def newLine (mode : StringifyMode) : Str :=
  if mode = .MODE_COMPACT then [] else ['\n']

mutual
/-- The method `_stringify(indent, mode)`. -/
def _stringify : JsonObject → Nat → StringifyMode → Str
  | ⟨m_value, m_array, m_type, m_map, _⟩, indent, mode =>
    match m_type with
    | .JSON_NULL => ['n', 'u', 'l', 'l']
    | .JSON_BOOL => m_value
    | .JSON_NUMBER => m_value
    | .JSON_STRING => ['"'] ++ m_value ++ ['"']
    | .JSON_ARRAY =>
      ['['] ++ newLine mode ++ _stringify_array m_array (indent + 1) mode
        ++ newLine mode ++ pad (indent * mode.spaces) ++ [']']
    | .JSON_OBJECT =>
      ['{'] ++ newLine mode ++ _stringify_map m_map (indent + 1) mode
        ++ newLine mode ++ pad (indent * mode.spaces) ++ ['}']
    | .JSON_ERROR => []
/-- The loop of `_stringify` over `m_array`; `indent` is already incremented. -/
def _stringify_array : List JsonObject → Nat → StringifyMode → Str
  | [], _, _ => []
  | x :: rest, indent, mode =>
    pad (indent * mode.spaces) ++ _stringify x indent mode
      ++ (if rest.isEmpty then [] else [','] ++ newLine mode)
      ++ _stringify_array rest indent mode
/-- The loop of `_stringify` over `m_map`; `indent` is already incremented. -/
def _stringify_map : List (Str × JsonObject) → Nat → StringifyMode → Str
  | [], _, _ => []
  | (k, x) :: rest, indent, mode =>
    pad (indent * mode.spaces) ++ ['"'] ++ k ++ ['"', ':']
      ++ (if mode ≠ .MODE_COMPACT then [' '] else [])
      ++ _stringify x indent mode
      ++ (if rest.isEmpty then [] else [','] ++ newLine mode)
      ++ _stringify_map rest indent mode
end

/-- The method `stringify(mode)`. -/
def stringify (self : JsonObject) (mode : StringifyMode) : Str :=
  self._stringify 0 mode

/-- The `for` loop of `_compareWord`: `some (i + 1)` at the first index where the buffer
differs from the word, `none` when the loop runs to its end. -/
def _compareWord_loop (data : Str) (base : Nat) : Str → Nat → Option Nat
  | [], _ => none
  | w :: ws, i =>
    if readAt data (base + i) ≠ w then some (i + 1)
    else _compareWord_loop data base ws (i + 1)

/-- The method `_compareWord(data + base, len, word)`. -/
def _compareWord (data : Str) (base len : Nat) (word : Str) : Nat :=
  let size := word.length
  if len < size then 1
  else
    match _compareWord_loop data base word 0 with
    | some r => r
    | none =>
      let lastSymbol := readAt data (base + size)
      if lastSymbol = ' ' ∨ lastSymbol = ',' ∨ lastSymbol = '\r' ∨ lastSymbol = '\n' then 0
      else size

/-- The buffer indices read by the `for` loop of `_compareWord(data + base, len, word)`, in the
order of the reads `data[i]`. -/
def _compareWord_loop_reads (data : Str) (base : Nat) : Str → Nat → List Nat
  | [], _ => []
  | w :: ws, i =>
    if readAt data (base + i) ≠ w then [base + i]
    else (base + i) :: _compareWord_loop_reads data base ws (i + 1)

/-- The buffer indices read by `_compareWord(data + base, len, word)`: the reads of the loop,
followed by the read `data[size]` of `lastSymbol` when the loop runs to its end. -/
def _compareWord_reads (data : Str) (base len : Nat) (word : Str) : List Nat :=
  let size := word.length
  if len < size then []
  else
    match _compareWord_loop data base word 0 with
    | some _ => _compareWord_loop_reads data base word 0
    | none => _compareWord_loop_reads data base word 0 ++ [base + size]

/-- The character `data[step - 1]` read by `_parseText`, for `data` pointing at offset `base`. -/
def readPrev (data : Str) (base step : Nat) : Char :=
  if base + step = 0 then Char.ofNat 0 else readAt data (base + step - 1)

/-- The `for` loop of `_parseText`; the first argument counts the iterations left
(`len - step`).  Returns the return value and `end`. -/
def _parseText_loop (data : Str) (base : Nat) : Nat → Nat → Bool → Nat × Nat
  | 0, step, _ => (step, 0)
  | n + 1, step, started =>
    if readAt data (base + step) = '"' ∧ readPrev data base step ≠ '\\' then
      if started then (0, step)
      else _parseText_loop data base n (step + 1) true
    else _parseText_loop data base n (step + 1) started

/-- The method `_parseText(data + base, len, end)`: the return value and `end`. -/
def _parseText (data : Str) (base len end_ : Nat) : Nat × Nat :=
  if len < 3 then (1, end_)
  else _parseText_loop data base len 0 false

/-- The `for` loop of `_parseNumber`; the first argument counts the iterations left
(`len - i`).  Returns the return value and `end`. -/
def _parseNumber_loop (data : Str) (base : Nat) : Nat → Nat → Nat × Nat
  | 0, _ => (0 + 1, 0)
  | n + 1, i =>
    let symbol := readAt data (base + i)
    if isCharNumber symbol then _parseNumber_loop data base n (i + 1)
    else if symbol = ' ' ∨ symbol = ',' ∨ symbol = '\r' ∨ symbol = '\n' then (0, i)
    else (i + 1, i)

/-- The method `_parseNumber(data + base, len, end)`: the return value and `end`. -/
def _parseNumber (data : Str) (base len end_ : Nat) : Nat × Nat :=
  if len < 2 then (1, end_)
  else _parseNumber_loop data base len 0

/-- The number value built in the number branches: `JsonObject jsonNum(valueStr)` followed by
`jsonNum.m_type = JSON_NUMBER`. -/
def jsonNum (valueStr : Str) : JsonObject :=
  { ofString valueStr with m_type := .JSON_NUMBER }

/-- The assignment `obj.m_map[key] = value` of the parser. -/
def mapAssign (obj : JsonObject) (key : Str) (value : JsonObject) : JsonObject :=
  { obj with m_map := mapSet obj.m_map key value }

/-- The call `obj.m_array.push_back(value)` of the parser. -/
def push_back (obj : JsonObject) (value : JsonObject) : JsonObject :=
  { obj with m_array := obj.m_array ++ [value] }

/-- The assignment `obj.m_type = t`. -/
def setType (obj : JsonObject) (t : JsonType) : JsonObject :=
  { obj with m_type := t }

end JsonObject

namespace JsonObject

/-- The words compared by `_compareWord`. -/
def word_null : Str := ['n', 'u', 'l', 'l']

/-- The word `true`. -/
def word_true : Str := ['t', 'r', 'u', 'e']

/-- The word `false`. -/
def word_false : Str := ['f', 'a', 'l', 's', 'e']

mutual
/-- The method `_parseObject(data + base, len, end, obj)`: the return value, `end` and `obj`. -/
def _parseObject : Nat → Str → Nat → Nat → Nat → JsonObject → Option (Nat × Nat × JsonObject)
  | 0, _, _, _, _, _ => none
  | fuel + 1, data, base, len, end_, obj =>
    if len < 2 then some (1, end_, obj.setType .JSON_ERROR)
    else if readAt data base ≠ '{' then some (1, 0, obj.setType .JSON_ERROR)
    else
      match _parseObject_loop fuel data base len 1 1 0 false [] (obj.setType .JSON_OBJECT) with
      | none => none
      | some (step, errPos, end1, obj1) =>
        if errPos = 0 then some (0, step, obj1)
        else some (errPos + step, end1, obj1.setType .JSON_ERROR)
termination_by structural f => f
/-- The `for` loop of `_parseObject`, entered with the loop variables `step`, `errPos`, `end`,
`stepValue`, `key` and `obj`; returns `step`, `errPos`, `end` and `obj` at the loop exit. -/
def _parseObject_loop : Nat → Str → Nat → Nat → Nat → Nat → Nat → Bool → Str → JsonObject →
    Option (Nat × Nat × Nat × JsonObject)
  | 0, _, _, len, step, errPos, end_, _, _, obj =>
    if step < len then none else some (step, errPos, end_, obj)
  | fuel + 1, data, base, len, step, errPos, end_, stepValue, key, obj =>
    if step < len then
      let symbol := readAt data (base + step)
      if stepValue then
        if symbol = 'n' then
          let errPos1 := _compareWord data (base + step) (len - step) word_null
          if errPos1 > 0 then some (step, errPos1, end_, obj)
          else _parseObject_loop fuel data base len (step + 3 + 1) errPos1 end_ stepValue key
            (obj.setValue key new)
        else if symbol = 't' then
          let errPos1 := _compareWord data (base + step) (len - step) word_true
          if errPos1 > 0 then some (step, errPos1, end_, obj)
          else _parseObject_loop fuel data base len (step + 3 + 1) errPos1 end_ stepValue key
            (obj.setValue key (ofBool true))
        else if symbol = 'f' then
          let errPos1 := _compareWord data (base + step) (len - step) word_false
          if errPos1 > 0 then some (step, errPos1, end_, obj)
          else _parseObject_loop fuel data base len (step + 4 + 1) errPos1 end_ stepValue key
            (obj.setValue key (ofBool false))
        else if symbol = '"' then
          let r := _parseText data (base + step) (len - step) end_
          if r.1 > 0 then some (step, r.1, r.2, obj)
          else if r.2 = 0 then some (step, r.1, r.2, obj)
          else _parseObject_loop fuel data base len (step + r.2 + 1) r.1 r.2 stepValue key
            (obj.setValue key (ofString (substr data (base + step + 1) (r.2 - 1))))
        else if isCharNumber symbol then
          let r := _parseNumber data (base + step) (len - step) end_
          if r.1 > 0 then some (step, r.1, r.2, obj)
          else if r.2 = 0 then some (step, r.1, r.2, obj)
          else _parseObject_loop fuel data base len (step + (r.2 - 1) + 1) r.1 r.2 stepValue key
            (obj.mapAssign key (jsonNum (substr data (base + step) r.2)))
        else if symbol = '{' then
          match _parseObject fuel data (base + step) (len - step) end_ new with
          | none => none
          | some (errPos1, end1, jsonObj) =>
            if errPos1 > 0 then some (step, errPos1, end1, obj)
            else if end1 = 0 then some (step, errPos1, end1, obj)
            else _parseObject_loop fuel data base len (step + end1 + 1) errPos1 end1 stepValue key
              (obj.mapAssign key jsonObj)
        else if symbol = '[' then
          match _parseArray fuel data (base + step) (len - step) end_ new with
          | none => none
          | some (errPos1, end1, jsonObj) =>
            if errPos1 > 0 then some (step, errPos1, end1, obj)
            else if end1 = 0 then some (step, errPos1, end1, obj)
            else _parseObject_loop fuel data base len (step + end1 + 1) errPos1 end1 stepValue key
              (obj.mapAssign key jsonObj)
        else if symbol = ',' then
          _parseObject_loop fuel data base len (step + 1) errPos end_ false key obj
        else if symbol = '}' then some (step, errPos, end_, obj)
        else _parseObject_loop fuel data base len (step + 1) errPos end_ stepValue key obj
      else
        if symbol = '"' then
          let r := _parseText data (base + step) (len - step) end_
          if r.1 > 0 then some (step, r.1, r.2, obj)
          else if r.2 = 0 then some (step, r.1, r.2, obj)
          else _parseObject_loop fuel data base len (step + r.2 + 1) r.1 r.2 stepValue
            (substr data (base + step + 1) (r.2 - 1)) obj
        else if symbol = ':' then
          _parseObject_loop fuel data base len (step + 1) errPos end_ true key obj
        else _parseObject_loop fuel data base len (step + 1) errPos end_ stepValue key obj
    else some (step, errPos, end_, obj)
termination_by structural f => f
/-- The method `_parseArray(data + base, len, end, obj)`: the return value, `end` and `obj`. -/
def _parseArray : Nat → Str → Nat → Nat → Nat → JsonObject → Option (Nat × Nat × JsonObject)
  | 0, _, _, _, _, _ => none
  | fuel + 1, data, base, len, end_, obj =>
    if len < 2 then some (1, end_, obj.setType .JSON_ERROR)
    else if readAt data base ≠ '[' then some (1, 0, obj.setType .JSON_ERROR)
    else
      match _parseArray_loop fuel data base len 1 1 0 true (obj.setType .JSON_ARRAY) with
      | none => none
      | some (step, errPos, end1, obj1) =>
        if errPos = 0 then some (0, step, obj1)
        else some (errPos + step, end1, obj1.setType .JSON_ERROR)
termination_by structural f => f
/-- The `for` loop of `_parseArray`, entered with the loop variables `step`, `errPos`, `end`,
`stepValue` and `obj`; returns `step`, `errPos`, `end` and `obj` at the loop exit. -/
def _parseArray_loop : Nat → Str → Nat → Nat → Nat → Nat → Nat → Bool → JsonObject →
    Option (Nat × Nat × Nat × JsonObject)
  | 0, _, _, len, step, errPos, end_, _, obj =>
    if step < len then none else some (step, errPos, end_, obj)
  | fuel + 1, data, base, len, step, errPos, end_, stepValue, obj =>
    if step < len then
      let symbol := readAt data (base + step)
      -- the tail of the loop body: the `,` / `]` test on `symbol`, then `++step`
      let tail := fun (step1 errPos1 end1 : Nat) (stepValue1 : Bool) (obj1 : JsonObject) =>
        if symbol = ',' then _parseArray_loop fuel data base len (step1 + 1) errPos1 end1 true obj1
        else if symbol = ']' then some (step1, errPos1, end1, obj1)
        else _parseArray_loop fuel data base len (step1 + 1) errPos1 end1 stepValue1 obj1
      if stepValue then
        if symbol = 'n' then
          let errPos1 := _compareWord data (base + step) (len - step) word_null
          if errPos1 > 0 then some (step, errPos1, end_, obj)
          else tail (step + 3) errPos1 end_ false (obj.push_back new)
        else if symbol = 't' then
          let errPos1 := _compareWord data (base + step) (len - step) word_true
          if errPos1 > 0 then some (step, errPos1, end_, obj)
          else tail (step + 3) errPos1 end_ false (obj.push_back (ofBool true))
        else if symbol = 'f' then
          let errPos1 := _compareWord data (base + step) (len - step) word_false
          if errPos1 > 0 then some (step, errPos1, end_, obj)
          else tail (step + 4) errPos1 end_ false (obj.push_back (ofBool false))
        else if symbol = '"' then
          let r := _parseText data (base + step) (len - step) end_
          if r.1 > 0 then some (step, r.1, r.2, obj)
          else if r.2 = 0 then some (step, r.1, r.2, obj)
          else tail (step + r.2) r.1 r.2 false
            (obj.push_back (ofString (substr data (base + step + 1) (r.2 - 1))))
        else if isCharNumber symbol then
          let r := _parseNumber data (base + step) (len - step) end_
          if r.1 > 0 then some (step, r.1, r.2, obj)
          else if r.2 = 0 then some (step, r.1, r.2, obj)
          else tail (step + (r.2 - 1)) r.1 r.2 false
            (obj.push_back (jsonNum (substr data (base + step) r.2)))
        else if symbol = '{' then
          match _parseObject fuel data (base + step) (len - step) end_ new with
          | none => none
          | some (errPos1, end1, jsonObj) =>
            if errPos1 > 0 then some (step, errPos1, end1, obj)
            else if end1 = 0 then some (step, errPos1, end1, obj)
            else tail (step + end1) errPos1 end1 false (obj.push_back jsonObj)
        else if symbol = '[' then
          match _parseArray fuel data (base + step) (len - step) end_ new with
          | none => none
          | some (errPos1, end1, jsonArr) =>
            if errPos1 > 0 then some (step, errPos1, end1, obj)
            else if end1 = 0 then some (step, errPos1, end1, obj)
            else tail (step + end1) errPos1 end1 stepValue (obj.push_back jsonArr)
        else tail step errPos end_ stepValue obj
      else tail step errPos end_ stepValue obj
    else some (step, errPos, end_, obj)
termination_by structural f => f
end

/-- The `for` loop of `parse`; the first argument counts the iterations left (`len - step`),
`self` is the cleared object.  Returns the return value `errPos` and `*this`. -/
def parse_loop (data : Str) (len : Nat) (self : JsonObject) : Nat → Nat → Option (Nat × JsonObject)
  | 0, _ => some (1, self)
  | n + 1, step =>
    let symbol := readAt data step
    if symbol = '{' then
      match _parseObject (2 * len) data step (len - step) 0 self with
      | none => none
      | some (errPos, _, obj) => some (errPos, obj)
    else if symbol = '[' then
      match _parseArray (2 * len) data step (len - step) 0 self with
      | none => none
      | some (errPos, _, obj) => some (errPos, obj)
    else if symbol = ' ' ∨ symbol = '\n' ∨ symbol = '\r' then
      parse_loop data len self n (step + 1)
    else some (step, self)

/-- The method `parse(data)` on a `std::string`, which calls `parse(data.data(), data.size())`:
the return value and `*this`; `none` only if the fuel of the structure loops runs out. -/
def parse (self : JsonObject) (data : Str) : Option (Nat × JsonObject) :=
  let len := data.length
  if len < 2 then some (1, self)
  else parse_loop data len self.clear len 0

end JsonObject

/-! ## Vocabulary of the statements -/

/-- A key or string payload "contains neither a double quote nor a backslash". -/
def plain (s : Str) : Prop := ∀ c ∈ s, c ≠ '"' ∧ c ≠ '\\'

instance (s : Str) : Decidable (plain s) := by
  unfold plain
  infer_instance

namespace JsonObject

/-- The text `{"k": "s"}`, with one space after the colon. -/
def textMember (k s : Str) : Str :=
  '{' :: '"' :: (k ++ '"' :: ':' :: ' ' :: '"' :: (s ++ ['"', '}']))

/-- The character test of the loop of `parse`: space, LF and CR are skipped. -/
def isBlank (c : Char) : Bool := c == ' ' || c == '\n' || c == '\r'

/-- The first character of a buffer other than space, LF and CR, if there is one. -/
def firstSignificant (data : Str) : Option Char :=
  data.find? (fun c => !isBlank c)

/-- The first 0-based index at which a text differs from a word, both having a character
there; `none` when no such index exists. -/
def firstDiff : Str → Str → Option Nat
  | _, [] => none
  | [], _ :: _ => none
  | d :: ds, w :: ws => if d ≠ w then some 0 else (firstDiff ds ws).map (fun i => i + 1)

/-- A value token begins at offset `p` of an object text: the loop of `_parseObject`, entered
after the opening brace at offset 0, arrives at `step = p` in the value state after some number
`n` of iterations. -/
def valueTokenAt (data : Str) (p : Nat) : Prop :=
  ∃ (n errPos e : Nat) (key : Str) (obj : JsonObject), ∀ fuel,
    _parseObject_loop (fuel + n) data 0 data.length 1 1 0 false [] (new.setType .JSON_OBJECT)
      = _parseObject_loop fuel data 0 data.length p errPos e true key obj

/-- Boolean form of `plain`. -/
def plainB (s : Str) : Bool := s.all (fun c => c != '"' && c != '\\')

/-- A non-empty run of number characters, as `JsonObject(int)` produces. -/
def numberText (s : Str) : Bool := !s.isEmpty && s.all isCharNumber

/-- The keys of a map are in strictly ascending order, the invariant of `std::map`. -/
def sortedKeys : List (Str × JsonObject) → Bool
  | [] => true
  | (k, _) :: rest => rest.all (fun e => strLt k e.1) && sortedKeys rest

mutual
/-- The value trees that `parse` reproduces from their compact text.  `admissible v last` holds
when `v` is in the state the constructors leave it in (empty key cache, payloads of the other
kinds empty) and
* a Null, Bool or Number is not the last element of its array or object (`last = false`),
* a Bool holds `true` or `false` and a Number a non-empty run of number characters,
* a String, and every key, holds neither a double quote nor a backslash,
* an Array or Object is not empty, its children are admissible, and the keys of an Object
  are in ascending order. -/
def admissible : JsonObject → Bool → Bool
  | ⟨m_value, m_array, m_type, m_map, m_keys⟩, last =>
    m_keys.isEmpty &&
    match m_type with
    | .JSON_NULL => !last && m_value.isEmpty && m_array.isEmpty && m_map.isEmpty
    | .JSON_BOOL =>
      !last && (m_value == word_true || m_value == word_false) && m_array.isEmpty
        && m_map.isEmpty
    | .JSON_NUMBER => !last && numberText m_value && m_array.isEmpty && m_map.isEmpty
    | .JSON_STRING => plainB m_value && m_array.isEmpty && m_map.isEmpty
    | .JSON_ARRAY =>
      m_value.isEmpty && m_map.isEmpty && !m_array.isEmpty && admissibleArray m_array
    | .JSON_OBJECT =>
      m_value.isEmpty && m_array.isEmpty && !m_map.isEmpty && admissibleMap m_map
        && sortedKeys m_map
    | .JSON_ERROR => false
/-- The elements of an array are admissible, the last one as the last. -/
def admissibleArray : List JsonObject → Bool
  | [] => true
  | x :: rest => admissible x rest.isEmpty && admissibleArray rest
/-- The keys of a map are plain and the values admissible, the last one as the last. -/
def admissibleMap : List (Str × JsonObject) → Bool
  | [] => true
  | (k, x) :: rest => plainB k && admissible x rest.isEmpty && admissibleMap rest
end

/-- The Object value with the given map and nothing else. -/
def mkObject (m : List (Str × JsonObject)) : JsonObject :=
  { m_value := [], m_array := [], m_type := .JSON_OBJECT, m_map := m, m_keys := [] }

/-- Specification of `_parseObject` with `fuel` units on the compact text of an admissible,
non-empty map found at offset `base`: it returns 0, sets `end` to the offset of the closing
brace and builds the Object with that map. -/
def ObjectSpec (fuel : Nat) : Prop :=
  ∀ (data : Str) (base len e : Nat) (m : List (Str × JsonObject)) (rest : Str) (j : Nat),
    len = data.length - base → m ≠ [] → admissibleMap m = true → sortedKeys m = true →
    data.drop base = '{' :: (_stringify_map m j .MODE_COMPACT ++ '}' :: rest) →
    1 ≤ fuel → 2 * len ≤ fuel + 1 →
    _parseObject fuel data base len e new
      = some (0, (_stringify_map m j .MODE_COMPACT).length + 1, mkObject m)

/-- Specification of `_parseArray` with `fuel` units on the compact text of an admissible,
non-empty element list found at offset `base`. -/
def ArraySpec (fuel : Nat) : Prop :=
  ∀ (data : Str) (base len e : Nat) (arr : List JsonObject) (rest : Str) (j : Nat),
    len = data.length - base → arr ≠ [] → admissibleArray arr = true →
    data.drop base = '[' :: (_stringify_array arr j .MODE_COMPACT ++ ']' :: rest) →
    1 ≤ fuel → 2 * len ≤ fuel + 1 →
    _parseArray fuel data base len e new
      = some (0, (_stringify_array arr j .MODE_COMPACT).length + 1, ofArray arr)

/-- The value built on a fresh value by `setValue("b", 1)`,
`setValue("a", [true, null, "x", w])` with `w` a fresh value after `append("y")`, and
`setValue("c", "z")`; its compact text is `{"a":[true,null,"x",["y"]],"b":1,"c":"z"}`. -/
def roundTripExample : JsonObject :=
  ((new.setValue ['b'] (ofInt 1)).setValue ['a']
    (ofArray [ofBool true, new, ofString ['x'], (new.append (ofString ['y']))])).setValue ['c']
    (ofString ['z'])

/-- A sequence of `setValue(key, value)` calls, in the order of the list. -/
def insertAll (l : List (Str × JsonObject)) (self : JsonObject) : JsonObject :=
  l.foldl (fun v e => v.setValue e.1 e.2) self

/-- The string `nl` of the reference rendering: empty when the step is 0, a newline otherwise. -/
def refNl (s : Nat) : Str := if s = 0 then [] else ['\n']

/-- The string `sp` of the reference rendering: empty when the step is 0, a space otherwise. -/
def refSp (s : Nat) : Str := if s = 0 then [] else [' ']

/-- The separator `SEP` of the reference rendering: a comma followed by `nl`. -/
def refSep (s : Nat) : Str := ',' :: refNl s

mutual
/-- The reference rendering `R(v, d)` for the step `s`: the items of an array or object are
joined with `SEP` between consecutive items.  The entries of an object are taken in the order of
`m_map`, the ascending key order of `std::map`.  `R` is not specified on Error nodes; it is the
empty text there. -/
def reference : JsonObject → Nat → Nat → Str
  | ⟨m_value, m_array, m_type, m_map, _⟩, d, s =>
    match m_type with
    | .JSON_NULL => ['n', 'u', 'l', 'l']
    | .JSON_BOOL => m_value
    | .JSON_NUMBER => m_value
    | .JSON_STRING => '"' :: (m_value ++ ['"'])
    | .JSON_ARRAY =>
      '[' :: (refNl s ++ (refSep s).intercalate (referenceItems m_array (d + 1) s)
        ++ refNl s ++ pad (d * s) ++ [']'])
    | .JSON_OBJECT =>
      '{' :: (refNl s ++ (refSep s).intercalate (referenceEntries m_map (d + 1) s)
        ++ refNl s ++ pad (d * s) ++ ['}'])
    | .JSON_ERROR => []
/-- The items `pad(d * s) + R(c, d)` of an array whose children are at depth `d`. -/
def referenceItems : List JsonObject → Nat → Nat → List Str
  | [], _, _ => []
  | c :: rest, d, s => (pad (d * s) ++ reference c d s) :: referenceItems rest d s
/-- The items `pad(d * s) + "key" + ":" + sp + R(c, d)` of an object whose children are at
depth `d`. -/
def referenceEntries : List (Str × JsonObject) → Nat → Nat → List Str
  | [], _, _ => []
  | (k, c) :: rest, d, s =>
    (pad (d * s) ++ '"' :: (k ++ '"' :: ':' :: (refSp s ++ reference c d s)))
      :: referenceEntries rest d s
end

/-- The text `["a",1]`. -/
def text_a_1 : Str := ['[', '"', 'a', '"', ',', '1', ']']

/-- The 8-byte text made of `{"a":-`, a space and the closing brace. -/
def text_minus : Str := ['{', '"', 'a', '"', ':', '-', ' ', '}']

/-- The text `{"x": tru}` of the specification. -/
def text_x_tru : Str := ['{', '"', 'x', '"', ':', ' ', 't', 'r', 'u', '}']

/-- The text `{"k":n,}`: one number member followed by a trailing comma. -/
def textTrailingComma (k : Str) (n : Int) : Str :=
  '{' :: '"' :: (k ++ '"' :: ':' :: (to_string n ++ [',', '}']))

/-- The text `{"k": "s"` of `textMember` with the closing brace missing. -/
def textTruncated (k s : Str) : Str :=
  '{' :: '"' :: (k ++ '"' :: ':' :: ' ' :: '"' :: (s ++ ['"']))

/-- The text `["s"`: an array of one string with the closing bracket missing. -/
def textTruncatedArray (s : Str) : Str :=
  '[' :: '"' :: (s ++ ['"'])

/-- The text `{"k":n}` of one number member, without blanks. -/
def textNumberMember (k : Str) (n : Int) : Str :=
  '{' :: '"' :: (k ++ '"' :: ':' :: (to_string n ++ ['}']))

/-- The numbers `n1, n2, ..., nk]` of the text `[n1, n2, ..., nk]`: decimal numbers separated by
a comma and a space, the closing bracket directly after the last number. -/
def textNumbers : List Int → Str
  | [] => [']']
  | [n] => to_string n ++ [']']
  | n :: m :: rest => to_string n ++ ',' :: ' ' :: textNumbers (m :: rest)

/-- The Number values that `parse` stores for a list of integers. -/
def numberValues (ns : List Int) : List JsonObject :=
  ns.map (fun n => jsonNum (to_string n))

/-- The kind and the payload of a value are consistent: the key map is non-empty only if the
kind is Object, the element list only if the kind is Array, and the scalar text only if the kind
is Bool, Number or String. -/
def consistent (v : JsonObject) : Prop :=
  (v.m_map ≠ [] → v.type = .JSON_OBJECT) ∧
  (v.m_array ≠ [] → v.type = .JSON_ARRAY) ∧
  (v.m_value ≠ [] → v.type = .JSON_BOOL ∨ v.type = .JSON_NUMBER ∨ v.type = .JSON_STRING)

/-- The states reachable from a constructor by a sequence of `setValue`, `append`, `remove`,
`clear` and `parse` calls; `parse` may return any code. -/
inductive Reachable : JsonObject → Prop
  | new : Reachable new
  | ofBool (value : Bool) : Reachable (ofBool value)
  | ofInt (value : Int) : Reachable (ofInt value)
  | ofDouble (text : Str) : Reachable (ofDouble text)
  | ofString (value : Str) : Reachable (ofString value)
  | ofArray (value : List JsonObject) : Reachable (ofArray value)
  | setValue (v : JsonObject) (key : Str) (value : JsonObject) :
      Reachable v → Reachable (v.setValue key value)
  | append (v : JsonObject) (value : JsonObject) : Reachable v → Reachable (v.append value)
  | remove (v : JsonObject) (key : Str) : Reachable v → Reachable (v.remove key)
  | clear (v : JsonObject) : Reachable v → Reachable v.clear
  | parse (v : JsonObject) (data : Str) (r : Nat) (obj : JsonObject) :
      Reachable v → parse v data = some (r, obj) → Reachable obj

/-- The text `{"a":"b","c":1}`. -/
def text_a_b_c_1 : Str :=
  ['{', '"', 'a', '"', ':', '"', 'b', '"', ',', '"', 'c', '"', ':', '1', '}']

/-- The text `{"a":"b","c":tru}`. -/
def text_a_b_c_tru : Str :=
  ['{', '"', 'a', '"', ':', '"', 'b', '"', ',', '"', 'c', '"', ':', 't', 'r', 'u', '}']

/-- The 5-byte text `[null`. -/
def text_null_open : Str := ['[', 'n', 'u', 'l', 'l']

/-- The text of an empty object: `{`, a run `w` of characters, `}`. -/
def textEmptyObject (w : Str) : Str := '{' :: (w ++ ['}'])

/-- The text of an empty array: `[`, a run `w` of characters, `]`. -/
def textEmptyArray (w : Str) : Str := '[' :: (w ++ [']'])

/-- The last integer of a non-empty list. -/
def lastNumber : List Int → Int
  | [] => 0
  | [n] => n
  | _ :: m :: rest => lastNumber (m :: rest)

end JsonObject

/-! ## Reading the buffer -/

theorem readAt_of_drop {data : Str} {n : Nat} {c : Char} {rest : Str}
    (h : data.drop n = c :: rest) : readAt data n = c := by
  induction data generalizing n with
  | nil => simp at h
  | cons d ds ih =>
    cases n with
    | zero =>
      simp only [List.drop_zero, List.cons.injEq] at h
      simp [readAt, h.1]
    | succ m =>
      simp only [List.drop_succ_cons] at h
      have := ih h
      simpa [readAt] using this

theorem drop_succ_of_drop {data : Str} {n : Nat} {c : Char} {rest : Str}
    (h : data.drop n = c :: rest) : data.drop (n + 1) = rest := by
  have : data.drop (n + 1) = (data.drop n).drop 1 := by
    rw [List.drop_drop]
  rw [this, h]; rfl

theorem drop_add_of_drop {data : Str} {n : Nat} (xs : Str) {rest : Str}
    (h : data.drop n = xs ++ rest) : data.drop (n + xs.length) = rest := by
  have : data.drop (n + xs.length) = (data.drop n).drop xs.length := by
    rw [List.drop_drop]
  rw [this, h, List.drop_left]

theorem length_of_drop {data : Str} {n : Nat} {c : Char} {rest : Str}
    (h : data.drop n = c :: rest) : data.length = n + 1 + rest.length := by
  have h1 := congrArg List.length h
  simp only [List.length_drop, List.length_cons] at h1
  omega

theorem substr_of_drop {data : Str} {n : Nat} (xs : Str) {rest : Str}
    (h : data.drop n = xs ++ rest) : substr data n xs.length = xs := by
  simp [substr, h]

namespace JsonObject

theorem _parseText_loop_scan (data : Str) (base : Nat) (rest : Str) :
    ∀ (s : Str) (step n : Nat), 1 ≤ base + step → readAt data (base + step - 1) ≠ '\\' →
      (∀ c ∈ s, c ≠ '"' ∧ c ≠ '\\') → data.drop (base + step) = s ++ '"' :: rest →
      s.length + 1 ≤ n → _parseText_loop data base n step true = (0, step + s.length) := by
  intro s
  induction s with
  | nil =>
    intro step n h1 hprev _ hd hn
    obtain ⟨m, rfl⟩ : ∃ m, n = m + 1 := ⟨n - 1, by simp at hn; omega⟩
    have hc : readAt data (base + step) = '"' := readAt_of_drop hd
    have hp : readPrev data base step ≠ '\\' := by
      simp only [readPrev]; rw [if_neg (by omega)]; exact hprev
    simp [_parseText_loop, hc, hp]
  | cons c s ih =>
    intro step n h1 hprev hs hd hn
    obtain ⟨m, rfl⟩ : ∃ m, n = m + 1 := ⟨n - 1, by simp at hn; omega⟩
    have hc : readAt data (base + step) = c := readAt_of_drop hd
    have hcq : c ≠ '"' := (hs c (List.mem_cons_self _ _)).1
    have hcb : c ≠ '\\' := (hs c (List.mem_cons_self _ _)).2
    have hd1 : data.drop (base + (step + 1)) = s ++ '"' :: rest := drop_succ_of_drop hd
    have := ih (step + 1) m (by omega) (by simpa [hc] using hcb)
      (fun x hx => hs x (List.mem_cons_of_mem _ hx)) hd1 (by simp at hn; omega)
    simp only [_parseText_loop, hc]
    rw [if_neg (by simp [hcq]), this]
    simp; omega

theorem _parseText_quoted (data : Str) (base len e : Nat) (s rest : Str)
    (hprev : readPrev data base 0 ≠ '\\') (hs : ∀ c ∈ s, c ≠ '"' ∧ c ≠ '\\')
    (hd : data.drop base = '"' :: (s ++ '"' :: rest)) (hlen : s.length + 2 ≤ len)
    (h3 : 3 ≤ len) : _parseText data base len e = (0, s.length + 1) := by
  obtain ⟨m, rfl⟩ : ∃ m, len = m + 1 := ⟨len - 1, by omega⟩
  have hc : readAt data (base + 0) = '"' := readAt_of_drop hd
  have hd1 : data.drop (base + 1) = s ++ '"' :: rest := drop_succ_of_drop hd
  have hq : readAt data (base + 1 - 1) ≠ '\\' := by
    have : readAt data base = '"' := readAt_of_drop hd
    simp [this]
  have := _parseText_loop_scan data base rest s 1 m (by omega) hq hs hd1 (by omega)
  simp only [_parseText]
  rw [if_neg (by omega)]
  simp only [_parseText_loop, hc]
  rw [if_pos ⟨trivial, hprev⟩]
  simp [this]; omega

end JsonObject

namespace JsonObject

/-- Loop exit of `_parseObject` when `step` has reached `len`. -/
theorem obj_loop_done (fuel : Nat) (data : Str) (base len step errPos end_ : Nat)
    (stepValue : Bool) (key : Str) (obj : JsonObject) (h : ¬ step < len) :
    _parseObject_loop fuel data base len step errPos end_ stepValue key obj
      = some (step, errPos, end_, obj) := by
  cases fuel <;> simp [_parseObject_loop, h]

/-- Key state, opening quote: the key is scanned by `_parseText`. -/
theorem obj_loop_key (fuel : Nat) (data : Str) (base len step errPos end_ e : Nat)
    (key : Str) (obj : JsonObject) (h : step < len)
    (hc : readAt data (base + step) = '"')
    (ht : _parseText data (base + step) (len - step) end_ = (0, e)) (he : e ≠ 0) :
    _parseObject_loop (fuel + 1) data base len step errPos end_ false key obj
      = _parseObject_loop fuel data base len (step + e + 1) 0 e false
          (substr data (base + step + 1) (e - 1)) obj := by
  rw [_parseObject_loop]
  simp [h, hc, ht, he]

/-- Key state, colon: switch to the value state. -/
theorem obj_loop_colon (fuel : Nat) (data : Str) (base len step errPos end_ : Nat)
    (key : Str) (obj : JsonObject) (h : step < len)
    (hc : readAt data (base + step) = ':') :
    _parseObject_loop (fuel + 1) data base len step errPos end_ false key obj
      = _parseObject_loop fuel data base len (step + 1) errPos end_ true key obj := by
  rw [_parseObject_loop]
  simp [h, hc]

end JsonObject

namespace JsonObject

/-- Value state, a character that no branch handles (white space): next character. -/
theorem obj_loop_space (fuel : Nat) (data : Str) (base len step errPos end_ : Nat)
    (key : Str) (obj : JsonObject) (h : step < len)
    (hc : readAt data (base + step) = ' ' ∨ readAt data (base + step) = '\r'
      ∨ readAt data (base + step) = '\n') :
    _parseObject_loop (fuel + 1) data base len step errPos end_ true key obj
      = _parseObject_loop fuel data base len (step + 1) errPos end_ true key obj := by
  rw [_parseObject_loop]
  rcases hc with hc | hc | hc <;> simp [h, hc, isCharNumber, NUM_SYMBOLS]

/-- Value state, opening quote: the text is scanned by `_parseText` and stored with `setValue`. -/
theorem obj_loop_text (fuel : Nat) (data : Str) (base len step errPos end_ e : Nat)
    (key : Str) (obj : JsonObject) (h : step < len)
    (hc : readAt data (base + step) = '"')
    (ht : _parseText data (base + step) (len - step) end_ = (0, e)) (he : e ≠ 0) :
    _parseObject_loop (fuel + 1) data base len step errPos end_ true key obj
      = _parseObject_loop fuel data base len (step + e + 1) 0 e true key
          (obj.setValue key (ofString (substr data (base + step + 1) (e - 1)))) := by
  rw [_parseObject_loop]
  simp [h, hc, ht, he]

/-- Value state, closing brace: the loop is left with `errPos` unchanged. -/
theorem obj_loop_close (fuel : Nat) (data : Str) (base len step errPos end_ : Nat)
    (key : Str) (obj : JsonObject) (h : step < len)
    (hc : readAt data (base + step) = '}') :
    _parseObject_loop (fuel + 1) data base len step errPos end_ true key obj
      = some (step, errPos, end_, obj) := by
  rw [_parseObject_loop]
  simp [h, hc, isCharNumber, NUM_SYMBOLS]

/-- Value state, comma: back to the key state. -/
theorem obj_loop_comma (fuel : Nat) (data : Str) (base len step errPos end_ : Nat)
    (key : Str) (obj : JsonObject) (h : step < len)
    (hc : readAt data (base + step) = ',') :
    _parseObject_loop (fuel + 1) data base len step errPos end_ true key obj
      = _parseObject_loop fuel data base len (step + 1) errPos end_ false key obj := by
  rw [_parseObject_loop]
  simp [h, hc, isCharNumber, NUM_SYMBOLS]

/-- Key state, a character other than the quote and the colon: ignored. -/
theorem obj_loop_key_skip (fuel : Nat) (data : Str) (base len step errPos end_ : Nat)
    (key : Str) (obj : JsonObject) (h : step < len)
    (hq : readAt data (base + step) ≠ '"') (hc : readAt data (base + step) ≠ ':') :
    _parseObject_loop (fuel + 1) data base len step errPos end_ false key obj
      = _parseObject_loop fuel data base len (step + 1) errPos end_ false key obj := by
  rw [_parseObject_loop]
  simp [h, hc, hq]

/-- Value state, a number character: the token is scanned by `_parseNumber`. -/
theorem obj_loop_number (fuel : Nat) (data : Str) (base len step errPos end_ : Nat)
    (key : Str) (obj : JsonObject) (h : step < len)
    (hc : isCharNumber (readAt data (base + step)) = true) :
    _parseObject_loop (fuel + 1) data base len step errPos end_ true key obj
      = (let r := _parseNumber data (base + step) (len - step) end_
         if r.1 > 0 then some (step, r.1, r.2, obj)
         else if r.2 = 0 then some (step, r.1, r.2, obj)
         else _parseObject_loop fuel data base len (step + (r.2 - 1) + 1) r.1 r.2 true key
           (obj.mapAssign key (jsonNum (substr data (base + step) r.2)))) := by
  have hn : readAt data (base + step) ≠ 'n' := by
    intro hh; rw [hh] at hc; revert hc; decide
  have ht : readAt data (base + step) ≠ 't' := by
    intro hh; rw [hh] at hc; revert hc; decide
  have hf : readAt data (base + step) ≠ 'f' := by
    intro hh; rw [hh] at hc; revert hc; decide
  have hq : readAt data (base + step) ≠ '"' := by
    intro hh; rw [hh] at hc; revert hc; decide
  rw [_parseObject_loop]
  simp [h, hc, hn, ht, hf, hq]

/-- The prologue and epilogue of `_parseObject` around its loop. -/
theorem _parseObject_eq (fuel : Nat) (data : Str) (base len end_ : Nat) (obj : JsonObject)
    (h2 : 2 ≤ len) (hc : readAt data base = '{') :
    _parseObject (fuel + 1) data base len end_ obj
      = match _parseObject_loop fuel data base len 1 1 0 false [] (obj.setType .JSON_OBJECT) with
        | none => none
        | some (step, errPos, end1, obj1) =>
          if errPos = 0 then some (0, step, obj1)
          else some (errPos + step, end1, obj1.setType .JSON_ERROR) := by
  rw [_parseObject]
  simp [hc, show ¬ len < 2 by omega]

/-- The method `parse` on a buffer that starts with `{`. -/
theorem parse_brace (self : JsonObject) (data : Str) (h2 : 2 ≤ data.length)
    (hc : readAt data 0 = '{') :
    parse self data
      = match _parseObject (2 * data.length) data 0 data.length 0 new with
        | none => none
        | some (errPos, _, obj) => some (errPos, obj) := by
  obtain ⟨m, hm⟩ : ∃ m, data.length = m + 1 := ⟨data.length - 1, by omega⟩
  simp only [parse]
  rw [if_neg (by omega)]
  rw [hm, parse_loop]
  simp [hc, clear, new]

end JsonObject

namespace JsonObject

theorem parse_textMember (self : JsonObject) (k s : Str)
    (hk : ∀ c ∈ k, c ≠ '"' ∧ c ≠ '\\') (hs : ∀ c ∈ s, c ≠ '"' ∧ c ≠ '\\') :
    parse self (textMember k s)
      = some (0, (new.setType .JSON_OBJECT).setValue k (ofString s)) := by
  have hlen : (textMember k s).length = k.length + s.length + 8 := by
    simp [textMember]; omega
  have h0 : (textMember k s).drop 0
      = '{' :: '"' :: (k ++ '"' :: ':' :: ' ' :: '"' :: (s ++ ['"', '}'])) := rfl
  have h1 := drop_succ_of_drop h0
  have h2 := drop_succ_of_drop h1
  have h3 := drop_add_of_drop k h2
  have h4 := drop_succ_of_drop h3
  have h5 := drop_succ_of_drop h4
  have h6 := drop_succ_of_drop h5
  have h7 := drop_succ_of_drop h6
  have h8 := drop_add_of_drop s h7
  have h9 := drop_succ_of_drop h8
  obtain ⟨f, hf⟩ : ∃ f, 2 * (textMember k s).length = f + 6 := ⟨2 * (textMember k s).length - 6, by rw [hlen]; omega⟩
  rw [parse_brace _ _ (by omega) (readAt_of_drop h0), hf,
    _parseObject_eq _ _ _ _ _ _ (by omega) (readAt_of_drop h0)]
  -- the key
  have hkey : _parseText (textMember k s) (0 + 1) ((textMember k s).length - 1) 0
      = (0, k.length + 1) :=
    _parseText_quoted _ _ _ _ k _ (by simp [readPrev, readAt_of_drop h0]) hk h1
      (by omega) (by omega)
  rw [obj_loop_key _ _ _ _ _ _ _ _ _ _ (by omega) (readAt_of_drop h1) hkey (by omega)]
  have hsub : substr (textMember k s) (0 + 1 + 1) (k.length + 1 - 1) = k := by
    simpa using substr_of_drop k h2
  rw [hsub]
  -- the colon and the space
  rw [obj_loop_colon _ _ _ _ _ _ _ _ _ (by omega)
    (by rw [show 0 + (1 + (k.length + 1) + 1) = 0 + 1 + 1 + k.length + 1 by omega]
        exact readAt_of_drop h4)]
  rw [obj_loop_space _ _ _ _ _ _ _ _ _ (by omega)
    (Or.inl (by
      rw [show 0 + (1 + (k.length + 1) + 1 + 1) = 0 + 1 + 1 + k.length + 1 + 1 by omega]
      exact readAt_of_drop h5))]
  -- the value
  have hidx : 0 + (1 + (k.length + 1) + 1 + 1 + 1) = 0 + 1 + 1 + k.length + 1 + 1 + 1 := by
    omega
  have hval : _parseText (textMember k s) (0 + (1 + (k.length + 1) + 1 + 1 + 1))
      ((textMember k s).length - (1 + (k.length + 1) + 1 + 1 + 1)) (k.length + 1)
      = (0, s.length + 1) := by
    rw [hidx]
    refine _parseText_quoted _ _ _ _ s _ ?_ hs h6 (by omega) (by omega)
    simp only [readPrev]
    rw [if_neg (by omega)]
    rw [show 0 + 1 + 1 + k.length + 1 + 1 + 1 + 0 - 1 = 0 + 1 + 1 + k.length + 1 + 1 by omega,
      readAt_of_drop h5]
    decide
  rw [obj_loop_text _ _ _ _ _ _ _ _ _ _ (by omega) (by rw [hidx]; exact readAt_of_drop h6)
    hval (by omega)]
  have hsub2 : substr (textMember k s) (0 + (1 + (k.length + 1) + 1 + 1 + 1) + 1)
      (s.length + 1 - 1) = s := by
    rw [show 0 + (1 + (k.length + 1) + 1 + 1 + 1) + 1
      = 0 + 1 + 1 + k.length + 1 + 1 + 1 + 1 by omega]
    simpa using substr_of_drop s h7
  rw [hsub2]
  -- the closing brace
  rw [obj_loop_close _ _ _ _ _ _ _ _ _ (by omega)
    (by rw [show 0 + (1 + (k.length + 1) + 1 + 1 + 1 + (s.length + 1) + 1)
          = 0 + 1 + 1 + k.length + 1 + 1 + 1 + 1 + s.length + 1 by omega]
        exact readAt_of_drop h9)]
  simp [setValue, setType]

end JsonObject

/-! ## Scanning numbers and words -/

namespace JsonObject

theorem _parseNumber_loop_scan (data : Str) (base : Nat) (t : Char) (rest : Str)
    (ht : isCharNumber t = false) :
    ∀ (ds : Str) (i n : Nat), (∀ c ∈ ds, isCharNumber c = true) →
      data.drop (base + i) = ds ++ t :: rest → ds.length + 1 ≤ n →
      _parseNumber_loop data base n i
        = if t = ' ' ∨ t = ',' ∨ t = '\r' ∨ t = '\n' then (0, i + ds.length)
          else (i + ds.length + 1, i + ds.length) := by
  intro ds
  induction ds with
  | nil =>
    intro i n _ hd hn
    obtain ⟨m, rfl⟩ : ∃ m, n = m + 1 := ⟨n - 1, by simp at hn; omega⟩
    have hc : readAt data (base + i) = t := readAt_of_drop hd
    simp [_parseNumber_loop, hc, ht]
  | cons c ds ih =>
    intro i n hds hd hn
    obtain ⟨m, rfl⟩ : ∃ m, n = m + 1 := ⟨n - 1, by simp at hn; omega⟩
    have hc : readAt data (base + i) = c := readAt_of_drop hd
    have hd1 : data.drop (base + (i + 1)) = ds ++ t :: rest := drop_succ_of_drop hd
    have := ih (i + 1) m (fun x hx => hds x (List.mem_cons_of_mem _ hx)) hd1
      (by simp at hn; omega)
    simp only [_parseNumber_loop, hc, hds c (List.mem_cons_self _ _), if_true]
    rw [this]
    simp only [List.length_cons]
    rw [show i + 1 + ds.length = i + (ds.length + 1) by omega]

/-- A run `ds` of number characters followed by another character `t`: `_parseNumber` accepts
the run when `t` is a space, a comma, CR or LF and reports an error otherwise. -/
theorem _parseNumber_token (data : Str) (base len e : Nat) (ds : Str) (t : Char) (rest : Str)
    (hds : ∀ c ∈ ds, isCharNumber c = true) (ht : isCharNumber t = false)
    (hd : data.drop base = ds ++ t :: rest) (hlen : ds.length + 1 ≤ len) (h2 : 2 ≤ len) :
    _parseNumber data base len e
      = if t = ' ' ∨ t = ',' ∨ t = '\r' ∨ t = '\n' then (0, ds.length)
        else (ds.length + 1, ds.length) := by
  have := _parseNumber_loop_scan data base t rest ht ds 0 len hds hd hlen
  simp only [_parseNumber]
  rw [if_neg (by omega), this]
  simp

theorem isCharNumber_digitChar (d : Nat) (h : d < 10) : isCharNumber (Nat.digitChar d) = true := by
  interval_cases d <;> decide

theorem toDigitsCore_numbers (fuel : Nat) :
    ∀ (n : Nat) (ds : Str), (∀ c ∈ ds, isCharNumber c = true) →
      ∀ c ∈ Nat.toDigitsCore 10 fuel n ds, isCharNumber c = true := by
  induction fuel with
  | zero => intro n ds h; simpa [Nat.toDigitsCore] using h
  | succ f ih =>
    intro n ds h
    have hd : isCharNumber (Nat.digitChar (n % 10)) = true :=
      isCharNumber_digitChar _ (Nat.mod_lt _ (by decide))
    have hcons : ∀ c ∈ Nat.digitChar (n % 10) :: ds, isCharNumber c = true := by
      intro c hc
      rcases List.mem_cons.mp hc with rfl | hc
      · exact hd
      · exact h c hc
    simp only [Nat.toDigitsCore]
    split
    · exact hcons
    · exact ih _ _ hcons

theorem toDigitsCore_ne_nil (fuel : Nat) :
    ∀ (n : Nat) (ds : Str), ds ≠ [] → Nat.toDigitsCore 10 fuel n ds ≠ [] := by
  induction fuel with
  | zero => intro n ds h; simpa [Nat.toDigitsCore] using h
  | succ f ih =>
    intro n ds _
    simp only [Nat.toDigitsCore]
    split
    · simp
    · exact ih _ _ (by simp)

/-- The decimal text of an integer consists of number characters. -/
theorem to_string_numbers (value : Int) : ∀ c ∈ to_string value, isCharNumber c = true := by
  have h : ∀ n : Nat, ∀ c ∈ natDigits n, isCharNumber c = true := fun n =>
    toDigitsCore_numbers _ _ _ (by simp)
  intro c hc
  simp only [to_string] at hc
  split at hc
  · rcases List.mem_cons.mp hc with rfl | hc
    · decide
    · exact h _ c hc
  · exact h _ c hc

/-- The decimal text of an integer is not empty. -/
theorem to_string_ne_nil (value : Int) : to_string value ≠ [] := by
  have h : ∀ n : Nat, natDigits n ≠ [] := by
    intro n
    simp only [natDigits, Nat.toDigits, Nat.toDigitsCore]
    split
    · simp
    · exact toDigitsCore_ne_nil _ _ _ (by simp)
  simp only [to_string]
  split
  · simp
  · exact h _

end JsonObject

namespace JsonObject

/-- Value state, an accepted number token. -/
theorem obj_loop_number_ok (fuel : Nat) (data : Str) (base len step errPos end_ e : Nat)
    (key : Str) (obj : JsonObject) (h : step < len)
    (hc : isCharNumber (readAt data (base + step)) = true)
    (hn : _parseNumber data (base + step) (len - step) end_ = (0, e)) (he : e ≠ 0) :
    _parseObject_loop (fuel + 1) data base len step errPos end_ true key obj
      = _parseObject_loop fuel data base len (step + (e - 1) + 1) 0 e true key
          (obj.mapAssign key (jsonNum (substr data (base + step) e))) := by
  rw [obj_loop_number _ _ _ _ _ _ _ _ _ h hc]
  simp [hn, he]

end JsonObject

/-! ## Runs of the object loop over a key and over a string value -/

namespace JsonObject

theorem length_of_drop_append {data : Str} {n : Nat} {xs : Str}
    (h : data.drop n = xs) (hne : xs ≠ []) : data.length = n + xs.length := by
  have h1 := congrArg List.length h
  simp only [List.length_drop] at h1
  have : 0 < xs.length := List.length_pos.mpr hne
  omega

/-- Key state at the opening quote of `"k":` — two iterations lead to the value state just
after the colon, with `key = k`. -/
theorem obj_loop_key_colon (fuel : Nat) (data : Str) (base len step errPos end_ : Nat)
    (key k rest : Str) (obj : JsonObject) (hlen : len = data.length - base)
    (hk : plain k) (hprev : readPrev data (base + step) 0 ≠ '\\')
    (hd : data.drop (base + step) = '"' :: (k ++ '"' :: ':' :: rest)) :
    _parseObject_loop (fuel + 2) data base len step errPos end_ false key obj
      = _parseObject_loop fuel data base len (step + k.length + 3) 0 (k.length + 1) true k
          obj := by
  have hdl := length_of_drop_append hd (by simp)
  simp only [List.length_cons, List.length_append] at hdl
  have h1 := drop_succ_of_drop hd
  have h2 := drop_add_of_drop k h1
  have h3 := drop_succ_of_drop h2
  have hkey : _parseText data (base + step) (len - step) end_ = (0, k.length + 1) :=
    _parseText_quoted _ _ _ _ k _ hprev hk hd (by omega) (by omega)
  rw [obj_loop_key _ _ _ _ _ _ _ _ _ _ (by omega) (readAt_of_drop hd) hkey (by omega)]
  have hsub : substr data (base + step + 1) (k.length + 1 - 1) = k := by
    simpa using substr_of_drop k h1
  rw [hsub]
  rw [obj_loop_colon _ _ _ _ _ _ _ _ _ (by omega)
    (by rw [show base + (step + (k.length + 1) + 1) = base + step + 1 + k.length + 1 by omega]
        exact readAt_of_drop h3)]
  rw [show step + (k.length + 1) + 1 + 1 = step + k.length + 3 by omega]

/-- Value state at the opening quote of a string `"s"` that is followed by `rest`: one iteration
stores the string under `key` and leads to the character after the closing quote. -/
theorem obj_loop_string (fuel : Nat) (data : Str) (base len step errPos end_ : Nat)
    (key s rest : Str) (obj : JsonObject) (hlen : len = data.length - base)
    (hs : plain s) (hprev : readPrev data (base + step) 0 ≠ '\\')
    (hd : data.drop (base + step) = '"' :: (s ++ '"' :: rest))
    (h3 : 3 ≤ s.length + 2 + rest.length) :
    _parseObject_loop (fuel + 1) data base len step errPos end_ true key obj
      = _parseObject_loop fuel data base len (step + s.length + 2) 0 (s.length + 1) true key
          (obj.setValue key (ofString s)) := by
  have hdl := length_of_drop_append hd (by simp)
  simp only [List.length_cons, List.length_append] at hdl
  have h1 := drop_succ_of_drop hd
  have hval : _parseText data (base + step) (len - step) end_ = (0, s.length + 1) :=
    _parseText_quoted _ _ _ _ s _ hprev hs hd (by omega) (by omega)
  rw [obj_loop_text _ _ _ _ _ _ _ _ _ _ (by omega) (readAt_of_drop hd) hval (by omega)]
  have hsub : substr data (base + step + 1) (s.length + 1 - 1) = s := by
    simpa using substr_of_drop s h1
  rw [hsub, show step + (s.length + 1) + 1 = step + s.length + 2 by omega]

/-- The character before offset `n + 1` is the one at offset `n`. -/
theorem readPrev_succ (data : Str) (n : Nat) : readPrev data (n + 1) 0 = readAt data n := by
  simp [readPrev]

end JsonObject

/-! ## Error exits -/

namespace JsonObject

/-- A non-zero return value of `_parseObject` comes with the kind `JSON_ERROR`. -/
theorem _parseObject_error (fuel : Nat) (data : Str) (base len end_ : Nat) (obj : JsonObject)
    (r e : Nat) (obj1 : JsonObject)
    (h : _parseObject fuel data base len end_ obj = some (r, e, obj1)) (hr : r ≠ 0) :
    obj1.m_type = .JSON_ERROR := by
  cases fuel with
  | zero => simp [_parseObject] at h
  | succ f =>
    rw [_parseObject] at h
    split at h
    · simp only [Option.some.injEq, Prod.mk.injEq] at h
      rw [← h.2.2]; rfl
    · split at h
      · simp only [Option.some.injEq, Prod.mk.injEq] at h
        rw [← h.2.2]; rfl
      · split at h
        · simp at h
        · split at h
          · simp only [Option.some.injEq, Prod.mk.injEq] at h
            exact absurd h.1.symm hr
          · simp only [Option.some.injEq, Prod.mk.injEq] at h
            rw [← h.2.2]; rfl

/-- A non-zero return value of `_parseArray` comes with the kind `JSON_ERROR`. -/
theorem _parseArray_error (fuel : Nat) (data : Str) (base len end_ : Nat) (obj : JsonObject)
    (r e : Nat) (obj1 : JsonObject)
    (h : _parseArray fuel data base len end_ obj = some (r, e, obj1)) (hr : r ≠ 0) :
    obj1.m_type = .JSON_ERROR := by
  cases fuel with
  | zero => simp [_parseArray] at h
  | succ f =>
    rw [_parseArray] at h
    split at h
    · simp only [Option.some.injEq, Prod.mk.injEq] at h
      rw [← h.2.2]; rfl
    · split at h
      · simp only [Option.some.injEq, Prod.mk.injEq] at h
        rw [← h.2.2]; rfl
      · split at h
        · simp at h
        · split at h
          · simp only [Option.some.injEq, Prod.mk.injEq] at h
            exact absurd h.1.symm hr
          · simp only [Option.some.injEq, Prod.mk.injEq] at h
            rw [← h.2.2]; rfl

/-- The loop of `parse` either dispatches to a structure parser, whose failure marks the value
`JSON_ERROR`, or leaves the value as it is when the characters left hold no `{` or `[` behind
the blanks. -/
theorem parse_loop_error (data : Str) (len : Nat) (self : JsonObject) :
    ∀ (n step : Nat) (r : Nat) (obj : JsonObject), n + step = data.length →
      parse_loop data len self n step = some (r, obj) → r ≠ 0 →
      obj.m_type = .JSON_ERROR ∨
        (obj = self ∧ firstSignificant (data.drop step) ≠ some '{'
          ∧ firstSignificant (data.drop step) ≠ some '[') := by
  intro n
  induction n with
  | zero =>
    intro step r obj hn h _
    simp only [parse_loop, Option.some.injEq, Prod.mk.injEq] at h
    have : data.drop step = [] := List.drop_eq_nil_of_le (by omega)
    right
    simp [h.2, this, firstSignificant]
  | succ m ih =>
    intro step r obj hn h hr
    obtain ⟨c, rest, hd⟩ : ∃ c rest, data.drop step = c :: rest := by
      cases hdd : data.drop step with
      | nil =>
        have := congrArg List.length hdd
        simp only [List.length_drop, List.length_nil] at this
        omega
      | cons c rest => exact ⟨c, rest, rfl⟩
    have hc : readAt data step = c := readAt_of_drop hd
    simp only [parse_loop, hc] at h
    split at h
    · left
      split at h
      · simp at h
      · rename_i errPos e obj1 heq
        simp only [Option.some.injEq, Prod.mk.injEq] at h
        rw [← h.2]
        exact _parseObject_error _ _ _ _ _ _ _ _ _ heq (by rw [h.1]; exact hr)
    · split at h
      · left
        split at h
        · simp at h
        · rename_i errPos e obj1 heq
          simp only [Option.some.injEq, Prod.mk.injEq] at h
          rw [← h.2]
          exact _parseArray_error _ _ _ _ _ _ _ _ _ heq (by rw [h.1]; exact hr)
      · rename_i hb1 hb2
        split at h
        · rename_i hblank
          have hrec := ih (step + 1) r obj (by omega) h hr
          have hd1 : data.drop (step + 1) = rest := drop_succ_of_drop hd
          rw [hd1] at hrec
          have hbl : isBlank c = true := by
            rcases hblank with hh | hh | hh <;> simp [isBlank, hh]
          rcases hrec with hrec | hrec
          · exact Or.inl hrec
          · right
            rw [hd]
            simpa [firstSignificant, List.find?, hbl] using hrec
        · rename_i hblank
          simp only [Option.some.injEq, Prod.mk.injEq] at h
          right
          have hbl : isBlank c = false := by
            simp only [not_or] at hblank
            simp [isBlank, hblank.1, hblank.2.1, hblank.2.2]
          rw [hd]
          refine ⟨h.2.symm, ?_, ?_⟩
          · simp [firstSignificant, List.find?, hbl]; exact hb1
          · simp [firstSignificant, List.find?, hbl]; exact hb2

end JsonObject

/-! ## One iteration of the object loop, branch by branch -/

namespace JsonObject

/-- Value state, `n`: the word `null`. -/
theorem obj_loop_null (fuel : Nat) (data : Str) (base len step errPos end_ : Nat)
    (key : Str) (obj : JsonObject) (h : step < len) (hc : readAt data (base + step) = 'n') :
    _parseObject_loop (fuel + 1) data base len step errPos end_ true key obj
      = if _compareWord data (base + step) (len - step) word_null > 0 then
          some (step, _compareWord data (base + step) (len - step) word_null, end_, obj)
        else _parseObject_loop fuel data base len (step + 3 + 1)
          (_compareWord data (base + step) (len - step) word_null) end_ true key
          (obj.setValue key new) := by
  rw [_parseObject_loop]
  simp [h, hc]

/-- Value state, `t`: the word `true`. -/
theorem obj_loop_true (fuel : Nat) (data : Str) (base len step errPos end_ : Nat)
    (key : Str) (obj : JsonObject) (h : step < len) (hc : readAt data (base + step) = 't') :
    _parseObject_loop (fuel + 1) data base len step errPos end_ true key obj
      = if _compareWord data (base + step) (len - step) word_true > 0 then
          some (step, _compareWord data (base + step) (len - step) word_true, end_, obj)
        else _parseObject_loop fuel data base len (step + 3 + 1)
          (_compareWord data (base + step) (len - step) word_true) end_ true key
          (obj.setValue key (ofBool true)) := by
  rw [_parseObject_loop]
  simp [h, hc]

/-- Value state, `f`: the word `false`. -/
theorem obj_loop_false (fuel : Nat) (data : Str) (base len step errPos end_ : Nat)
    (key : Str) (obj : JsonObject) (h : step < len) (hc : readAt data (base + step) = 'f') :
    _parseObject_loop (fuel + 1) data base len step errPos end_ true key obj
      = if _compareWord data (base + step) (len - step) word_false > 0 then
          some (step, _compareWord data (base + step) (len - step) word_false, end_, obj)
        else _parseObject_loop fuel data base len (step + 4 + 1)
          (_compareWord data (base + step) (len - step) word_false) end_ true key
          (obj.setValue key (ofBool false)) := by
  rw [_parseObject_loop]
  simp [h, hc]

/-- Value state, opening quote, whatever `_parseText` returns. -/
theorem obj_loop_quote (fuel : Nat) (data : Str) (base len step errPos end_ : Nat)
    (key : Str) (obj : JsonObject) (h : step < len) (hc : readAt data (base + step) = '"') :
    _parseObject_loop (fuel + 1) data base len step errPos end_ true key obj
      = if (_parseText data (base + step) (len - step) end_).1 > 0 then
          some (step, (_parseText data (base + step) (len - step) end_).1,
            (_parseText data (base + step) (len - step) end_).2, obj)
        else if (_parseText data (base + step) (len - step) end_).2 = 0 then
          some (step, (_parseText data (base + step) (len - step) end_).1,
            (_parseText data (base + step) (len - step) end_).2, obj)
        else _parseObject_loop fuel data base len
          (step + (_parseText data (base + step) (len - step) end_).2 + 1)
          (_parseText data (base + step) (len - step) end_).1
          (_parseText data (base + step) (len - step) end_).2 true key
          (obj.setValue key (ofString (substr data (base + step + 1)
            ((_parseText data (base + step) (len - step) end_).2 - 1)))) := by
  rw [_parseObject_loop]
  simp [h, hc]

/-- Value state, opening brace: a nested object. -/
theorem obj_loop_object (fuel : Nat) (data : Str) (base len step errPos end_ : Nat)
    (key : Str) (obj : JsonObject) (h : step < len) (hc : readAt data (base + step) = '{') :
    _parseObject_loop (fuel + 1) data base len step errPos end_ true key obj
      = match _parseObject fuel data (base + step) (len - step) end_ new with
        | none => none
        | some (errPos1, end1, jsonObj) =>
          if errPos1 > 0 then some (step, errPos1, end1, obj)
          else if end1 = 0 then some (step, errPos1, end1, obj)
          else _parseObject_loop fuel data base len (step + end1 + 1) errPos1 end1 true key
            (obj.mapAssign key jsonObj) := by
  rw [_parseObject_loop]
  simp [h, hc, isCharNumber, NUM_SYMBOLS]

/-- Value state, opening bracket: a nested array. -/
theorem obj_loop_array (fuel : Nat) (data : Str) (base len step errPos end_ : Nat)
    (key : Str) (obj : JsonObject) (h : step < len) (hc : readAt data (base + step) = '[') :
    _parseObject_loop (fuel + 1) data base len step errPos end_ true key obj
      = match _parseArray fuel data (base + step) (len - step) end_ new with
        | none => none
        | some (errPos1, end1, jsonObj) =>
          if errPos1 > 0 then some (step, errPos1, end1, obj)
          else if end1 = 0 then some (step, errPos1, end1, obj)
          else _parseObject_loop fuel data base len (step + end1 + 1) errPos1 end1 true key
            (obj.mapAssign key jsonObj) := by
  rw [_parseObject_loop]
  simp [h, hc, isCharNumber, NUM_SYMBOLS]

/-- Value state, a character that no branch handles: next character. -/
theorem obj_loop_other (fuel : Nat) (data : Str) (base len step errPos end_ : Nat)
    (key : Str) (obj : JsonObject) (h : step < len)
    (hn : readAt data (base + step) ≠ 'n') (ht : readAt data (base + step) ≠ 't')
    (hf : readAt data (base + step) ≠ 'f') (hq : readAt data (base + step) ≠ '"')
    (hnum : isCharNumber (readAt data (base + step)) = false)
    (ho : readAt data (base + step) ≠ '{') (ha : readAt data (base + step) ≠ '[')
    (hcm : readAt data (base + step) ≠ ',') (hcl : readAt data (base + step) ≠ '}') :
    _parseObject_loop (fuel + 1) data base len step errPos end_ true key obj
      = _parseObject_loop fuel data base len (step + 1) errPos end_ true key obj := by
  rw [_parseObject_loop]
  simp [h, hn, ht, hf, hq, hnum, ho, ha, hcm, hcl]

/-- Key state, opening quote, whatever `_parseText` returns. -/
theorem obj_loop_key_quote (fuel : Nat) (data : Str) (base len step errPos end_ : Nat)
    (key : Str) (obj : JsonObject) (h : step < len) (hc : readAt data (base + step) = '"') :
    _parseObject_loop (fuel + 1) data base len step errPos end_ false key obj
      = if (_parseText data (base + step) (len - step) end_).1 > 0 then
          some (step, (_parseText data (base + step) (len - step) end_).1,
            (_parseText data (base + step) (len - step) end_).2, obj)
        else if (_parseText data (base + step) (len - step) end_).2 = 0 then
          some (step, (_parseText data (base + step) (len - step) end_).1,
            (_parseText data (base + step) (len - step) end_).2, obj)
        else _parseObject_loop fuel data base len
          (step + (_parseText data (base + step) (len - step) end_).2 + 1)
          (_parseText data (base + step) (len - step) end_).1
          (_parseText data (base + step) (len - step) end_).2 false
          (substr data (base + step + 1)
            ((_parseText data (base + step) (len - step) end_).2 - 1)) obj := by
  rw [_parseObject_loop]
  simp [h, hc]

end JsonObject

/-! ## One iteration of the array loop, branch by branch -/

namespace JsonObject

/-- Loop exit of `_parseArray` when `step` has reached `len`. -/
theorem arr_loop_done (fuel : Nat) (data : Str) (base len step errPos end_ : Nat)
    (stepValue : Bool) (obj : JsonObject) (h : ¬ step < len) :
    _parseArray_loop fuel data base len step errPos end_ stepValue obj
      = some (step, errPos, end_, obj) := by
  cases fuel <;> simp [_parseArray_loop, h]

/-- Value state, `n`: the word `null`. -/
theorem arr_loop_null (fuel : Nat) (data : Str) (base len step errPos end_ : Nat)
    (obj : JsonObject) (h : step < len) (hc : readAt data (base + step) = 'n') :
    _parseArray_loop (fuel + 1) data base len step errPos end_ true obj
      = if _compareWord data (base + step) (len - step) word_null > 0 then
          some (step, _compareWord data (base + step) (len - step) word_null, end_, obj)
        else _parseArray_loop fuel data base len (step + 3 + 1)
          (_compareWord data (base + step) (len - step) word_null) end_ false
          (obj.push_back new) := by
  rw [_parseArray_loop]
  simp [h, hc]

/-- Value state, `t`: the word `true`. -/
theorem arr_loop_true (fuel : Nat) (data : Str) (base len step errPos end_ : Nat)
    (obj : JsonObject) (h : step < len) (hc : readAt data (base + step) = 't') :
    _parseArray_loop (fuel + 1) data base len step errPos end_ true obj
      = if _compareWord data (base + step) (len - step) word_true > 0 then
          some (step, _compareWord data (base + step) (len - step) word_true, end_, obj)
        else _parseArray_loop fuel data base len (step + 3 + 1)
          (_compareWord data (base + step) (len - step) word_true) end_ false
          (obj.push_back (ofBool true)) := by
  rw [_parseArray_loop]
  simp [h, hc]

/-- Value state, `f`: the word `false`. -/
theorem arr_loop_false (fuel : Nat) (data : Str) (base len step errPos end_ : Nat)
    (obj : JsonObject) (h : step < len) (hc : readAt data (base + step) = 'f') :
    _parseArray_loop (fuel + 1) data base len step errPos end_ true obj
      = if _compareWord data (base + step) (len - step) word_false > 0 then
          some (step, _compareWord data (base + step) (len - step) word_false, end_, obj)
        else _parseArray_loop fuel data base len (step + 4 + 1)
          (_compareWord data (base + step) (len - step) word_false) end_ false
          (obj.push_back (ofBool false)) := by
  rw [_parseArray_loop]
  simp [h, hc]

/-- Value state, opening quote, whatever `_parseText` returns. -/
theorem arr_loop_quote (fuel : Nat) (data : Str) (base len step errPos end_ : Nat)
    (obj : JsonObject) (h : step < len) (hc : readAt data (base + step) = '"') :
    _parseArray_loop (fuel + 1) data base len step errPos end_ true obj
      = if (_parseText data (base + step) (len - step) end_).1 > 0 then
          some (step, (_parseText data (base + step) (len - step) end_).1,
            (_parseText data (base + step) (len - step) end_).2, obj)
        else if (_parseText data (base + step) (len - step) end_).2 = 0 then
          some (step, (_parseText data (base + step) (len - step) end_).1,
            (_parseText data (base + step) (len - step) end_).2, obj)
        else _parseArray_loop fuel data base len
          (step + (_parseText data (base + step) (len - step) end_).2 + 1)
          (_parseText data (base + step) (len - step) end_).1
          (_parseText data (base + step) (len - step) end_).2 false
          (obj.push_back (ofString (substr data (base + step + 1)
            ((_parseText data (base + step) (len - step) end_).2 - 1)))) := by
  rw [_parseArray_loop]
  simp [h, hc]

/-- Value state, a number character, whatever `_parseNumber` returns. -/
theorem arr_loop_number (fuel : Nat) (data : Str) (base len step errPos end_ : Nat)
    (obj : JsonObject) (h : step < len)
    (hc : isCharNumber (readAt data (base + step)) = true) :
    _parseArray_loop (fuel + 1) data base len step errPos end_ true obj
      = if (_parseNumber data (base + step) (len - step) end_).1 > 0 then
          some (step, (_parseNumber data (base + step) (len - step) end_).1,
            (_parseNumber data (base + step) (len - step) end_).2, obj)
        else if (_parseNumber data (base + step) (len - step) end_).2 = 0 then
          some (step, (_parseNumber data (base + step) (len - step) end_).1,
            (_parseNumber data (base + step) (len - step) end_).2, obj)
        else _parseArray_loop fuel data base len
          (step + ((_parseNumber data (base + step) (len - step) end_).2 - 1) + 1)
          (_parseNumber data (base + step) (len - step) end_).1
          (_parseNumber data (base + step) (len - step) end_).2 false
          (obj.push_back (jsonNum (substr data (base + step)
            (_parseNumber data (base + step) (len - step) end_).2))) := by
  have hn : readAt data (base + step) ≠ 'n' := by
    intro hh; rw [hh] at hc; revert hc; decide
  have ht : readAt data (base + step) ≠ 't' := by
    intro hh; rw [hh] at hc; revert hc; decide
  have hf : readAt data (base + step) ≠ 'f' := by
    intro hh; rw [hh] at hc; revert hc; decide
  have hq : readAt data (base + step) ≠ '"' := by
    intro hh; rw [hh] at hc; revert hc; decide
  have hcm : readAt data (base + step) ≠ ',' := by
    intro hh; rw [hh] at hc; revert hc; decide
  have hcl : readAt data (base + step) ≠ ']' := by
    intro hh; rw [hh] at hc; revert hc; decide
  rw [_parseArray_loop]
  simp [h, hc, hn, ht, hf, hq, hcm, hcl]

/-- Value state, opening brace: a nested object. -/
theorem arr_loop_object (fuel : Nat) (data : Str) (base len step errPos end_ : Nat)
    (obj : JsonObject) (h : step < len) (hc : readAt data (base + step) = '{') :
    _parseArray_loop (fuel + 1) data base len step errPos end_ true obj
      = match _parseObject fuel data (base + step) (len - step) end_ new with
        | none => none
        | some (errPos1, end1, jsonObj) =>
          if errPos1 > 0 then some (step, errPos1, end1, obj)
          else if end1 = 0 then some (step, errPos1, end1, obj)
          else _parseArray_loop fuel data base len (step + end1 + 1) errPos1 end1 false
            (obj.push_back jsonObj) := by
  rw [_parseArray_loop]
  simp [h, hc, isCharNumber, NUM_SYMBOLS]

/-- Value state, opening bracket: a nested array; `stepValue` stays true. -/
theorem arr_loop_array (fuel : Nat) (data : Str) (base len step errPos end_ : Nat)
    (obj : JsonObject) (h : step < len) (hc : readAt data (base + step) = '[') :
    _parseArray_loop (fuel + 1) data base len step errPos end_ true obj
      = match _parseArray fuel data (base + step) (len - step) end_ new with
        | none => none
        | some (errPos1, end1, jsonArr) =>
          if errPos1 > 0 then some (step, errPos1, end1, obj)
          else if end1 = 0 then some (step, errPos1, end1, obj)
          else _parseArray_loop fuel data base len (step + end1 + 1) errPos1 end1 true
            (obj.push_back jsonArr) := by
  rw [_parseArray_loop]
  simp [h, hc, isCharNumber, NUM_SYMBOLS]

/-- No value is started (the state after a value, or a character that starts no value): only
the `,` / `]` test at the end of the loop body applies. -/
theorem arr_loop_tail (fuel : Nat) (data : Str) (base len step errPos end_ : Nat)
    (stepValue : Bool) (obj : JsonObject) (h : step < len)
    (hv : stepValue = true → readAt data (base + step) ≠ 'n' ∧
      readAt data (base + step) ≠ 't' ∧ readAt data (base + step) ≠ 'f' ∧
      readAt data (base + step) ≠ '"' ∧ isCharNumber (readAt data (base + step)) = false ∧
      readAt data (base + step) ≠ '{' ∧ readAt data (base + step) ≠ '[') :
    _parseArray_loop (fuel + 1) data base len step errPos end_ stepValue obj
      = if readAt data (base + step) = ',' then
          _parseArray_loop fuel data base len (step + 1) errPos end_ true obj
        else if readAt data (base + step) = ']' then some (step, errPos, end_, obj)
        else _parseArray_loop fuel data base len (step + 1) errPos end_ stepValue obj := by
  rw [_parseArray_loop]
  cases stepValue with
  | false => simp [h]
  | true =>
    obtain ⟨hn, ht, hf, hq, hnum, ho, ha⟩ := hv rfl
    simp [h, hn, ht, hf, hq, hnum, ho, ha]

/-- The prologue and epilogue of `_parseArray` around its loop. -/
theorem _parseArray_eq (fuel : Nat) (data : Str) (base len end_ : Nat) (obj : JsonObject)
    (h2 : 2 ≤ len) (hc : readAt data base = '[') :
    _parseArray (fuel + 1) data base len end_ obj
      = match _parseArray_loop fuel data base len 1 1 0 true (obj.setType .JSON_ARRAY) with
        | none => none
        | some (step, errPos, end1, obj1) =>
          if errPos = 0 then some (0, step, obj1)
          else some (errPos + step, end1, obj1.setType .JSON_ERROR) := by
  rw [_parseArray]
  simp [hc, show ¬ len < 2 by omega]

/-- The method `parse` on a buffer that starts with `[`. -/
theorem parse_bracket (self : JsonObject) (data : Str) (h2 : 2 ≤ data.length)
    (hc : readAt data 0 = '[') :
    parse self data
      = match _parseArray (2 * data.length) data 0 data.length 0 new with
        | none => none
        | some (errPos, _, obj) => some (errPos, obj) := by
  obtain ⟨m, hm⟩ : ∃ m, data.length = m + 1 := ⟨data.length - 1, by omega⟩
  simp only [parse]
  rw [if_neg (by omega)]
  rw [hm, parse_loop]
  simp [hc, clear, new]

end JsonObject

/-! ## Enough fuel -/

namespace JsonObject

/-- With `2 * (len - step)` units of fuel the loops return, and with `2 * len - 1` (at least 1)
units the structure parsers return: the fuel never runs out. -/
theorem fuel_suffices : ∀ fuel : Nat,
    (∀ data base len e obj, 1 ≤ fuel → 2 * len ≤ fuel + 1 →
      (_parseObject fuel data base len e obj).isSome = true) ∧
    (∀ data base len step errPos e sv key obj, 2 * (len - step) ≤ fuel →
      (_parseObject_loop fuel data base len step errPos e sv key obj).isSome = true) ∧
    (∀ data base len e obj, 1 ≤ fuel → 2 * len ≤ fuel + 1 →
      (_parseArray fuel data base len e obj).isSome = true) ∧
    (∀ data base len step errPos e sv obj, 2 * (len - step) ≤ fuel →
      (_parseArray_loop fuel data base len step errPos e sv obj).isSome = true) := by
  intro fuel
  induction fuel with
  | zero =>
    refine ⟨fun _ _ _ _ _ h => absurd h (by omega), ?_, fun _ _ _ _ _ h => absurd h (by omega), ?_⟩
    · intro data base len step errPos e sv key obj h
      simp [_parseObject_loop, show ¬ step < len by omega]
    · intro data base len step errPos e sv obj h
      simp [_parseArray_loop, show ¬ step < len by omega]
  | succ f ih =>
    obtain ⟨ihO, ihOL, ihA, ihAL⟩ := ih
    refine ⟨?_, ?_, ?_, ?_⟩
    · intro data base len e obj _ h
      rw [_parseObject]
      split
      · rfl
      · split
        · rfl
        · have := ihOL data base len 1 1 0 false [] (obj.setType .JSON_OBJECT) (by omega)
          split
          · rename_i heq; rw [heq] at this; simp at this
          · split <;> rfl
    · intro data base len step errPos e sv key obj h
      by_cases hlt : step < len
      · have hO := ihO data (base + step) (len - step) e new (by omega) (by omega)
        have hA := ihA data (base + step) (len - step) e new (by omega) (by omega)
        have hL : ∀ step1 errPos1 e1 sv1 key1 obj1, step < step1 →
            (_parseObject_loop f data base len step1 errPos1 e1 sv1 key1 obj1).isSome = true :=
          fun step1 errPos1 e1 sv1 key1 obj1 hs =>
            ihOL data base len step1 errPos1 e1 sv1 key1 obj1 (by omega)
        obtain ⟨⟨r1, e1, o1⟩, hresO⟩ := Option.isSome_iff_exists.mp hO
        obtain ⟨⟨r2, e2, o2⟩, hresA⟩ := Option.isSome_iff_exists.mp hA
        cases sv with
        | false =>
          by_cases hq : readAt data (base + step) = '"'
          · rw [obj_loop_key_quote _ _ _ _ _ _ _ _ _ hlt hq]
            split_ifs <;> first | rfl | (apply hL; omega)
          · by_cases hc : readAt data (base + step) = ':'
            · rw [obj_loop_colon _ _ _ _ _ _ _ _ _ hlt hc]
              apply hL; omega
            · rw [obj_loop_key_skip _ _ _ _ _ _ _ _ _ hlt hq hc]
              apply hL; omega
        | true =>
          by_cases hn : readAt data (base + step) = 'n'
          · rw [obj_loop_null _ _ _ _ _ _ _ _ _ hlt hn]
            split_ifs <;> first | rfl | (apply hL; omega)
          by_cases ht : readAt data (base + step) = 't'
          · rw [obj_loop_true _ _ _ _ _ _ _ _ _ hlt ht]
            split_ifs <;> first | rfl | (apply hL; omega)
          by_cases hf : readAt data (base + step) = 'f'
          · rw [obj_loop_false _ _ _ _ _ _ _ _ _ hlt hf]
            split_ifs <;> first | rfl | (apply hL; omega)
          by_cases hq : readAt data (base + step) = '"'
          · rw [obj_loop_quote _ _ _ _ _ _ _ _ _ hlt hq]
            split_ifs <;> first | rfl | (apply hL; omega)
          by_cases hnum : isCharNumber (readAt data (base + step)) = true
          · rw [obj_loop_number _ _ _ _ _ _ _ _ _ hlt hnum]
            simp only []
            split_ifs <;> first | rfl | (apply hL; omega)
          by_cases ho : readAt data (base + step) = '{'
          · rw [obj_loop_object _ _ _ _ _ _ _ _ _ hlt ho, hresO]
            simp only []
            split_ifs <;> first | rfl | (apply hL; omega)
          by_cases ha : readAt data (base + step) = '['
          · rw [obj_loop_array _ _ _ _ _ _ _ _ _ hlt ha, hresA]
            simp only []
            split_ifs <;> first | rfl | (apply hL; omega)
          by_cases hcm : readAt data (base + step) = ','
          · rw [obj_loop_comma _ _ _ _ _ _ _ _ _ hlt hcm]
            apply hL; omega
          by_cases hcl : readAt data (base + step) = '}'
          · rw [obj_loop_close _ _ _ _ _ _ _ _ _ hlt hcl]
            rfl
          rw [obj_loop_other _ _ _ _ _ _ _ _ _ hlt hn ht hf hq (by simpa using hnum) ho ha
            hcm hcl]
          apply hL; omega
      · rw [obj_loop_done _ _ _ _ _ _ _ _ _ _ hlt]
        rfl
    · intro data base len e obj _ h
      rw [_parseArray]
      split
      · rfl
      · split
        · rfl
        · have := ihAL data base len 1 1 0 true (obj.setType .JSON_ARRAY) (by omega)
          split
          · rename_i heq; rw [heq] at this; simp at this
          · split <;> rfl
    · intro data base len step errPos e sv obj h
      by_cases hlt : step < len
      · have hO := ihO data (base + step) (len - step) e new (by omega) (by omega)
        have hA := ihA data (base + step) (len - step) e new (by omega) (by omega)
        have hL : ∀ step1 errPos1 e1 sv1 obj1, step < step1 →
            (_parseArray_loop f data base len step1 errPos1 e1 sv1 obj1).isSome = true :=
          fun step1 errPos1 e1 sv1 obj1 hs =>
            ihAL data base len step1 errPos1 e1 sv1 obj1 (by omega)
        obtain ⟨⟨r1, e1, o1⟩, hresO⟩ := Option.isSome_iff_exists.mp hO
        obtain ⟨⟨r2, e2, o2⟩, hresA⟩ := Option.isSome_iff_exists.mp hA
        by_cases hstart : sv = true ∧ (readAt data (base + step) = 'n' ∨
            readAt data (base + step) = 't' ∨ readAt data (base + step) = 'f' ∨
            readAt data (base + step) = '"' ∨ isCharNumber (readAt data (base + step)) = true ∨
            readAt data (base + step) = '{' ∨ readAt data (base + step) = '[')
        · obtain ⟨hsv, hcase⟩ := hstart
          subst hsv
          by_cases hn : readAt data (base + step) = 'n'
          · rw [arr_loop_null _ _ _ _ _ _ _ _ hlt hn]
            split_ifs <;> first | rfl | (apply hL; omega)
          by_cases ht : readAt data (base + step) = 't'
          · rw [arr_loop_true _ _ _ _ _ _ _ _ hlt ht]
            split_ifs <;> first | rfl | (apply hL; omega)
          by_cases hf : readAt data (base + step) = 'f'
          · rw [arr_loop_false _ _ _ _ _ _ _ _ hlt hf]
            split_ifs <;> first | rfl | (apply hL; omega)
          by_cases hq : readAt data (base + step) = '"'
          · rw [arr_loop_quote _ _ _ _ _ _ _ _ hlt hq]
            split_ifs <;> first | rfl | (apply hL; omega)
          by_cases hnum : isCharNumber (readAt data (base + step)) = true
          · rw [arr_loop_number _ _ _ _ _ _ _ _ hlt hnum]
            split_ifs <;> first | rfl | (apply hL; omega)
          by_cases ho : readAt data (base + step) = '{'
          · rw [arr_loop_object _ _ _ _ _ _ _ _ hlt ho, hresO]
            simp only []
            split_ifs <;> first | rfl | (apply hL; omega)
          by_cases ha : readAt data (base + step) = '['
          · rw [arr_loop_array _ _ _ _ _ _ _ _ hlt ha, hresA]
            simp only []
            split_ifs <;> first | rfl | (apply hL; omega)
          rcases hcase with h1 | h1 | h1 | h1 | h1 | h1 | h1 <;> contradiction
        · rw [arr_loop_tail _ _ _ _ _ _ _ _ _ hlt (by
            intro hsv
            simp only [hsv, true_and, not_or] at hstart
            obtain ⟨a1, a2, a3, a4, a5, a6, a7⟩ := hstart
            exact ⟨a1, a2, a3, a4, by simpa using a5, a6, a7⟩)]
          split_ifs <;> first | rfl | (apply hL; omega)
      · rw [arr_loop_done _ _ _ _ _ _ _ _ _ hlt]
        rfl

/-- The method `parse` always returns: the fuel it supplies is enough. -/
theorem parse_isSome (self : JsonObject) (data : Str) : (parse self data).isSome = true := by
  have key : 2 ≤ data.length → ∀ (n step : Nat) (obj : JsonObject),
      (parse_loop data data.length obj n step).isSome = true := by
    intro h2 n
    induction n with
    | zero => intro step obj; rfl
    | succ m ih =>
      intro step obj
      have hO := (fuel_suffices (2 * data.length)).1 data step (data.length - step) 0 obj
        (by omega) (by omega)
      have hA := (fuel_suffices (2 * data.length)).2.2.1 data step (data.length - step) 0 obj
        (by omega) (by omega)
      obtain ⟨⟨r1, e1, o1⟩, hresO⟩ := Option.isSome_iff_exists.mp hO
      obtain ⟨⟨r2, e2, o2⟩, hresA⟩ := Option.isSome_iff_exists.mp hA
      simp only [parse_loop, hresO, hresA]
      split_ifs
      · rfl
      · rfl
      · exact ih _ _
      · rfl
  simp only [parse]
  split
  · rfl
  · exact key (by omega) _ _ _

end JsonObject

/-! ## Comparing a word -/

namespace JsonObject

theorem _compareWord_loop_firstDiff (data : Str) (base : Nat) :
    ∀ (ws : Str) (i : Nat), ws.length ≤ (data.drop (base + i)).length →
      _compareWord_loop data base ws i
        = (firstDiff (data.drop (base + i)) ws).map (fun j => j + (i + 1)) := by
  intro ws
  induction ws with
  | nil => intro i _; simp [_compareWord_loop, firstDiff]
  | cons w ws ih =>
    intro i hlen
    obtain ⟨d, rest, hd⟩ : ∃ d rest, data.drop (base + i) = d :: rest := by
      cases hdd : data.drop (base + i) with
      | nil => rw [hdd] at hlen; simp at hlen
      | cons d rest => exact ⟨d, rest, rfl⟩
    have hc : readAt data (base + i) = d := readAt_of_drop hd
    have hd1 : data.drop (base + (i + 1)) = rest := drop_succ_of_drop hd
    have hrec := ih (i + 1) (by rw [hd1]; rw [hd] at hlen; simpa using hlen)
    rw [hd1] at hrec
    rw [hd]
    simp only [_compareWord_loop, firstDiff, hc]
    by_cases hne : d = w
    · simp only [hne, ne_eq, not_true_eq_false, if_false, hrec, Option.map_map]
      congr 1
      funext j
      simp only [Function.comp]
      omega
    · simp [hne]

end JsonObject

/-! ## The sorted map -/

namespace JsonObject

theorem strLt_asymm : ∀ (a b : Str), strLt a b = true → strLt b a = false := by
  intro a
  induction a with
  | nil => intro b _; cases b <;> simp [strLt]
  | cons x xs ih =>
    intro b h
    cases b with
    | nil => simp [strLt] at h
    | cons y ys =>
      simp only [strLt] at h ⊢
      by_cases h1 : x.toNat < y.toNat
      · rw [if_neg (by omega), if_pos h1]
      · rw [if_neg h1] at h
        by_cases h2 : y.toNat < x.toNat
        · rw [if_pos h2] at h; simp at h
        · rw [if_neg h2] at h
          rw [if_neg h2, if_neg h1]
          exact ih ys h

/-- Assigning a key greater than all keys of the map appends the entry. -/
theorem mapSet_append (k : Str) (x : JsonObject) :
    ∀ (m : List (Str × JsonObject)), (∀ e ∈ m, strLt e.1 k = true) →
      mapSet m k x = m ++ [(k, x)] := by
  intro m
  induction m with
  | nil => intro _; rfl
  | cons e rest ih =>
    intro h
    obtain ⟨k1, x1⟩ := e
    have h1 : strLt k1 k = true := h (k1, x1) (List.mem_cons_self _ _)
    have h2 : strLt k k1 = false := strLt_asymm _ _ h1
    simp only [mapSet, h1, h2, if_true, List.cons_append]
    rw [ih (fun e he => h e (List.mem_cons_of_mem _ he))]
    simp

theorem sortedKeys_append_cons (k : Str) (x : JsonObject) :
    ∀ (done rest : List (Str × JsonObject)), sortedKeys (done ++ (k, x) :: rest) = true →
      ∀ e ∈ done, strLt e.1 k = true := by
  intro done
  induction done with
  | nil => intro _ _ e he; simp at he
  | cons d ds ih =>
    intro rest h e he
    obtain ⟨k1, x1⟩ := d
    simp only [List.cons_append, sortedKeys, Bool.and_eq_true, List.all_eq_true] at h
    rcases List.mem_cons.mp he with rfl | he
    · exact h.1 (k, x) (by simp)
    · exact ih rest h.2 e he

theorem plain_of_plainB (s : Str) (h : plainB s = true) : plain s := by
  intro c hc
  simp only [plainB, List.all_eq_true, Bool.and_eq_true, bne_iff_ne, ne_eq] at h
  exact h c hc

/-! ## Matching a word -/

theorem firstDiff_self_append (rest : Str) : ∀ (w : Str), firstDiff (w ++ rest) w = none := by
  intro w
  induction w with
  | nil => cases rest <;> rfl
  | cons c cs ih => simp [firstDiff, ih]

/-- The word followed by a space, a comma, CR or LF is accepted by `_compareWord`. -/
theorem _compareWord_match (data : Str) (base len : Nat) (word : Str) (t : Char) (rest : Str)
    (hd : data.drop base = word ++ t :: rest) (hlen : word.length ≤ len)
    (ht : t = ' ' ∨ t = ',' ∨ t = '\r' ∨ t = '\n') :
    _compareWord data base len word = 0 := by
  have hloop := _compareWord_loop_firstDiff data base word 0
    (by rw [Nat.add_zero, hd]; simp)
  simp only [Nat.add_zero, hd, firstDiff_self_append] at hloop
  have hlast : readAt data (base + word.length) = t := readAt_of_drop (drop_add_of_drop word hd)
  simp only [_compareWord]
  rw [if_neg (by omega), hloop]
  simp only [Option.map_none', hlast]
  rw [if_pos ht]

/-! ## The compact text -/

theorem stringify_array_compact (val : Str) (arr : List JsonObject)
    (m : List (Str × JsonObject)) (ks : List Str) (j : Nat) :
    _stringify ⟨val, arr, .JSON_ARRAY, m, ks⟩ j .MODE_COMPACT
      = '[' :: (_stringify_array arr (j + 1) .MODE_COMPACT ++ [']']) := by
  simp [_stringify, newLine, pad, StringifyMode.spaces]

theorem stringify_object_compact (val : Str) (arr : List JsonObject)
    (m : List (Str × JsonObject)) (ks : List Str) (j : Nat) :
    _stringify ⟨val, arr, .JSON_OBJECT, m, ks⟩ j .MODE_COMPACT
      = '{' :: (_stringify_map m (j + 1) .MODE_COMPACT ++ ['}']) := by
  simp [_stringify, newLine, pad, StringifyMode.spaces]

theorem stringify_array_cons (x : JsonObject) (rest : List JsonObject) (j : Nat) :
    _stringify_array (x :: rest) j .MODE_COMPACT
      = _stringify x j .MODE_COMPACT
        ++ ((if rest.isEmpty then [] else [',']) ++ _stringify_array rest j .MODE_COMPACT) := by
  simp [_stringify_array, newLine, pad, StringifyMode.spaces]

theorem stringify_map_cons (k : Str) (x : JsonObject) (rest : List (Str × JsonObject))
    (j : Nat) :
    _stringify_map ((k, x) :: rest) j .MODE_COMPACT
      = '"' :: (k ++ '"' :: ':' :: (_stringify x j .MODE_COMPACT
        ++ ((if rest.isEmpty then [] else [',']) ++ _stringify_map rest j .MODE_COMPACT))) := by
  simp [_stringify_map, newLine, pad, StringifyMode.spaces]

end JsonObject

namespace JsonObject

/-- When no `{` or `[` stands behind the blanks, the loop of `parse` leaves the value alone. -/
theorem parse_loop_no_structure (data : Str) (len : Nat) (self : JsonObject) :
    ∀ (n step : Nat), n + step = data.length →
      firstSignificant (data.drop step) ≠ some '{' →
      firstSignificant (data.drop step) ≠ some '[' →
      ∃ r, parse_loop data len self n step = some (r, self) := by
  intro n
  induction n with
  | zero => intro step _ _ _; exact ⟨1, rfl⟩
  | succ m ih =>
    intro step hn h1 h2
    obtain ⟨c, rest, hd⟩ : ∃ c rest, data.drop step = c :: rest := by
      cases hdd : data.drop step with
      | nil =>
        have := congrArg List.length hdd
        simp only [List.length_drop, List.length_nil] at this
        omega
      | cons c rest => exact ⟨c, rest, rfl⟩
    have hc : readAt data step = c := readAt_of_drop hd
    have hd1 : data.drop (step + 1) = rest := drop_succ_of_drop hd
    rw [hd] at h1 h2
    simp only [parse_loop, hc]
    by_cases hb : isBlank c = true
    · have hc1 : c ≠ '{' := by intro h; rw [h] at hb; revert hb; decide
      have hc2 : c ≠ '[' := by intro h; rw [h] at hb; revert hb; decide
      have hor : c = ' ' ∨ c = '\n' ∨ c = '\r' := by
        simpa [isBlank, or_assoc] using hb
      rw [if_neg hc1, if_neg hc2, if_pos hor]
      apply ih (step + 1) (by omega)
      · rw [hd1]; simpa [firstSignificant, List.find?, hb] using h1
      · rw [hd1]; simpa [firstSignificant, List.find?, hb] using h2
    · have hbf : isBlank c = false := by simpa using hb
      have hc1 : c ≠ '{' := by
        intro h; apply h1; subst h; rfl
      have hc2 : c ≠ '[' := by
        intro h; apply h2; subst h; rfl
      have hor : ¬ (c = ' ' ∨ c = '\n' ∨ c = '\r') := by
        simpa [isBlank, and_assoc] using hbf
      rw [if_neg hc1, if_neg hc2, if_neg hor]
      exact ⟨step, rfl⟩

end JsonObject

/-! ## The structure parsers on the compact text of admissible trees -/

namespace JsonObject

theorem setValue_object (obj : JsonObject) (key : Str) (x : JsonObject)
    (h : obj.m_type = .JSON_OBJECT) : obj.setValue key x = obj.mapAssign key x := by
  obtain ⟨val, arr, t, m, ks⟩ := obj
  simp only at h
  subst h
  simp [setValue, mapAssign]

/-- One value of an admissible map, parsed in the value state of the object loop. -/
theorem obj_value_step (f : Nat) (hO : ObjectSpec f) (hA : ArraySpec f)
    (data : Str) (base len step errPos e : Nat) (key : Str) (x : JsonObject) (last : Bool)
    (rest : Str) (j : Nat) (obj : JsonObject)
    (hlen : len = data.length - base) (hx : admissible x last = true)
    (hobj : obj.m_type = .JSON_OBJECT)
    (hstep : 1 ≤ step) (hprev : readAt data (base + step - 1) ≠ '\\')
    (hd : data.drop (base + step)
      = _stringify x j .MODE_COMPACT ++ (if last then '}' else ',') :: rest)
    (hf1 : 1 ≤ f) (hfuel : 2 * (len - step) ≤ f + 1) :
    ∃ e1, _parseObject_loop (f + 1) data base len step errPos e true key obj
      = _parseObject_loop f data base len (step + (_stringify x j .MODE_COMPACT).length) 0 e1
          true key (obj.mapAssign key x) := by
  have hdl := length_of_drop_append hd (by simp)
  simp only [List.length_cons, List.length_append] at hdl
  have hpr : readPrev data (base + step) 0 ≠ '\\' := by
    simp only [readPrev, Nat.add_zero]
    rw [if_neg (by omega)]
    exact hprev
  obtain ⟨val, arr, t, m, ks⟩ := x
  cases t with
  | JSON_NULL =>
    simp only [admissible, Bool.and_eq_true, List.isEmpty_iff, Bool.not_eq_true'] at hx
    obtain ⟨rfl, ⟨⟨rfl, rfl⟩, rfl⟩, rfl⟩ := hx
    have hs : _stringify ⟨[], [], .JSON_NULL, [], []⟩ j .MODE_COMPACT = word_null := by
      simp [_stringify, word_null]
    rw [hs] at hd hdl ⊢
    simp only [Bool.false_eq_true, if_false] at hd
    have hc : readAt data (base + step) = 'n' := readAt_of_drop hd
    have hcw := _compareWord_match data (base + step) (len - step) word_null ',' rest hd
      (by simp [word_null] at hdl ⊢; omega) (Or.inr (Or.inl rfl))
    refine ⟨e, ?_⟩
    rw [obj_loop_null _ _ _ _ _ _ _ _ _ (by omega) hc, hcw, setValue_object _ _ _ hobj]
    simp [word_null, new]
  | JSON_BOOL =>
    simp only [admissible, Bool.and_eq_true, List.isEmpty_iff, Bool.not_eq_true',
      Bool.or_eq_true, beq_iff_eq] at hx
    obtain ⟨rfl, ⟨⟨rfl, hval⟩, rfl⟩, rfl⟩ := hx
    have hs : _stringify ⟨val, [], .JSON_BOOL, [], []⟩ j .MODE_COMPACT = val := by
      simp [_stringify]
    rw [hs] at hd hdl ⊢
    simp only [Bool.false_eq_true, if_false] at hd
    refine ⟨e, ?_⟩
    rcases hval with rfl | rfl
    · have hc : readAt data (base + step) = 't' := readAt_of_drop hd
      have hcw := _compareWord_match data (base + step) (len - step) word_true ',' rest hd
        (by simp [word_true] at hdl ⊢; omega) (Or.inr (Or.inl rfl))
      rw [obj_loop_true _ _ _ _ _ _ _ _ _ (by omega) hc, hcw, setValue_object _ _ _ hobj]
      simp [word_true, ofBool, new]
    · have hc : readAt data (base + step) = 'f' := readAt_of_drop hd
      have hcw := _compareWord_match data (base + step) (len - step) word_false ',' rest hd
        (by simp [word_false] at hdl ⊢; omega) (Or.inr (Or.inl rfl))
      rw [obj_loop_false _ _ _ _ _ _ _ _ _ (by omega) hc, hcw, setValue_object _ _ _ hobj]
      simp [word_false, ofBool, new]
  | JSON_NUMBER =>
    simp only [admissible, Bool.and_eq_true, List.isEmpty_iff, Bool.not_eq_true', numberText,
      List.all_eq_true] at hx
    obtain ⟨rfl, ⟨⟨rfl, hne, hnum⟩, rfl⟩, rfl⟩ := hx
    have hs : _stringify ⟨val, [], .JSON_NUMBER, [], []⟩ j .MODE_COMPACT = val := by
      simp [_stringify]
    rw [hs] at hd hdl ⊢
    simp only [Bool.false_eq_true, if_false] at hd
    obtain ⟨c, ds, rfl⟩ : ∃ c ds, val = c :: ds := by
      cases val with
      | nil => simp at hne
      | cons c ds => exact ⟨c, ds, rfl⟩
    have hc : isCharNumber (readAt data (base + step)) = true := by
      rw [readAt_of_drop hd]; exact hnum c (List.mem_cons_self _ _)
    have hn : _parseNumber data (base + step) (len - step) e = (0, (c :: ds).length) := by
      rw [_parseNumber_token _ _ _ _ (c :: ds) ',' rest hnum (by decide) hd
        (by simp at hdl ⊢; omega) (by simp at hdl ⊢; omega)]
      simp
    refine ⟨(c :: ds).length, ?_⟩
    rw [obj_loop_number_ok _ _ _ _ _ _ _ _ _ _ (by omega) hc hn (by simp),
      substr_of_drop (c :: ds) hd,
      show step + ((c :: ds).length - 1) + 1 = step + (c :: ds).length by
        simp only [List.length_cons]; omega]
    rfl
  | JSON_STRING =>
    simp only [admissible, Bool.and_eq_true, List.isEmpty_iff] at hx
    obtain ⟨rfl, ⟨hpl, rfl⟩, rfl⟩ := hx
    have hs : _stringify ⟨val, [], .JSON_STRING, [], []⟩ j .MODE_COMPACT
        = '"' :: (val ++ ['"']) := by
      simp [_stringify]
    rw [hs] at hd hdl ⊢
    have hd1 : data.drop (base + step)
        = '"' :: (val ++ '"' :: ((if last = true then '}' else ',') :: rest)) := by
      rw [hd]; simp
    refine ⟨val.length + 1, ?_⟩
    rw [obj_loop_string _ _ _ _ _ _ _ _ val _ _ hlen (plain_of_plainB _ hpl) hpr hd1
      (by simp only [List.length_cons]; omega), setValue_object _ _ _ hobj,
      show step + val.length + 2 = step + ('"' :: (val ++ ['"'])).length by simp; omega]
    rfl
  | JSON_ARRAY =>
    simp only [admissible, Bool.and_eq_true, List.isEmpty_iff, Bool.not_eq_true',
      List.isEmpty_eq_false] at hx
    obtain ⟨rfl, ⟨⟨rfl, rfl⟩, hne⟩, hadm⟩ := hx
    rw [stringify_array_compact] at hd hdl ⊢
    have hd1 : data.drop (base + step)
        = '[' :: (_stringify_array arr (j + 1) .MODE_COMPACT
          ++ ']' :: ((if last = true then '}' else ',') :: rest)) := by
      rw [hd]; simp
    have hc : readAt data (base + step) = '[' := readAt_of_drop hd1
    have hspec := hA data (base + step) (len - step) e arr _ (j + 1) (by omega)
      (by simpa using hne) hadm hd1 hf1 hfuel
    refine ⟨(_stringify_array arr (j + 1) .MODE_COMPACT).length + 1, ?_⟩
    rw [obj_loop_array _ _ _ _ _ _ _ _ _ (by omega) hc, hspec]
    simp [ofArray, new]
    rfl
  | JSON_OBJECT =>
    simp only [admissible, Bool.and_eq_true, List.isEmpty_iff, Bool.not_eq_true',
      List.isEmpty_eq_false] at hx
    obtain ⟨rfl, ⟨⟨⟨rfl, rfl⟩, hne⟩, hadm⟩, hsorted⟩ := hx
    rw [stringify_object_compact] at hd hdl ⊢
    have hd1 : data.drop (base + step)
        = '{' :: (_stringify_map m (j + 1) .MODE_COMPACT
          ++ '}' :: ((if last = true then '}' else ',') :: rest)) := by
      rw [hd]; simp
    have hc : readAt data (base + step) = '{' := readAt_of_drop hd1
    have hspec := hO data (base + step) (len - step) e m _ (j + 1) (by omega)
      (by simpa using hne) hadm hsorted hd1 hf1 hfuel
    refine ⟨(_stringify_map m (j + 1) .MODE_COMPACT).length + 1, ?_⟩
    rw [obj_loop_object _ _ _ _ _ _ _ _ _ (by omega) hc, hspec]
    simp [mkObject]
    rfl
  | JSON_ERROR => simp [admissible] at hx

end JsonObject

namespace JsonObject

/-- One element of an admissible array, parsed in the value state of the array loop. -/
theorem arr_value_step (f : Nat) (hO : ObjectSpec f) (hA : ArraySpec f)
    (data : Str) (base len step errPos e : Nat) (x : JsonObject) (last : Bool)
    (rest : Str) (j : Nat) (obj : JsonObject)
    (hlen : len = data.length - base) (hx : admissible x last = true)
    (hstep : 1 ≤ step) (hprev : readAt data (base + step - 1) ≠ '\\')
    (hd : data.drop (base + step)
      = _stringify x j .MODE_COMPACT ++ (if last then ']' else ',') :: rest)
    (hf1 : 1 ≤ f) (hfuel : 2 * (len - step) ≤ f + 1) :
    ∃ e1 sv, _parseArray_loop (f + 1) data base len step errPos e true obj
      = _parseArray_loop f data base len (step + (_stringify x j .MODE_COMPACT).length) 0 e1
          sv (obj.push_back x) := by
  have hdl := length_of_drop_append hd (by simp)
  simp only [List.length_cons, List.length_append] at hdl
  have hpr : readPrev data (base + step) 0 ≠ '\\' := by
    simp only [readPrev, Nat.add_zero]
    rw [if_neg (by omega)]
    exact hprev
  obtain ⟨val, arr, t, m, ks⟩ := x
  cases t with
  | JSON_NULL =>
    simp only [admissible, Bool.and_eq_true, List.isEmpty_iff, Bool.not_eq_true'] at hx
    obtain ⟨rfl, ⟨⟨rfl, rfl⟩, rfl⟩, rfl⟩ := hx
    have hs : _stringify ⟨[], [], .JSON_NULL, [], []⟩ j .MODE_COMPACT = word_null := by
      simp [_stringify, word_null]
    rw [hs] at hd hdl ⊢
    simp only [Bool.false_eq_true, if_false] at hd
    have hc : readAt data (base + step) = 'n' := readAt_of_drop hd
    have hcw := _compareWord_match data (base + step) (len - step) word_null ',' rest hd
      (by simp [word_null] at hdl ⊢; omega) (Or.inr (Or.inl rfl))
    refine ⟨e, false, ?_⟩
    rw [arr_loop_null _ _ _ _ _ _ _ _ (by omega) hc, hcw]
    simp [word_null, new]
  | JSON_BOOL =>
    simp only [admissible, Bool.and_eq_true, List.isEmpty_iff, Bool.not_eq_true',
      Bool.or_eq_true, beq_iff_eq] at hx
    obtain ⟨rfl, ⟨⟨rfl, hval⟩, rfl⟩, rfl⟩ := hx
    have hs : _stringify ⟨val, [], .JSON_BOOL, [], []⟩ j .MODE_COMPACT = val := by
      simp [_stringify]
    rw [hs] at hd hdl ⊢
    simp only [Bool.false_eq_true, if_false] at hd
    refine ⟨e, false, ?_⟩
    rcases hval with rfl | rfl
    · have hc : readAt data (base + step) = 't' := readAt_of_drop hd
      have hcw := _compareWord_match data (base + step) (len - step) word_true ',' rest hd
        (by simp [word_true] at hdl ⊢; omega) (Or.inr (Or.inl rfl))
      rw [arr_loop_true _ _ _ _ _ _ _ _ (by omega) hc, hcw]
      simp [word_true, ofBool, new]
    · have hc : readAt data (base + step) = 'f' := readAt_of_drop hd
      have hcw := _compareWord_match data (base + step) (len - step) word_false ',' rest hd
        (by simp [word_false] at hdl ⊢; omega) (Or.inr (Or.inl rfl))
      rw [arr_loop_false _ _ _ _ _ _ _ _ (by omega) hc, hcw]
      simp [word_false, ofBool, new]
  | JSON_NUMBER =>
    simp only [admissible, Bool.and_eq_true, List.isEmpty_iff, Bool.not_eq_true', numberText,
      List.all_eq_true] at hx
    obtain ⟨rfl, ⟨⟨rfl, hne, hnum⟩, rfl⟩, rfl⟩ := hx
    have hs : _stringify ⟨val, [], .JSON_NUMBER, [], []⟩ j .MODE_COMPACT = val := by
      simp [_stringify]
    rw [hs] at hd hdl ⊢
    simp only [Bool.false_eq_true, if_false] at hd
    obtain ⟨c, ds, rfl⟩ : ∃ c ds, val = c :: ds := by
      cases val with
      | nil => simp at hne
      | cons c ds => exact ⟨c, ds, rfl⟩
    have hc : isCharNumber (readAt data (base + step)) = true := by
      rw [readAt_of_drop hd]; exact hnum c (List.mem_cons_self _ _)
    have hn : _parseNumber data (base + step) (len - step) e = (0, (c :: ds).length) := by
      rw [_parseNumber_token _ _ _ _ (c :: ds) ',' rest hnum (by decide) hd
        (by simp at hdl ⊢; omega) (by simp at hdl ⊢; omega)]
      simp
    refine ⟨(c :: ds).length, false, ?_⟩
    rw [arr_loop_number _ _ _ _ _ _ _ _ (by omega) hc, hn]
    simp only [gt_iff_lt, Nat.lt_irrefl, if_false, List.length_cons, Nat.add_one_ne_zero]
    rw [← List.length_cons c ds, substr_of_drop (c :: ds) hd,
      show step + ((c :: ds).length - 1) + 1 = step + (c :: ds).length by
        simp only [List.length_cons]; omega]
    rfl
  | JSON_STRING =>
    simp only [admissible, Bool.and_eq_true, List.isEmpty_iff] at hx
    obtain ⟨rfl, ⟨hpl, rfl⟩, rfl⟩ := hx
    have hs : _stringify ⟨val, [], .JSON_STRING, [], []⟩ j .MODE_COMPACT
        = '"' :: (val ++ ['"']) := by
      simp [_stringify]
    rw [hs] at hd hdl ⊢
    have hd1 : data.drop (base + step)
        = '"' :: (val ++ '"' :: ((if last = true then ']' else ',') :: rest)) := by
      rw [hd]; simp
    have hc : readAt data (base + step) = '"' := readAt_of_drop hd1
    have ht : _parseText data (base + step) (len - step) e = (0, val.length + 1) :=
      _parseText_quoted _ _ _ _ val _ hpr (plain_of_plainB _ hpl) hd1
        (by simp only [List.length_cons, List.length_append] at hdl; omega)
        (by simp only [List.length_cons, List.length_append] at hdl; omega)
    refine ⟨val.length + 1, false, ?_⟩
    rw [arr_loop_quote _ _ _ _ _ _ _ _ (by omega) hc, ht]
    simp only [gt_iff_lt, Nat.lt_irrefl, if_false, Nat.add_one_ne_zero, Nat.add_sub_cancel]
    rw [substr_of_drop val (drop_succ_of_drop hd1),
      show step + (val.length + 1) + 1 = step + ('"' :: (val ++ ['"'])).length by simp; omega]
    rfl
  | JSON_ARRAY =>
    simp only [admissible, Bool.and_eq_true, List.isEmpty_iff, Bool.not_eq_true',
      List.isEmpty_eq_false] at hx
    obtain ⟨rfl, ⟨⟨rfl, rfl⟩, hne⟩, hadm⟩ := hx
    rw [stringify_array_compact] at hd hdl ⊢
    have hd1 : data.drop (base + step)
        = '[' :: (_stringify_array arr (j + 1) .MODE_COMPACT
          ++ ']' :: ((if last = true then ']' else ',') :: rest)) := by
      rw [hd]; simp
    have hc : readAt data (base + step) = '[' := readAt_of_drop hd1
    have hspec := hA data (base + step) (len - step) e arr _ (j + 1) (by omega)
      (by simpa using hne) hadm hd1 hf1 hfuel
    refine ⟨(_stringify_array arr (j + 1) .MODE_COMPACT).length + 1, true, ?_⟩
    rw [arr_loop_array _ _ _ _ _ _ _ _ (by omega) hc, hspec]
    simp [ofArray, new]
    rfl
  | JSON_OBJECT =>
    simp only [admissible, Bool.and_eq_true, List.isEmpty_iff, Bool.not_eq_true',
      List.isEmpty_eq_false] at hx
    obtain ⟨rfl, ⟨⟨⟨rfl, rfl⟩, hne⟩, hadm⟩, hsorted⟩ := hx
    rw [stringify_object_compact] at hd hdl ⊢
    have hd1 : data.drop (base + step)
        = '{' :: (_stringify_map m (j + 1) .MODE_COMPACT
          ++ '}' :: ((if last = true then ']' else ',') :: rest)) := by
      rw [hd]; simp
    have hc : readAt data (base + step) = '{' := readAt_of_drop hd1
    have hspec := hO data (base + step) (len - step) e m _ (j + 1) (by omega)
      (by simpa using hne) hadm hsorted hd1 hf1 hfuel
    refine ⟨(_stringify_map m (j + 1) .MODE_COMPACT).length + 1, false, ?_⟩
    rw [arr_loop_object _ _ _ _ _ _ _ _ (by omega) hc, hspec]
    simp [mkObject]
    rfl
  | JSON_ERROR => simp [admissible] at hx

end JsonObject

namespace JsonObject

theorem mapAssign_mkObject (done : List (Str × JsonObject)) (k : Str) (x : JsonObject)
    (rest : List (Str × JsonObject)) (h : sortedKeys (done ++ (k, x) :: rest) = true) :
    (mkObject done).mapAssign k x = mkObject (done ++ [(k, x)]) := by
  simp only [mapAssign, mkObject]
  rw [mapSet_append k x done (sortedKeys_append_cons k x done rest h)]

/-- The entries of an admissible map, parsed by the object loop from the key state. -/
theorem obj_entries : ∀ (es : List (Str × JsonObject)) (fuel : Nat) (data : Str)
    (base len step errPos e : Nat) (key0 : Str) (done : List (Str × JsonObject)) (rest : Str)
    (j : Nat),
    (∀ f, f < fuel → ObjectSpec f ∧ ArraySpec f) →
    len = data.length - base → es ≠ [] → admissibleMap es = true →
    sortedKeys (done ++ es) = true →
    1 ≤ step → readAt data (base + step - 1) ≠ '\\' →
    data.drop (base + step) = _stringify_map es j .MODE_COMPACT ++ '}' :: rest →
    2 * (len - step) ≤ fuel →
    ∃ e1, _parseObject_loop fuel data base len step errPos e false key0 (mkObject done)
      = some (step + (_stringify_map es j .MODE_COMPACT).length, 0, e1,
          mkObject (done ++ es)) := by
  intro es
  induction es with
  | nil => intro _ _ _ _ _ _ _ _ _ _ _ _ _ h; exact absurd rfl h
  | cons entry es ih =>
    intro fuel data base len step errPos e key0 done rest j hspec hlen _ hadm hsorted hstep
      hprev hd hfuel
    obtain ⟨k, x⟩ := entry
    simp only [admissibleMap, Bool.and_eq_true] at hadm
    obtain ⟨⟨hk, hx⟩, hadm1⟩ := hadm
    rw [stringify_map_cons] at hd ⊢
    have hdl := length_of_drop_append hd (by simp)
    simp only [List.length_cons, List.length_append] at hdl
    have hpr : readPrev data (base + step) 0 ≠ '\\' := by
      simp only [readPrev, Nat.add_zero]
      rw [if_neg (by omega)]
      exact hprev
    obtain ⟨f, rfl⟩ : ∃ f, fuel = f + 1 + 1 + 2 := ⟨fuel - 4, by omega⟩
    -- the key and the colon
    have hd0 : data.drop (base + step) = '"' :: (k ++ '"' :: ':' ::
        (_stringify x j .MODE_COMPACT ++ ((if es.isEmpty = true then [] else [','])
          ++ _stringify_map es j .MODE_COMPACT) ++ '}' :: rest)) := by
      rw [hd]; simp
    rw [obj_loop_key_colon _ _ _ _ _ _ _ _ k _ _ hlen (plain_of_plainB _ hk) hpr hd0]
    have h1 := drop_succ_of_drop hd0
    have h2 := drop_add_of_drop k h1
    have h3 := drop_succ_of_drop h2
    have h4 := drop_succ_of_drop h3
    have hcolon : readAt data (base + (step + k.length + 3) - 1) = ':' := by
      rw [show base + (step + k.length + 3) - 1 = base + step + 1 + k.length + 1 by omega]
      exact readAt_of_drop h3
    have hidx : base + (step + k.length + 3) = base + step + 1 + k.length + 1 + 1 := by omega
    obtain ⟨hO, hA⟩ := hspec (f + 1) (by omega)
    cases hes : es with
    | nil =>
      subst hes
      have hdv : data.drop (base + (step + k.length + 3))
          = _stringify x j .MODE_COMPACT ++ (if true = true then '}' else ',') :: rest := by
        rw [hidx, h4]; simp [_stringify_map]
      have hx1 : admissible x true = true := by simpa using hx
      obtain ⟨e1, hval⟩ := obj_value_step (f + 1) hO hA data base len (step + k.length + 3) 0
        (k.length + 1) k x true rest j (mkObject done) hlen hx1 rfl (by omega)
        (by rw [hcolon]; decide) hdv (by omega)
        (by simp [_stringify_map] at hdl; omega)
      rw [hval, mapAssign_mkObject done k x [] hsorted]
      have hcl : readAt data (base + (step + k.length + 3
          + (_stringify x j .MODE_COMPACT).length)) = '}' := by
        have := drop_add_of_drop (_stringify x j .MODE_COMPACT) hdv
        rw [show base + (step + k.length + 3) + (_stringify x j .MODE_COMPACT).length
          = base + (step + k.length + 3 + (_stringify x j .MODE_COMPACT).length) by omega]
          at this
        simpa using readAt_of_drop this
      refine ⟨e1, ?_⟩
      rw [obj_loop_close _ _ _ _ _ _ _ _ _ (by simp [_stringify_map] at hdl; omega) hcl]
      simp [_stringify_map]
      omega
    | cons entry2 es2 =>
      rw [hes] at hx hadm1 hsorted hd0 h1 h2 h3 h4 hdl ih
      have hdv : data.drop (base + (step + k.length + 3))
          = _stringify x j .MODE_COMPACT ++ (if false = true then '}' else ',')
            :: (_stringify_map (entry2 :: es2) j .MODE_COMPACT ++ '}' :: rest) := by
        rw [hidx, h4]; simp
      have hx1 : admissible x false = true := by simpa using hx
      obtain ⟨e1, hval⟩ := obj_value_step (f + 1) hO hA data base len (step + k.length + 3) 0
        (k.length + 1) k x false _ j (mkObject done) hlen hx1 rfl (by omega)
        (by rw [hcolon]; decide) hdv (by omega)
        (by simp at hdl; omega)
      rw [hval, mapAssign_mkObject done k x (entry2 :: es2) hsorted]
      have hdc := drop_add_of_drop (_stringify x j .MODE_COMPACT) hdv
      simp only [Bool.false_eq_true, if_false] at hdc
      have hcm : readAt data (base + (step + k.length + 3
          + (_stringify x j .MODE_COMPACT).length)) = ',' := by
        rw [show base + (step + k.length + 3 + (_stringify x j .MODE_COMPACT).length)
          = base + (step + k.length + 3) + (_stringify x j .MODE_COMPACT).length by omega]
        exact readAt_of_drop hdc
      rw [obj_loop_comma _ _ _ _ _ _ _ _ _ (by simp at hdl; omega) hcm]
      have hdn := drop_succ_of_drop hdc
      obtain ⟨e2, hrest⟩ := ih f data base len
        (step + k.length + 3 + (_stringify x j .MODE_COMPACT).length + 1) 0 e1 k
        (done ++ [(k, x)]) rest j (fun g hg => hspec g (by omega)) hlen (by simp) hadm1
        (by simpa using hsorted) (by omega)
        (by
          rw [show base + (step + k.length + 3 + (_stringify x j .MODE_COMPACT).length + 1) - 1
            = base + (step + k.length + 3 + (_stringify x j .MODE_COMPACT).length) by omega,
            hcm]
          decide)
        (by
          rw [show base + (step + k.length + 3 + (_stringify x j .MODE_COMPACT).length + 1)
            = base + (step + k.length + 3) + (_stringify x j .MODE_COMPACT).length + 1
            by omega]
          exact hdn)
        (by simp at hdl; omega)
      refine ⟨e2, ?_⟩
      rw [hrest]
      simp
      omega

end JsonObject

namespace JsonObject

/-- The elements of an admissible array, parsed by the array loop from the value state. -/
theorem arr_elems : ∀ (es : List JsonObject) (fuel : Nat) (data : Str)
    (base len step errPos e : Nat) (done : List JsonObject) (rest : Str) (j : Nat),
    (∀ f, f < fuel → ObjectSpec f ∧ ArraySpec f) →
    len = data.length - base → es ≠ [] → admissibleArray es = true →
    1 ≤ step → readAt data (base + step - 1) ≠ '\\' →
    data.drop (base + step) = _stringify_array es j .MODE_COMPACT ++ ']' :: rest →
    2 * (len - step) ≤ fuel →
    ∃ e1, _parseArray_loop fuel data base len step errPos e true (ofArray done)
      = some (step + (_stringify_array es j .MODE_COMPACT).length, 0, e1,
          ofArray (done ++ es)) := by
  intro es
  induction es with
  | nil => intro _ _ _ _ _ _ _ _ _ _ _ _ h; exact absurd rfl h
  | cons x es ih =>
    intro fuel data base len step errPos e done rest j hspec hlen _ hadm hstep hprev hd hfuel
    simp only [admissibleArray, Bool.and_eq_true] at hadm
    obtain ⟨hx, hadm1⟩ := hadm
    rw [stringify_array_cons] at hd ⊢
    have hdl := length_of_drop_append hd (by simp)
    simp only [List.length_cons, List.length_append] at hdl
    obtain ⟨f, rfl⟩ : ∃ f, fuel = f + 1 + 1 := ⟨fuel - 2, by omega⟩
    obtain ⟨hO, hA⟩ := hspec (f + 1) (by omega)
    have hpush : (ofArray done).push_back x = ofArray (done ++ [x]) := rfl
    cases hes : es with
    | nil =>
      subst hes
      have hdv : data.drop (base + step)
          = _stringify x j .MODE_COMPACT ++ (if true = true then ']' else ',') :: rest := by
        rw [hd]; simp [_stringify_array]
      have hx1 : admissible x true = true := by simpa using hx
      obtain ⟨e1, sv, hval⟩ := arr_value_step (f + 1) hO hA data base len step errPos e x true
        rest j (ofArray done) hlen hx1 hstep hprev hdv (by omega) (by omega)
      rw [hval, hpush]
      have hcl : readAt data (base + (step + (_stringify x j .MODE_COMPACT).length)) = ']' := by
        have := drop_add_of_drop (_stringify x j .MODE_COMPACT) hdv
        rw [show base + step + (_stringify x j .MODE_COMPACT).length
          = base + (step + (_stringify x j .MODE_COMPACT).length) by omega] at this
        simpa using readAt_of_drop this
      refine ⟨e1, ?_⟩
      rw [arr_loop_tail _ _ _ _ _ _ _ _ _ (by simp [_stringify_array] at hdl; omega)
        (by intro _; rw [hcl]; decide), hcl]
      simp [_stringify_array]
    | cons x2 es2 =>
      rw [hes] at hx hadm1 hd hdl ih
      have hdv : data.drop (base + step)
          = _stringify x j .MODE_COMPACT ++ (if false = true then ']' else ',')
            :: (_stringify_array (x2 :: es2) j .MODE_COMPACT ++ ']' :: rest) := by
        rw [hd]; simp
      have hx1 : admissible x false = true := by simpa using hx
      obtain ⟨e1, sv, hval⟩ := arr_value_step (f + 1) hO hA data base len step errPos e x false
        _ j (ofArray done) hlen hx1 hstep hprev hdv (by omega) (by omega)
      rw [hval, hpush]
      have hdc := drop_add_of_drop (_stringify x j .MODE_COMPACT) hdv
      simp only [Bool.false_eq_true, if_false] at hdc
      have hcm : readAt data (base + (step + (_stringify x j .MODE_COMPACT).length)) = ',' := by
        rw [show base + (step + (_stringify x j .MODE_COMPACT).length)
          = base + step + (_stringify x j .MODE_COMPACT).length by omega]
        exact readAt_of_drop hdc
      rw [arr_loop_tail _ _ _ _ _ _ _ _ _ (by simp at hdl; omega)
        (by intro _; rw [hcm]; decide), hcm]
      simp only [if_true]
      have hdn := drop_succ_of_drop hdc
      obtain ⟨e2, hrest⟩ := ih f data base len
        (step + (_stringify x j .MODE_COMPACT).length + 1) 0 e1
        (done ++ [x]) rest j (fun g hg => hspec g (by omega)) hlen (by simp) hadm1
        (by omega)
        (by
          rw [show base + (step + (_stringify x j .MODE_COMPACT).length + 1) - 1
            = base + (step + (_stringify x j .MODE_COMPACT).length) by omega, hcm]
          decide)
        (by
          rw [show base + (step + (_stringify x j .MODE_COMPACT).length + 1)
            = base + step + (_stringify x j .MODE_COMPACT).length + 1 by omega]
          exact hdn)
        (by simp at hdl; omega)
      refine ⟨e2, ?_⟩
      rw [hrest]
      simp
      omega

/-- The structure parsers reproduce every admissible map and array, for every amount of fuel
that covers twice the length of the text left. -/
theorem structure_specs : ∀ fuel : Nat, ObjectSpec fuel ∧ ArraySpec fuel := by
  intro fuel
  induction fuel using Nat.strong_induction_on with
  | _ fuel ih =>
    constructor
    · intro data base len e m rest j hlen hne hadm hsorted hd hf1 hfuel
      obtain ⟨f, rfl⟩ : ∃ f, fuel = f + 1 := ⟨fuel - 1, by omega⟩
      have hdl := length_of_drop hd
      simp only [List.length_append, List.length_cons] at hdl
      have hc : readAt data base = '{' := readAt_of_drop hd
      obtain ⟨e1, hloop⟩ := obj_entries m f data base len 1 1 0 [] [] rest j
        (fun g hg => ih g (by omega)) hlen hne hadm (by simpa using hsorted) (by omega)
        (by rw [show base + 1 - 1 = base by omega, hc]; decide)
        (drop_succ_of_drop hd) (by omega)
      rw [_parseObject_eq _ _ _ _ _ _ (by omega) hc]
      have hinit : (new.setType .JSON_OBJECT) = mkObject [] := rfl
      rw [hinit, hloop]
      simp
      omega
    · intro data base len e arr rest j hlen hne hadm hd hf1 hfuel
      obtain ⟨f, rfl⟩ : ∃ f, fuel = f + 1 := ⟨fuel - 1, by omega⟩
      have hdl := length_of_drop hd
      simp only [List.length_append, List.length_cons] at hdl
      have hc : readAt data base = '[' := readAt_of_drop hd
      obtain ⟨e1, hloop⟩ := arr_elems arr f data base len 1 1 0 [] rest j
        (fun g hg => ih g (by omega)) hlen hne hadm (by omega)
        (by rw [show base + 1 - 1 = base by omega, hc]; decide)
        (drop_succ_of_drop hd) (by omega)
      rw [_parseArray_eq _ _ _ _ _ _ (by omega) hc]
      have hinit : (new.setType .JSON_ARRAY) = ofArray [] := rfl
      rw [hinit, hloop]
      simp
      omega

end JsonObject

/-! ## Families of rejected and accepted texts -/

namespace JsonObject

/-- Value state, a rejected number token: the loop is left with the error of `_parseNumber`. -/
theorem obj_loop_number_err (fuel : Nat) (data : Str) (base len step errPos end_ r e : Nat)
    (key : Str) (obj : JsonObject) (h : step < len)
    (hc : isCharNumber (readAt data (base + step)) = true)
    (hn : _parseNumber data (base + step) (len - step) end_ = (r, e)) (hr : 0 < r) :
    _parseObject_loop (fuel + 1) data base len step errPos end_ true key obj
      = some (step, r, e, obj) := by
  rw [obj_loop_number _ _ _ _ _ _ _ _ _ h hc]
  simp [hn, hr]

/-- Every text `{"k":n}` is rejected: `parse` returns the length of the buffer and marks the
value `JSON_ERROR`, because the number is ended by the closing brace. -/
theorem parse_textNumberMember (self : JsonObject) (k : Str) (n : Int) (hk : plain k) :
    parse self (textNumberMember k n)
      = some ((textNumberMember k n).length, new.setType .JSON_ERROR) := by
  have hlen : (textNumberMember k n).length = k.length + (to_string n).length + 5 := by
    simp [textNumberMember]; omega
  have hpos : 0 < (to_string n).length := List.length_pos.mpr (to_string_ne_nil n)
  have h0 : (textNumberMember k n).drop 0
      = '{' :: '"' :: (k ++ '"' :: ':' :: (to_string n ++ ['}'])) := rfl
  have h1 := drop_succ_of_drop h0
  have h2 := drop_succ_of_drop h1
  have h3 := drop_add_of_drop k h2
  have h4 := drop_succ_of_drop h3
  have h5 := drop_succ_of_drop h4
  obtain ⟨f, hf⟩ : ∃ f, 2 * (textNumberMember k n).length = f + 1 + 2 + 1 :=
    ⟨2 * (textNumberMember k n).length - 4, by rw [hlen]; omega⟩
  rw [parse_brace _ _ (by omega) (readAt_of_drop h0), hf,
    _parseObject_eq _ _ _ _ _ _ (by omega) (readAt_of_drop h0),
    obj_loop_key_colon _ _ _ _ _ _ _ _ k _ _ (by omega) hk
      (by rw [readPrev_succ, readAt_of_drop h0]; decide) h1]
  have hidx : 0 + (1 + k.length + 3) = 0 + 1 + 1 + k.length + 1 + 1 := by omega
  obtain ⟨c, ds, hcd⟩ : ∃ c ds, to_string n = c :: ds := by
    cases hts : to_string n with
    | nil => exact absurd hts (to_string_ne_nil n)
    | cons c ds => exact ⟨c, ds, rfl⟩
  have hfirst : isCharNumber (readAt (textNumberMember k n) (0 + (1 + k.length + 3))) = true := by
    rw [hidx]
    have h5c := h5
    rw [hcd] at h5c
    rw [readAt_of_drop h5c]
    exact to_string_numbers n c (by rw [hcd]; exact List.mem_cons_self _ _)
  have hnum : _parseNumber (textNumberMember k n) (0 + (1 + k.length + 3))
      ((textNumberMember k n).length - (1 + k.length + 3)) (k.length + 1)
      = ((to_string n).length + 1, (to_string n).length) := by
    rw [hidx, _parseNumber_token _ _ _ _ (to_string n) '}' [] (to_string_numbers n)
      (by decide) h5 (by omega) (by omega)]
    simp
  rw [obj_loop_number_err _ _ _ _ _ _ _ _ _ _ _ (by omega) hfirst hnum (by omega)]
  simp only [Nat.add_one_ne_zero, if_false, Option.some.injEq, Prod.mk.injEq]
  refine ⟨by omega, rfl⟩

end JsonObject

namespace JsonObject

theorem textNumbers_length (m : Int) : ∀ (ns : List Int),
    (to_string (lastNumber (m :: ns))).length + 1 ≤ (textNumbers (m :: ns)).length := by
  intro ns
  induction ns generalizing m with
  | nil => simp [textNumbers, lastNumber]
  | cons m2 ns ih =>
    have := ih m2
    simp only [textNumbers, lastNumber, List.length_append, List.length_cons]
    omega

theorem isCharNumber_head_to_string (n : Int) (rest : Str) (data : Str) (p : Nat)
    (hd : data.drop p = to_string n ++ rest) : isCharNumber (readAt data p) = true := by
  obtain ⟨c, ds, hcd⟩ : ∃ c ds, to_string n = c :: ds := by
    cases hts : to_string n with
    | nil => exact absurd hts (to_string_ne_nil n)
    | cons c ds => exact ⟨c, ds, rfl⟩
  have hd' := hd
  rw [hcd] at hd'
  rw [readAt_of_drop hd']
  exact to_string_numbers n c (by rw [hcd]; exact List.mem_cons_self _ _)

/-- The array loop on `n1, n2, ..., nk]`: every number but the last is stored, and the last one,
ended by the closing bracket, is rejected by `_parseNumber`. -/
theorem arr_numbers_rejected : ∀ (ns : List Int) (fuel : Nat) (data : Str) (len step errPos e : Nat)
    (done : List JsonObject) (rest : Str),
    ns ≠ [] → len = data.length →
    data.drop step = textNumbers ns ++ rest →
    2 * (len - step) ≤ fuel →
    ∃ e1, _parseArray_loop fuel data 0 len step errPos e true (ofArray done)
      = some (step + (textNumbers ns).length - 1 - (to_string (lastNumber ns)).length,
          (to_string (lastNumber ns)).length + 1, e1,
          ofArray (done ++ numberValues ns.dropLast)) := by
  intro ns
  induction ns with
  | nil => intro _ _ _ _ _ _ _ _ h; exact absurd rfl h
  | cons n ns ih =>
    intro fuel data len step errPos e done rest _ hlen hd hfuel
    have hpos : 0 < (to_string n).length := List.length_pos.mpr (to_string_ne_nil n)
    cases ns with
    | nil =>
      simp only [textNumbers] at hd ⊢
      have hd1 : data.drop (0 + step) = to_string n ++ ']' :: rest := by
        rw [Nat.zero_add, hd]; simp
      have hdl := length_of_drop_append hd1 (by simp)
      simp only [List.length_cons, List.length_append] at hdl
      obtain ⟨f, rfl⟩ : ∃ f, fuel = f + 1 := ⟨fuel - 1, by omega⟩
      have hnum : _parseNumber data (0 + step) (len - step) e
          = ((to_string n).length + 1, (to_string n).length) := by
        rw [_parseNumber_token _ _ _ _ (to_string n) ']' rest (to_string_numbers n)
          (by decide) hd1 (by omega) (by omega)]
        simp
      refine ⟨(to_string n).length, ?_⟩
      rw [arr_loop_number _ _ _ _ _ _ _ _ (by omega)
        (isCharNumber_head_to_string n _ _ _ hd1), hnum]
      simp [numberValues, lastNumber]
    | cons m ns =>
      simp only [textNumbers] at hd
      have hd1 : data.drop (0 + step)
          = to_string n ++ ',' :: (' ' :: (textNumbers (m :: ns) ++ rest)) := by
        rw [Nat.zero_add, hd]; simp
      have hdl := length_of_drop_append hd1 (by simp)
      simp only [List.length_cons, List.length_append] at hdl
      obtain ⟨f, rfl⟩ : ∃ f, fuel = f + 1 + 1 + 1 := ⟨fuel - 3, by omega⟩
      have hnum : _parseNumber data (0 + step) (len - step) e = (0, (to_string n).length) := by
        rw [_parseNumber_token _ _ _ _ (to_string n) ',' _ (to_string_numbers n)
          (by decide) hd1 (by omega) (by omega)]
        simp
      have h2 := drop_add_of_drop (to_string n) hd1
      have h3 := drop_succ_of_drop h2
      have h4 := drop_succ_of_drop h3
      have hcm : readAt data (0 + (step + ((to_string n).length - 1) + 1)) = ',' := by
        rw [show 0 + (step + ((to_string n).length - 1) + 1) = 0 + step + (to_string n).length
          by omega]
        exact readAt_of_drop h2
      have hsp : readAt data (0 + (step + ((to_string n).length - 1) + 1 + 1)) = ' ' := by
        rw [show 0 + (step + ((to_string n).length - 1) + 1 + 1)
          = 0 + step + (to_string n).length + 1 by omega]
        exact readAt_of_drop h3
      rw [arr_loop_number _ _ _ _ _ _ _ _ (by omega)
        (isCharNumber_head_to_string n _ _ _ hd1), hnum]
      simp only [gt_iff_lt, Nat.lt_irrefl, if_false, (Nat.pos_iff_ne_zero.mp hpos)]
      rw [substr_of_drop (to_string n) hd1,
        arr_loop_tail _ _ _ _ _ _ _ _ _ (by omega) (by intro h; cases h), hcm]
      simp only [if_true]
      rw [arr_loop_tail _ _ _ _ _ _ _ _ _ (by omega) (by intro _; rw [hsp]; decide), hsp]
      simp only [show (' ' : Char) ≠ ',' by decide, show (' ' : Char) ≠ ']' by decide, if_false]
      obtain ⟨e2, hrest⟩ := ih f data len (step + ((to_string n).length - 1) + 1 + 1 + 1) 0
        (to_string n).length (done ++ [jsonNum (to_string n)]) rest (by simp) hlen
        (by
          rw [show step + ((to_string n).length - 1) + 1 + 1 + 1
            = 0 + step + (to_string n).length + 1 + 1 by omega]
          exact h4)
        (by omega)
      have hpush : (ofArray done).push_back (jsonNum (to_string n))
          = ofArray (done ++ [jsonNum (to_string n)]) := rfl
      refine ⟨e2, ?_⟩
      rw [hpush, hrest]
      have hge := textNumbers_length m ns
      simp only [textNumbers, lastNumber, List.length_append, List.length_cons, numberValues,
        List.dropLast_cons₂, List.map_cons, Option.some.injEq, Prod.mk.injEq, true_and,
        List.append_assoc, List.singleton_append, and_true]
      omega

end JsonObject

namespace JsonObject

/-- Every text `[n1, n2, ..., nk]` with `k ≥ 1` is rejected: `parse` returns the length of the
buffer, the value holds the numbers before the last one and its kind is `JSON_ERROR`. -/
theorem parse_textNumbers (self : JsonObject) (ns : List Int) (hne : ns ≠ []) :
    parse self ('[' :: textNumbers ns)
      = some (('[' :: textNumbers ns).length,
          (ofArray (numberValues ns.dropLast)).setType .JSON_ERROR) := by
  obtain ⟨m, rest, rfl⟩ : ∃ m rest, ns = m :: rest := by
    cases ns with
    | nil => exact absurd rfl hne
    | cons m rest => exact ⟨m, rest, rfl⟩
  have hge := textNumbers_length m rest
  have h0 : ('[' :: textNumbers (m :: rest)).drop 0 = '[' :: textNumbers (m :: rest) := rfl
  have h1 : ('[' :: textNumbers (m :: rest)).drop 1 = textNumbers (m :: rest) ++ [] := by
    simp
  obtain ⟨f, hf⟩ : ∃ f, 2 * ('[' :: textNumbers (m :: rest)).length = f + 1 :=
    ⟨2 * ('[' :: textNumbers (m :: rest)).length - 1, by simp only [List.length_cons]; omega⟩
  obtain ⟨e1, hloop⟩ := arr_numbers_rejected (m :: rest) f ('[' :: textNumbers (m :: rest))
    ('[' :: textNumbers (m :: rest)).length 1 1 0 [] [] hne rfl h1
    (by simp only [List.length_cons] at hf ⊢; omega)
  rw [parse_bracket _ _ (by simp only [List.length_cons]; omega) (readAt_of_drop h0), hf,
    _parseArray_eq _ _ _ _ _ _ (by simp only [List.length_cons]; omega) (readAt_of_drop h0)]
  have hinit : (new.setType .JSON_ARRAY) = ofArray [] := rfl
  rw [hinit, hloop]
  simp only [Nat.add_one_ne_zero, if_false, List.nil_append, Option.some.injEq, Prod.mk.injEq,
    and_true, List.length_cons]
  omega

end JsonObject

namespace JsonObject

theorem parse_loop_offending (data : Str) (len : Nat) (self : JsonObject) (c : Char)
    (rest : Str) (hc1 : c ≠ '{') (hc2 : c ≠ '[') (hcb : isBlank c = false) :
    ∀ (ws : Str) (n step : Nat), (∀ x ∈ ws, isBlank x = true) →
      data.drop step = ws ++ c :: rest → ws.length < n →
      parse_loop data len self n step = some (step + ws.length, self) := by
  intro ws
  induction ws with
  | nil =>
    intro n step _ hd hn
    obtain ⟨m, rfl⟩ : ∃ m, n = m + 1 := ⟨n - 1, by simp at hn; omega⟩
    have hor : ¬ (c = ' ' ∨ c = '\n' ∨ c = '\r') := by
      simpa [isBlank, and_assoc] using hcb
    simp only [parse_loop, readAt_of_drop hd, if_neg hc1, if_neg hc2, if_neg hor]
    rfl
  | cons w ws ih =>
    intro n step hws hd hn
    obtain ⟨m, rfl⟩ : ∃ m, n = m + 1 := ⟨n - 1, by simp at hn; omega⟩
    have hw : isBlank w = true := hws w (List.mem_cons_self _ _)
    have hw1 : w ≠ '{' := by intro h; rw [h] at hw; revert hw; decide
    have hw2 : w ≠ '[' := by intro h; rw [h] at hw; revert hw; decide
    have hor : w = ' ' ∨ w = '\n' ∨ w = '\r' := by
      simpa [isBlank, or_assoc] using hw
    simp only [parse_loop, readAt_of_drop hd, if_neg hw1, if_neg hw2, if_pos hor]
    rw [ih m (step + 1) (fun x hx => hws x (List.mem_cons_of_mem _ hx)) (drop_succ_of_drop hd)
      (by simp at hn; omega)]
    simp only [List.length_cons]
    rw [show step + 1 + ws.length = step + (ws.length + 1) by omega]

/-- On a buffer of length at least 2 whose first character other than space, LF and CR is
neither `{` nor `[`, `parse` returns the offset of that character and leaves the value cleared;
the returned value is 0 when the character is the first one of the buffer. -/
theorem parse_offending (self : JsonObject) (ws rest : Str) (c : Char)
    (hws : ∀ x ∈ ws, isBlank x = true) (hc1 : c ≠ '{') (hc2 : c ≠ '[')
    (hcb : isBlank c = false) (hlen : 2 ≤ (ws ++ c :: rest).length) :
    parse self (ws ++ c :: rest) = some (ws.length, new) := by
  simp only [parse]
  rw [if_neg (by omega)]
  rw [parse_loop_offending (ws ++ c :: rest) _ self.clear c rest hc1 hc2 hcb ws _ 0 hws rfl
    (by simp)]
  simp [clear, new]

end JsonObject

namespace JsonObject

/-- Value state: a run of blanks is skipped, one iteration per character. -/
theorem obj_loop_blanks (data : Str) (len : Nat) (errPos e : Nat) (key : Str)
    (obj : JsonObject) (rest : Str) (hlen : len = data.length) :
    ∀ (ws : Str) (step fuel : Nat), (∀ x ∈ ws, isBlank x = true) →
      data.drop step = ws ++ rest →
      _parseObject_loop (fuel + ws.length) data 0 len step errPos e true key obj
        = _parseObject_loop fuel data 0 len (step + ws.length) errPos e true key obj := by
  intro ws
  induction ws with
  | nil => intro step fuel _ _; rfl
  | cons w ws ih =>
    intro step fuel hws hd
    have hdl := length_of_drop_append hd (by simp)
    simp only [List.length_cons, List.length_append] at hdl
    have hw : isBlank w = true := hws w (List.mem_cons_self _ _)
    have hor : w = ' ' ∨ w = '\r' ∨ w = '\n' := by
      have : w = ' ' ∨ w = '\n' ∨ w = '\r' := by simpa [isBlank, or_assoc] using hw
      rcases this with h | h | h
      · exact Or.inl h
      · exact Or.inr (Or.inr h)
      · exact Or.inr (Or.inl h)
    have hc : readAt data (0 + step) = w := by rw [Nat.zero_add]; exact readAt_of_drop hd
    rw [show fuel + (w :: ws).length = (fuel + ws.length) + 1 by simp only [List.length_cons]; omega,
      obj_loop_space _ _ _ _ _ _ _ _ _ (by omega) (by rw [hc]; exact hor),
      ih (step + 1) fuel (fun x hx => hws x (List.mem_cons_of_mem _ hx)) (drop_succ_of_drop hd)]
    rw [show step + 1 + ws.length = step + (w :: ws).length by simp only [List.length_cons]; omega]

/-- In the text `{"k":` followed by blanks `ws` and by `rest`, a value token begins where
`rest` begins. -/
theorem valueTokenAt_first_member (k ws rest : Str) (hk : plain k)
    (hws : ∀ x ∈ ws, isBlank x = true) :
    valueTokenAt ('{' :: '"' :: (k ++ '"' :: ':' :: (ws ++ rest))) (k.length + 4 + ws.length) := by
  have h0 : ('{' :: '"' :: (k ++ '"' :: ':' :: (ws ++ rest))).drop 0
      = '{' :: '"' :: (k ++ '"' :: ':' :: (ws ++ rest)) := rfl
  have h1 := drop_succ_of_drop h0
  have h2 := drop_succ_of_drop h1
  have h3 := drop_add_of_drop k h2
  have h4 := drop_succ_of_drop h3
  have h5 := drop_succ_of_drop h4
  refine ⟨ws.length + 2, 0, k.length + 1, k, new.setType .JSON_OBJECT, fun fuel => ?_⟩
  rw [show fuel + (ws.length + 2) = (fuel + ws.length) + 2 by omega,
    obj_loop_key_colon _ _ _ _ _ _ _ _ k _ _ (by omega) hk
      (by rw [readPrev_succ, readAt_of_drop h0]; decide) h1,
    obj_loop_blanks _ _ _ _ _ _ rest rfl ws _ fuel hws
      (by rw [show 1 + k.length + 3 = 0 + 1 + 1 + k.length + 1 + 1 by omega]; exact h5)]
  rw [show 1 + k.length + 3 + ws.length = k.length + 4 + ws.length by omega]

end JsonObject

/-! ## The key order and the map operations -/

namespace JsonObject

theorem strLt_irrefl : ∀ (a : Str), strLt a a = false := by
  intro a
  induction a with
  | nil => rfl
  | cons x xs ih => simp [strLt, ih]

theorem strLt_trans : ∀ (a b c : Str), strLt a b = true → strLt b c = true →
    strLt a c = true := by
  intro a
  induction a with
  | nil =>
    intro b c h1 h2
    cases b with
    | nil => simp [strLt] at h1
    | cons y ys =>
      cases c with
      | nil => simp [strLt] at h2
      | cons z zs => simp [strLt]
  | cons x xs ih =>
    intro b c h1 h2
    cases b with
    | nil => simp [strLt] at h1
    | cons y ys =>
      cases c with
      | nil => simp [strLt] at h2
      | cons z zs =>
        simp only [strLt] at h1 h2 ⊢
        by_cases hxy : x.toNat < y.toNat
        · by_cases hyz : y.toNat < z.toNat
          · rw [if_pos (by omega)]
          · rw [if_neg hyz] at h2
            by_cases hzy : z.toNat < y.toNat
            · rw [if_pos hzy] at h2; simp at h2
            · rw [if_pos (by omega)]
        · rw [if_neg hxy] at h1
          by_cases hyx : y.toNat < x.toNat
          · rw [if_pos hyx] at h1; simp at h1
          · rw [if_neg hyx] at h1
            by_cases hyz : y.toNat < z.toNat
            · rw [if_pos (by omega)]
            · rw [if_neg hyz] at h2
              by_cases hzy : z.toNat < y.toNat
              · rw [if_pos hzy] at h2; simp at h2
              · rw [if_neg hzy] at h2
                rw [if_neg (by omega), if_neg (by omega)]
                exact ih ys zs h1 h2

theorem char_eq_of_toNat_eq (a b : Char) (h : a.toNat = b.toNat) : a = b := by
  rw [← Char.ofNat_toNat a, ← Char.ofNat_toNat b, h]

/-- Two strings of which neither is less than the other are equal. -/
theorem strLt_connex : ∀ (a b : Str), strLt a b = false → strLt b a = false → a = b := by
  intro a
  induction a with
  | nil =>
    intro b h1 _
    cases b with
    | nil => rfl
    | cons y ys => simp [strLt] at h1
  | cons x xs ih =>
    intro b h1 h2
    cases b with
    | nil => simp [strLt] at h2
    | cons y ys =>
      simp only [strLt] at h1 h2
      by_cases hxy : x.toNat < y.toNat
      · rw [if_pos hxy] at h1; simp at h1
      · rw [if_neg hxy] at h1
        by_cases hyx : y.toNat < x.toNat
        · rw [if_pos hyx] at h2; simp at h2
        · rw [if_neg hyx] at h1
          rw [if_neg hyx, if_neg hxy] at h2
          have hc : x = y := char_eq_of_toNat_eq x y (by omega)
          rw [hc, ih ys h1 h2]

theorem strLt_ne (a b : Str) (h : strLt a b = true) : a ≠ b := by
  intro hab
  rw [hab, strLt_irrefl] at h
  simp at h

theorem sortedKeys_cons (k1 : Str) (x1 : JsonObject) (rest : List (Str × JsonObject)) :
    sortedKeys ((k1, x1) :: rest) = true ↔
      (∀ e ∈ rest, strLt k1 e.1 = true) ∧ sortedKeys rest = true := by
  simp only [sortedKeys, Bool.and_eq_true, List.all_eq_true]

theorem mem_mapSet (k : Str) (x : JsonObject) (e : Str × JsonObject) :
    ∀ (m : List (Str × JsonObject)), e ∈ mapSet m k x → e = (k, x) ∨ e ∈ m ∨ e.1 = k := by
  intro m
  induction m with
  | nil => intro h; simp [mapSet] at h; exact Or.inl h
  | cons d rest ih =>
    intro h
    obtain ⟨k1, x1⟩ := d
    simp only [mapSet] at h
    by_cases h1 : strLt k k1 = true
    · simp only [h1, if_true, List.mem_cons] at h
      rcases h with h | h | h
      · exact Or.inl h
      · exact Or.inr (Or.inl (by rw [h]; exact List.mem_cons_self _ _))
      · exact Or.inr (Or.inl (List.mem_cons_of_mem _ h))
    · by_cases h2 : strLt k1 k = true
      · simp only [h1, h2, if_true, Bool.false_eq_true, if_false, List.mem_cons] at h
        rcases h with h | h
        · exact Or.inr (Or.inl (by rw [h]; exact List.mem_cons_self _ _))
        · rcases ih h with h | h | h
          · exact Or.inl h
          · exact Or.inr (Or.inl (List.mem_cons_of_mem _ h))
          · exact Or.inr (Or.inr h)
      · have hk : k = k1 := strLt_connex k k1 (by simpa using h1) (by simpa using h2)
        simp only [h1, h2, Bool.false_eq_true, if_false, List.mem_cons] at h
        rcases h with h | h
        · exact Or.inr (Or.inr (by rw [h, hk]))
        · exact Or.inr (Or.inl (List.mem_cons_of_mem _ h))

/-- The assignment `m_map[key] = value` keeps the keys in strictly ascending order. -/
theorem sortedKeys_mapSet (k : Str) (x : JsonObject) :
    ∀ (m : List (Str × JsonObject)), sortedKeys m = true → sortedKeys (mapSet m k x) = true := by
  intro m
  induction m with
  | nil => intro _; simp [mapSet, sortedKeys]
  | cons e rest ih =>
    intro hs
    obtain ⟨k1, x1⟩ := e
    obtain ⟨hall, hrest⟩ := (sortedKeys_cons k1 x1 rest).mp hs
    simp only [mapSet]
    by_cases h1 : strLt k k1 = true
    · simp only [h1, if_true]
      rw [sortedKeys_cons]
      refine ⟨?_, hs⟩
      intro e he
      rcases List.mem_cons.mp he with rfl | he
      · exact h1
      · exact strLt_trans _ _ _ h1 (hall e he)
    · by_cases h2 : strLt k1 k = true
      · simp only [h1, h2, if_true, Bool.false_eq_true, if_false]
        rw [sortedKeys_cons]
        refine ⟨?_, ih hrest⟩
        intro e he
        rcases mem_mapSet k x e rest he with h | h | h
        · rw [h]; exact h2
        · exact hall e h
        · rw [h]; exact h2
      · simp only [h1, h2, Bool.false_eq_true, if_false]
        rw [sortedKeys_cons]
        exact ⟨hall, hrest⟩

/-- The keys after `m_map[key] = value` are the key and the keys before. -/
theorem mem_keys_mapSet (k k2 : Str) (x : JsonObject) :
    ∀ (m : List (Str × JsonObject)),
      k2 ∈ (mapSet m k x).map Prod.fst ↔ k2 = k ∨ k2 ∈ m.map Prod.fst := by
  intro m
  induction m with
  | nil => simp [mapSet]
  | cons e rest ih =>
    obtain ⟨k1, x1⟩ := e
    simp only [mapSet]
    by_cases h1 : strLt k k1 = true
    · simp only [h1, if_true, List.map_cons, List.mem_cons]
    · by_cases h2 : strLt k1 k = true
      · simp only [h1, h2, if_true, Bool.false_eq_true, if_false, List.map_cons, List.mem_cons,
          ih]
        tauto
      · have hk : k = k1 := strLt_connex k k1 (by simpa using h1) (by simpa using h2)
        subst hk
        simp only [strLt_irrefl, Bool.false_eq_true, if_false, List.map_cons, List.mem_cons]
        tauto

end JsonObject

/-! ## Sequences of `setValue` calls -/

namespace JsonObject

theorem setValue_new (k : Str) (x : JsonObject) : new.setValue k x = mkObject [(k, x)] := rfl

theorem setValue_mkObject (m : List (Str × JsonObject)) (k : Str) (x : JsonObject) :
    (mkObject m).setValue k x = mkObject (mapSet m k x) := rfl

theorem insertAll_mkObject : ∀ (l : List (Str × JsonObject)) (m : List (Str × JsonObject)),
    insertAll l (mkObject m) = mkObject (l.foldl (fun m e => mapSet m e.1 e.2) m) := by
  intro l
  induction l with
  | nil => intro m; rfl
  | cons e rest ih =>
    intro m
    simp only [insertAll, List.foldl_cons] at ih ⊢
    rw [setValue_mkObject, ih]

/-- The keys returned by `keys()` after a sequence of `setValue` calls on a fresh value are the
keys of the map built by the same assignments. -/
theorem keys_insertAll_new (l : List (Str × JsonObject)) :
    (insertAll l new).keys.1 = (l.foldl (fun m e => mapSet m e.1 e.2) []).map Prod.fst := by
  cases l with
  | nil => rfl
  | cons e rest =>
    have h : insertAll (e :: rest) new = insertAll rest (mkObject (mapSet [] e.1 e.2)) := rfl
    rw [h, insertAll_mkObject]
    simp only [List.foldl_cons, keys, mkObject, List.length_nil, List.nil_append]
    split <;> rename_i hlen
    · rfl
    · have h0 : (List.foldl (fun m e => mapSet m e.1 e.2) (mapSet [] e.1 e.2) rest).length = 0 := by
        simp only [ne_eq, Decidable.not_not] at hlen
        exact hlen.symm
      rw [List.length_eq_zero.mp h0]
      rfl

theorem sortedKeys_foldl : ∀ (l m : List (Str × JsonObject)), sortedKeys m = true →
    sortedKeys (l.foldl (fun m e => mapSet m e.1 e.2) m) = true := by
  intro l
  induction l with
  | nil => intro m h; exact h
  | cons e rest ih =>
    intro m h
    simp only [List.foldl_cons]
    exact ih _ (sortedKeys_mapSet e.1 e.2 m h)

theorem mem_keys_foldl (k : Str) : ∀ (l m : List (Str × JsonObject)),
    k ∈ (l.foldl (fun m e => mapSet m e.1 e.2) m).map Prod.fst ↔
      k ∈ m.map Prod.fst ∨ k ∈ l.map Prod.fst := by
  intro l
  induction l with
  | nil => intro m; simp only [List.foldl_nil, List.map_nil, List.not_mem_nil, or_false]
  | cons e rest ih =>
    intro m
    simp only [List.foldl_cons, ih, mem_keys_mapSet, List.map_cons, List.mem_cons]
    tauto

theorem pairwise_of_sortedKeys : ∀ (m : List (Str × JsonObject)), sortedKeys m = true →
    List.Pairwise (fun a b => strLt a b = true) (m.map Prod.fst) := by
  intro m
  induction m with
  | nil => intro _; exact List.Pairwise.nil
  | cons e rest ih =>
    intro h
    obtain ⟨k1, x1⟩ := e
    obtain ⟨hall, hrest⟩ := (sortedKeys_cons k1 x1 rest).mp h
    simp only [List.map_cons]
    refine List.Pairwise.cons ?_ (ih hrest)
    intro b hb
    obtain ⟨e, he, rfl⟩ := List.mem_map.mp hb
    exact hall e he

theorem nodup_of_pairwise_strLt (ks : List Str)
    (h : List.Pairwise (fun a b => strLt a b = true) ks) : ks.Nodup :=
  List.Pairwise.imp (fun hab => strLt_ne _ _ hab) h

/-- Two strictly ascending lists of keys with the same members are equal. -/
theorem sorted_keys_unique (ks1 ks2 : List Str)
    (h1 : List.Pairwise (fun a b => strLt a b = true) ks1)
    (h2 : List.Pairwise (fun a b => strLt a b = true) ks2)
    (hmem : ∀ k, k ∈ ks1 ↔ k ∈ ks2) : ks1 = ks2 := by
  haveI : IsAntisymm Str (fun a b => strLt a b = true) :=
    ⟨fun a b hab hba => by rw [strLt_asymm a b hab] at hba; exact absurd hba (by decide)⟩
  exact List.eq_of_perm_of_sorted
    ((List.perm_ext_iff_of_nodup (nodup_of_pairwise_strLt _ h1)
      (nodup_of_pairwise_strLt _ h2)).mpr hmem) h1 h2

end JsonObject

/-! ## The rendering and its reference -/

namespace JsonObject

theorem intercalate_single (sep x : Str) : sep.intercalate [x] = x := by
  simp [List.intercalate, List.intersperse]

theorem intercalate_cons_cons (sep x y : Str) (l : List Str) :
    sep.intercalate (x :: y :: l) = x ++ (sep ++ sep.intercalate (y :: l)) := by
  simp [List.intercalate, List.intersperse]

theorem newLine_eq_refNl (mode : StringifyMode) : newLine mode = refNl mode.spaces := by
  cases mode <;> rfl

theorem space_eq_refSp (mode : StringifyMode) :
    (if mode ≠ .MODE_COMPACT then [' '] else []) = refSp mode.spaces := by
  cases mode <;> rfl

mutual
/-- The method `_stringify` computes the reference rendering at every depth. -/
theorem _stringify_reference (mode : StringifyMode) :
    ∀ (v : JsonObject) (d : Nat), v._stringify d mode = reference v d mode.spaces
  | ⟨val, arr, t, m, ks⟩, d => by
    cases t
    · rfl
    · rfl
    · rfl
    · simp [_stringify, reference]
    · simp only [_stringify, reference, newLine_eq_refNl, _stringify_array_reference mode arr (d + 1)]
      simp
    · simp only [_stringify, reference, newLine_eq_refNl, _stringify_map_reference mode m (d + 1)]
      simp
    · rfl
/-- The array loop of `_stringify` joins the reference items with the separator. -/
theorem _stringify_array_reference (mode : StringifyMode) :
    ∀ (l : List JsonObject) (d : Nat),
      _stringify_array l d mode = (refSep mode.spaces).intercalate (referenceItems l d mode.spaces)
  | [], d => by simp [_stringify_array, referenceItems, List.intercalate]
  | [x], d => by
    simp only [_stringify_array, referenceItems, intercalate_single, _stringify_reference mode x d]
    simp
  | x :: y :: rest, d => by
    have ih := _stringify_array_reference mode (y :: rest) d
    rw [_stringify_array, ih, _stringify_reference mode x d]
    simp only [referenceItems, intercalate_cons_cons, newLine_eq_refNl, refSep]
    simp
/-- The map loop of `_stringify` joins the reference entries with the separator. -/
theorem _stringify_map_reference (mode : StringifyMode) :
    ∀ (l : List (Str × JsonObject)) (d : Nat),
      _stringify_map l d mode
        = (refSep mode.spaces).intercalate (referenceEntries l d mode.spaces)
  | [], d => by simp [_stringify_map, referenceEntries, List.intercalate]
  | [(k, x)], d => by
    simp only [_stringify_map, referenceEntries, intercalate_single, _stringify_reference mode x d,
      space_eq_refSp]
    simp
  | (k, x) :: e :: rest, d => by
    have ih := _stringify_map_reference mode (e :: rest) d
    rw [_stringify_map, ih, _stringify_reference mode x d]
    simp only [referenceEntries, intercalate_cons_cons, newLine_eq_refNl, refSep, space_eq_refSp]
    simp
end

end JsonObject

/-! ## Structures without a key or a value -/

namespace JsonObject

/-- Key state on a rest of the buffer without a double quote and a colon: the loop of
`_parseObject` runs to the end of the buffer and changes nothing. -/
theorem obj_loop_key_chars (data : Str) (len errPos e : Nat) (key : Str) (obj : JsonObject) :
    ∀ (ws : Str) (step fuel : Nat), (∀ x ∈ ws, x ≠ '"' ∧ x ≠ ':') →
      data.drop step = ws → step + ws.length = len →
      _parseObject_loop (fuel + ws.length) data 0 len step errPos e false key obj
        = some (len, errPos, e, obj) := by
  intro ws
  induction ws with
  | nil =>
    intro step fuel _ _ hlen
    simp only [List.length_nil, Nat.add_zero] at hlen ⊢
    rw [obj_loop_done _ _ _ _ _ _ _ _ _ _ (by omega), hlen]
  | cons w ws ih =>
    intro step fuel hws hd hlen
    simp only [List.length_cons] at hlen
    have hw := hws w (List.mem_cons_self _ _)
    have hc : readAt data (0 + step) = w := by rw [Nat.zero_add]; exact readAt_of_drop hd
    rw [show fuel + (w :: ws).length = (fuel + ws.length) + 1 by
        simp only [List.length_cons]; omega,
      obj_loop_key_skip _ _ _ _ _ _ _ _ _ (by omega) (by rw [hc]; exact hw.1)
        (by rw [hc]; exact hw.2),
      ih (step + 1) fuel (fun x hx => hws x (List.mem_cons_of_mem _ hx)) (drop_succ_of_drop hd)
        (by omega)]

theorem isBlank_cases {c : Char} (h : isBlank c = true) : c = ' ' ∨ c = '\n' ∨ c = '\r' := by
  simpa [isBlank, or_assoc] using h

/-- Value state of the loop of `_parseArray` on blanks followed by `]`: the loop leaves at the
bracket and changes nothing. -/
theorem arr_loop_blanks_close (data : Str) (len errPos e : Nat) (obj : JsonObject) (rest : Str) :
    ∀ (ws : Str) (step fuel : Nat), (∀ x ∈ ws, isBlank x = true) →
      data.drop step = ws ++ ']' :: rest → step + ws.length < len →
      _parseArray_loop (fuel + ws.length + 1) data 0 len step errPos e true obj
        = some (step + ws.length, errPos, e, obj) := by
  intro ws
  induction ws with
  | nil =>
    intro step fuel _ hd hlen
    simp only [List.length_nil, Nat.add_zero, List.nil_append] at hlen hd ⊢
    have hc : readAt data (0 + step) = ']' := by rw [Nat.zero_add]; exact readAt_of_drop hd
    rw [arr_loop_tail _ _ _ _ _ _ _ _ _ hlen (fun _ => by rw [hc]; decide), hc]
    simp
  | cons w ws ih =>
    intro step fuel hws hd hlen
    simp only [List.length_cons] at hlen
    have hw := isBlank_cases (hws w (List.mem_cons_self _ _))
    have hc : readAt data (0 + step) = w := by rw [Nat.zero_add]; exact readAt_of_drop hd
    have hstep := ih (step + 1) fuel (fun x hx => hws x (List.mem_cons_of_mem _ hx))
      (drop_succ_of_drop hd) (by omega)
    rw [show fuel + (w :: ws).length + 1 = (fuel + ws.length + 1) + 1 by
        simp only [List.length_cons]; omega,
      arr_loop_tail _ _ _ _ _ _ _ _ _ (by omega)
        (fun _ => by rw [hc]; rcases hw with h | h | h <;> subst h <;> decide), hc]
    rw [if_neg (by rcases hw with h | h | h <;> subst h <;> decide),
      if_neg (by rcases hw with h | h | h <;> subst h <;> decide), hstep]
    rw [show step + 1 + ws.length = step + (w :: ws).length by
      simp only [List.length_cons]; omega]

/-- An object text without a double quote and a colon after the brace: `parse` returns the
length plus 1 and the root is the empty value of kind Error. -/
theorem parse_no_key (self : JsonObject) (ws : Str) (hws : ∀ x ∈ ws, x ≠ '"' ∧ x ≠ ':')
    (hne : ws ≠ []) :
    parse self ('{' :: ws) = some (('{' :: ws).length + 1, new.setType .JSON_ERROR) := by
  have hpos : 0 < ws.length := List.length_pos.mpr hne
  have h0 : ('{' :: ws).drop 0 = '{' :: ws := rfl
  have h1 := drop_succ_of_drop h0
  have hlen : ('{' :: ws).length = ws.length + 1 := rfl
  obtain ⟨f, hf⟩ : ∃ f, 2 * ('{' :: ws).length = (f + ws.length) + 1 :=
    ⟨ws.length + 1, by rw [hlen]; omega⟩
  rw [parse_brace _ _ (by rw [hlen]; omega) (readAt_of_drop h0), hf,
    _parseObject_eq _ _ _ _ _ _ (by rw [hlen]; omega) (readAt_of_drop h0),
    obj_loop_key_chars _ _ _ _ _ _ ws 1 f hws h1 (by rw [hlen]; omega)]
  simp only [Nat.add_one_ne_zero, if_false]
  rw [Nat.add_comm 1]
  rfl

/-- An array text with only blanks between the brackets: `parse` returns the offset of the
closing bracket plus 1 and the root is the empty value of kind Error. -/
theorem parse_no_element (self : JsonObject) (ws rest : Str)
    (hws : ∀ x ∈ ws, isBlank x = true) :
    parse self ('[' :: (ws ++ ']' :: rest))
      = some (ws.length + 2, new.setType .JSON_ERROR) := by
  have h0 : ('[' :: (ws ++ ']' :: rest)).drop 0 = '[' :: (ws ++ ']' :: rest) := rfl
  have h1 := drop_succ_of_drop h0
  have hlen : ('[' :: (ws ++ ']' :: rest)).length = ws.length + rest.length + 2 := by
    simp only [List.length_cons, List.length_append]; omega
  obtain ⟨f, hf⟩ : ∃ f, 2 * ('[' :: (ws ++ ']' :: rest)).length = (f + ws.length + 1) + 1 :=
    ⟨ws.length + 2 * rest.length + 2, by rw [hlen]; omega⟩
  rw [parse_bracket _ _ (by rw [hlen]; omega) (readAt_of_drop h0), hf,
    _parseArray_eq _ _ _ _ _ _ (by rw [hlen]; omega) (readAt_of_drop h0),
    arr_loop_blanks_close _ _ _ _ _ rest ws 1 f hws h1 (by rw [hlen]; omega)]
  simp only [Nat.add_one_ne_zero, if_false]
  rw [show 1 + (1 + ws.length) = ws.length + 2 by omega]
  rfl

end JsonObject

/-! ## The reads of `_compareWord` -/

namespace JsonObject

theorem _compareWord_loop_reads_le (data : Str) (base : Nat) :
    ∀ (word : Str) (i : Nat), ∀ j ∈ _compareWord_loop_reads data base word i,
      j < base + i + word.length := by
  intro word
  induction word with
  | nil => intro i j hj; simp [_compareWord_loop_reads] at hj
  | cons w ws ih =>
    intro i j hj
    simp only [_compareWord_loop_reads] at hj
    simp only [List.length_cons]
    split at hj
    · rw [List.mem_singleton.mp hj]; omega
    · rcases List.mem_cons.mp hj with h | h
      · rw [h]; omega
      · have := ih (i + 1) j h
        omega

/-- Every index that `_compareWord(data + base, len, word)` reads is at most `base + len`, one
past the last index of the `len` bytes it was given. -/
theorem _compareWord_reads_le (data : Str) (base len : Nat) (word : Str) :
    ∀ j ∈ _compareWord_reads data base len word, j ≤ base + len := by
  intro j hj
  simp only [_compareWord_reads] at hj
  split at hj
  · simp at hj
  · rename_i hlen
    have hl := _compareWord_loop_reads_le data base word 0
    split at hj
    · have := hl j hj
      omega
    · rcases List.mem_append.mp hj with h | h
      · have := hl j h
        omega
      · rw [List.mem_singleton.mp h]; omega

/-- When the word fills the `len` bytes exactly and matches them, `_compareWord` reads the
index `base + len`. -/
theorem _compareWord_reads_end (data : Str) (base len : Nat) (word : Str)
    (hlen : len = word.length) (hm : _compareWord_loop data base word 0 = none) :
    base + len ∈ _compareWord_reads data base len word := by
  simp only [_compareWord_reads, hm, hlen, Nat.lt_irrefl, if_false]
  exact List.mem_append_right _ (List.mem_singleton_self _)

end JsonObject

/-! ## What the structure loops do to the value they fill -/

namespace JsonObject

/-- The loop of `_parseObject` changes `obj` only by `setValue` calls and assignments to
`m_map`: a property kept by both holds at the loop exit. -/
theorem obj_loop_preserves (P : JsonObject → Prop)
    (hset : ∀ o k x, P o → P (o.setValue k x))
    (hassign : ∀ o k x, P o → P (o.mapAssign k x)) :
    ∀ (fuel : Nat) (data : Str) (base len step errPos e : Nat) (sv : Bool) (key : Str)
      (obj : JsonObject) (r : Nat × Nat × Nat × JsonObject), P obj →
      _parseObject_loop fuel data base len step errPos e sv key obj = some r → P r.2.2.2 := by
  intro fuel
  induction fuel with
  | zero =>
    intro data base len step errPos e sv key obj r hP h
    by_cases hlt : step < len
    · simp [_parseObject_loop, hlt] at h
    · rw [obj_loop_done _ _ _ _ _ _ _ _ _ _ hlt] at h
      rw [← Option.some.inj h]; exact hP
  | succ f ih =>
    intro data base len step errPos e sv key obj r hP h
    by_cases hlt : step < len
    · cases sv with
      | false =>
        by_cases hq : readAt data (base + step) = '"'
        · rw [obj_loop_key_quote _ _ _ _ _ _ _ _ _ hlt hq] at h
          split_ifs at h <;>
            first
            | (rw [← Option.some.inj h]; exact hP)
            | exact ih _ _ _ _ _ _ _ _ _ _ hP h
        · by_cases hc : readAt data (base + step) = ':'
          · rw [obj_loop_colon _ _ _ _ _ _ _ _ _ hlt hc] at h
            exact ih _ _ _ _ _ _ _ _ _ _ hP h
          · rw [obj_loop_key_skip _ _ _ _ _ _ _ _ _ hlt hq hc] at h
            exact ih _ _ _ _ _ _ _ _ _ _ hP h
      | true =>
        by_cases hn : readAt data (base + step) = 'n'
        · rw [obj_loop_null _ _ _ _ _ _ _ _ _ hlt hn] at h
          split_ifs at h <;>
            first
            | (rw [← Option.some.inj h]; exact hP)
            | exact ih _ _ _ _ _ _ _ _ _ _ (hset _ _ _ hP) h
        by_cases ht : readAt data (base + step) = 't'
        · rw [obj_loop_true _ _ _ _ _ _ _ _ _ hlt ht] at h
          split_ifs at h <;>
            first
            | (rw [← Option.some.inj h]; exact hP)
            | exact ih _ _ _ _ _ _ _ _ _ _ (hset _ _ _ hP) h
        by_cases hf : readAt data (base + step) = 'f'
        · rw [obj_loop_false _ _ _ _ _ _ _ _ _ hlt hf] at h
          split_ifs at h <;>
            first
            | (rw [← Option.some.inj h]; exact hP)
            | exact ih _ _ _ _ _ _ _ _ _ _ (hset _ _ _ hP) h
        by_cases hq : readAt data (base + step) = '"'
        · rw [obj_loop_quote _ _ _ _ _ _ _ _ _ hlt hq] at h
          split_ifs at h <;>
            first
            | (rw [← Option.some.inj h]; exact hP)
            | exact ih _ _ _ _ _ _ _ _ _ _ (hset _ _ _ hP) h
        by_cases hnum : isCharNumber (readAt data (base + step)) = true
        · rw [obj_loop_number _ _ _ _ _ _ _ _ _ hlt hnum] at h
          simp only [] at h
          split_ifs at h <;>
            first
            | (rw [← Option.some.inj h]; exact hP)
            | exact ih _ _ _ _ _ _ _ _ _ _ (hassign _ _ _ hP) h
        by_cases ho : readAt data (base + step) = '{'
        · rw [obj_loop_object _ _ _ _ _ _ _ _ _ hlt ho] at h
          cases hres : _parseObject f data (base + step) (len - step) e new with
          | none => rw [hres] at h; simp at h
          | some t =>
            obtain ⟨r1, e1, o1⟩ := t
            rw [hres] at h
            simp only [] at h
            split_ifs at h <;>
              first
              | (rw [← Option.some.inj h]; exact hP)
              | exact ih _ _ _ _ _ _ _ _ _ _ (hassign _ _ _ hP) h
        by_cases ha : readAt data (base + step) = '['
        · rw [obj_loop_array _ _ _ _ _ _ _ _ _ hlt ha] at h
          cases hres : _parseArray f data (base + step) (len - step) e new with
          | none => rw [hres] at h; simp at h
          | some t =>
            obtain ⟨r1, e1, o1⟩ := t
            rw [hres] at h
            simp only [] at h
            split_ifs at h <;>
              first
              | (rw [← Option.some.inj h]; exact hP)
              | exact ih _ _ _ _ _ _ _ _ _ _ (hassign _ _ _ hP) h
        by_cases hcm : readAt data (base + step) = ','
        · rw [obj_loop_comma _ _ _ _ _ _ _ _ _ hlt hcm] at h
          exact ih _ _ _ _ _ _ _ _ _ _ hP h
        by_cases hcl : readAt data (base + step) = '}'
        · rw [obj_loop_close _ _ _ _ _ _ _ _ _ hlt hcl] at h
          rw [← Option.some.inj h]; exact hP
        rw [obj_loop_other _ _ _ _ _ _ _ _ _ hlt hn ht hf hq (by simpa using hnum) ho ha
          hcm hcl] at h
        exact ih _ _ _ _ _ _ _ _ _ _ hP h
    · rw [obj_loop_done _ _ _ _ _ _ _ _ _ _ hlt] at h
      rw [← Option.some.inj h]; exact hP

/-- The loop of `_parseArray` changes `obj` only by `push_back` on `m_array`: a property kept
by it holds at the loop exit. -/
theorem arr_loop_preserves (P : JsonObject → Prop)
    (hpush : ∀ o x, P o → P (o.push_back x)) :
    ∀ (fuel : Nat) (data : Str) (base len step errPos e : Nat) (sv : Bool)
      (obj : JsonObject) (r : Nat × Nat × Nat × JsonObject), P obj →
      _parseArray_loop fuel data base len step errPos e sv obj = some r → P r.2.2.2 := by
  intro fuel
  induction fuel with
  | zero =>
    intro data base len step errPos e sv obj r hP h
    by_cases hlt : step < len
    · simp [_parseArray_loop, hlt] at h
    · rw [arr_loop_done _ _ _ _ _ _ _ _ _ hlt] at h
      rw [← Option.some.inj h]; exact hP
  | succ f ih =>
    intro data base len step errPos e sv obj r hP h
    by_cases hlt : step < len
    · by_cases hstart : sv = true ∧ (readAt data (base + step) = 'n' ∨
          readAt data (base + step) = 't' ∨ readAt data (base + step) = 'f' ∨
          readAt data (base + step) = '"' ∨ isCharNumber (readAt data (base + step)) = true ∨
          readAt data (base + step) = '{' ∨ readAt data (base + step) = '[')
      · obtain ⟨hsv, hcase⟩ := hstart
        subst hsv
        by_cases hn : readAt data (base + step) = 'n'
        · rw [arr_loop_null _ _ _ _ _ _ _ _ hlt hn] at h
          split_ifs at h <;>
            first
            | (rw [← Option.some.inj h]; exact hP)
            | exact ih _ _ _ _ _ _ _ _ _ (hpush _ _ hP) h
        by_cases ht : readAt data (base + step) = 't'
        · rw [arr_loop_true _ _ _ _ _ _ _ _ hlt ht] at h
          split_ifs at h <;>
            first
            | (rw [← Option.some.inj h]; exact hP)
            | exact ih _ _ _ _ _ _ _ _ _ (hpush _ _ hP) h
        by_cases hf : readAt data (base + step) = 'f'
        · rw [arr_loop_false _ _ _ _ _ _ _ _ hlt hf] at h
          split_ifs at h <;>
            first
            | (rw [← Option.some.inj h]; exact hP)
            | exact ih _ _ _ _ _ _ _ _ _ (hpush _ _ hP) h
        by_cases hq : readAt data (base + step) = '"'
        · rw [arr_loop_quote _ _ _ _ _ _ _ _ hlt hq] at h
          split_ifs at h <;>
            first
            | (rw [← Option.some.inj h]; exact hP)
            | exact ih _ _ _ _ _ _ _ _ _ (hpush _ _ hP) h
        by_cases hnum : isCharNumber (readAt data (base + step)) = true
        · rw [arr_loop_number _ _ _ _ _ _ _ _ hlt hnum] at h
          split_ifs at h <;>
            first
            | (rw [← Option.some.inj h]; exact hP)
            | exact ih _ _ _ _ _ _ _ _ _ (hpush _ _ hP) h
        by_cases ho : readAt data (base + step) = '{'
        · rw [arr_loop_object _ _ _ _ _ _ _ _ hlt ho] at h
          cases hres : _parseObject f data (base + step) (len - step) e new with
          | none => rw [hres] at h; simp at h
          | some t =>
            obtain ⟨r1, e1, o1⟩ := t
            rw [hres] at h
            simp only [] at h
            split_ifs at h <;>
              first
              | (rw [← Option.some.inj h]; exact hP)
              | exact ih _ _ _ _ _ _ _ _ _ (hpush _ _ hP) h
        by_cases ha : readAt data (base + step) = '['
        · rw [arr_loop_array _ _ _ _ _ _ _ _ hlt ha] at h
          cases hres : _parseArray f data (base + step) (len - step) e new with
          | none => rw [hres] at h; simp at h
          | some t =>
            obtain ⟨r1, e1, o1⟩ := t
            rw [hres] at h
            simp only [] at h
            split_ifs at h <;>
              first
              | (rw [← Option.some.inj h]; exact hP)
              | exact ih _ _ _ _ _ _ _ _ _ (hpush _ _ hP) h
        rcases hcase with h1 | h1 | h1 | h1 | h1 | h1 | h1 <;> contradiction
      · rw [arr_loop_tail _ _ _ _ _ _ _ _ _ hlt (by
          intro hsv
          simp only [hsv, true_and, not_or] at hstart
          obtain ⟨a1, a2, a3, a4, a5, a6, a7⟩ := hstart
          exact ⟨a1, a2, a3, a4, by simpa using a5, a6, a7⟩)] at h
        split_ifs at h <;>
          first
          | (rw [← Option.some.inj h]; exact hP)
          | exact ih _ _ _ _ _ _ _ _ _ hP h
    · rw [arr_loop_done _ _ _ _ _ _ _ _ _ hlt] at h
      rw [← Option.some.inj h]; exact hP

end JsonObject

/-! ## The fields of the value after `parse` -/

namespace JsonObject

/-- The sub-parser `_parseObject` leaves the scalar text and the element list of `obj` alone and
sets the kind to Object or Error. -/
theorem _parseObject_fields (fuel : Nat) (data : Str) (base len e : Nat) (obj : JsonObject)
    (r : Nat × Nat × JsonObject) (h : _parseObject fuel data base len e obj = some r) :
    r.2.2.m_value = obj.m_value ∧ r.2.2.m_array = obj.m_array ∧
    (r.2.2.m_type = .JSON_OBJECT ∨ r.2.2.m_type = .JSON_ERROR) := by
  cases fuel with
  | zero => simp [_parseObject] at h
  | succ f =>
    rw [_parseObject] at h
    split at h
    · rw [← Option.some.inj h]; exact ⟨rfl, rfl, Or.inr rfl⟩
    · split at h
      · rw [← Option.some.inj h]; exact ⟨rfl, rfl, Or.inr rfl⟩
      · have hP := obj_loop_preserves
          (fun o => o.m_type = .JSON_OBJECT ∧ o.m_value = obj.m_value ∧ o.m_array = obj.m_array)
          (fun o k x ho => by
            rw [setValue_object o k x ho.1]
            exact ho)
          (fun o k x ho => ho)
          f data base len 1 1 0 false [] (obj.setType .JSON_OBJECT)
        split at h
        · simp at h
        · rename_i step errPos end1 obj1 heq
          have hobj1 := hP _ ⟨rfl, rfl, rfl⟩ heq
          simp only at hobj1
          split at h
          · rw [← Option.some.inj h]; exact ⟨hobj1.2.1, hobj1.2.2, Or.inl hobj1.1⟩
          · rw [← Option.some.inj h]; exact ⟨hobj1.2.1, hobj1.2.2, Or.inr rfl⟩

/-- The sub-parser `_parseArray` leaves the scalar text and the key map of `obj` alone and sets
the kind to Array or Error. -/
theorem _parseArray_fields (fuel : Nat) (data : Str) (base len e : Nat) (obj : JsonObject)
    (r : Nat × Nat × JsonObject) (h : _parseArray fuel data base len e obj = some r) :
    r.2.2.m_value = obj.m_value ∧ r.2.2.m_map = obj.m_map ∧
    (r.2.2.m_type = .JSON_ARRAY ∨ r.2.2.m_type = .JSON_ERROR) := by
  cases fuel with
  | zero => simp [_parseArray] at h
  | succ f =>
    rw [_parseArray] at h
    split at h
    · rw [← Option.some.inj h]; exact ⟨rfl, rfl, Or.inr rfl⟩
    · split at h
      · rw [← Option.some.inj h]; exact ⟨rfl, rfl, Or.inr rfl⟩
      · have hP := arr_loop_preserves
          (fun o => o.m_type = .JSON_ARRAY ∧ o.m_value = obj.m_value ∧ o.m_map = obj.m_map)
          (fun o x ho => ho)
          f data base len 1 1 0 true (obj.setType .JSON_ARRAY)
        split at h
        · simp at h
        · rename_i step errPos end1 obj1 heq
          have hobj1 := hP _ ⟨rfl, rfl, rfl⟩ heq
          simp only at hobj1
          split at h
          · rw [← Option.some.inj h]; exact ⟨hobj1.2.1, hobj1.2.2, Or.inl hobj1.1⟩
          · rw [← Option.some.inj h]; exact ⟨hobj1.2.1, hobj1.2.2, Or.inr rfl⟩

/-- The loop of `parse` returns `*this` unchanged or as one of the sub-parsers left it. -/
theorem parse_loop_result (data : Str) (len : Nat) (self : JsonObject) :
    ∀ (n step r : Nat) (obj : JsonObject), parse_loop data len self n step = some (r, obj) →
      obj = self ∨
      (∃ fuel base l e e1, _parseObject fuel data base l e self = some (r, e1, obj)) ∨
      (∃ fuel base l e e1, _parseArray fuel data base l e self = some (r, e1, obj)) := by
  intro n
  induction n with
  | zero =>
    intro step r obj h
    simp only [parse_loop, Option.some.injEq, Prod.mk.injEq] at h
    exact Or.inl h.2.symm
  | succ m ih =>
    intro step r obj h
    rw [parse_loop] at h
    split_ifs at h with h1 h2 h3
    · cases hres : _parseObject (2 * len) data step (len - step) 0 self with
      | none => rw [hres] at h; simp at h
      | some t =>
        obtain ⟨r1, e1, o1⟩ := t
        rw [hres] at h
        simp only [Option.some.injEq, Prod.mk.injEq] at h
        obtain ⟨hr, ho⟩ := h
        subst hr; subst ho
        exact Or.inr (Or.inl ⟨_, _, _, _, _, hres⟩)
    · cases hres : _parseArray (2 * len) data step (len - step) 0 self with
      | none => rw [hres] at h; simp at h
      | some t =>
        obtain ⟨r1, e1, o1⟩ := t
        rw [hres] at h
        simp only [Option.some.injEq, Prod.mk.injEq] at h
        obtain ⟨hr, ho⟩ := h
        subst hr; subst ho
        exact Or.inr (Or.inr ⟨_, _, _, _, _, hres⟩)
    · exact ih _ _ _ h
    · simp only [Option.some.injEq, Prod.mk.injEq] at h
      exact Or.inl h.2.symm

/-- After `parse` on a buffer of length at least 2 the scalar text is empty, and the value is
the cleared value, or holds at most a key map with kind Object or Error, or holds at most an
element list with kind Array or Error. -/
theorem parse_fields (self : JsonObject) (data : Str) (r : Nat) (obj : JsonObject)
    (h2 : 2 ≤ data.length) (h : parse self data = some (r, obj)) :
    obj.m_value = [] ∧
    (obj = new ∨
      (obj.m_array = [] ∧ (obj.m_type = .JSON_OBJECT ∨ obj.m_type = .JSON_ERROR)) ∨
      (obj.m_map = [] ∧ (obj.m_type = .JSON_ARRAY ∨ obj.m_type = .JSON_ERROR))) := by
  simp only [parse] at h
  rw [if_neg (by omega)] at h
  rcases parse_loop_result _ _ _ _ _ _ _ h with h1 | ⟨f, b, l, e, e1, h1⟩ | ⟨f, b, l, e, e1, h1⟩
  · rw [h1]; exact ⟨rfl, Or.inl rfl⟩
  · have := _parseObject_fields _ _ _ _ _ _ _ h1
    exact ⟨this.1, Or.inr (Or.inl ⟨this.2.1, this.2.2⟩)⟩
  · have := _parseArray_fields _ _ _ _ _ _ _ h1
    exact ⟨this.1, Or.inr (Or.inr ⟨this.2.1, this.2.2⟩)⟩

theorem mapErase_nil (key : Str) : mapErase [] key = [] := rfl

end JsonObject

/-! ## The invariant of the reachable states -/

namespace JsonObject

/-- Every reachable state is consistent, or has kind Error, an empty scalar text and at most
one of the key map and the element list non-empty (the state a failed `parse` leaves). -/
theorem reachable_invariant (v : JsonObject) (h : Reachable v) :
    consistent v ∨
      (v.m_type = .JSON_ERROR ∧ v.m_value = [] ∧ (v.m_map = [] ∨ v.m_array = [])) := by
  induction h with
  | new => exact Or.inl (by simp [consistent, new])
  | ofBool b => exact Or.inl (by simp [consistent, ofBool, new, type])
  | ofInt n => exact Or.inl (by simp [consistent, ofInt, new, type])
  | ofDouble t => exact Or.inl (by simp [consistent, ofDouble, new, type])
  | ofString s => exact Or.inl (by simp [consistent, ofString, new, type])
  | ofArray l => exact Or.inl (by simp [consistent, ofArray, new, type])
  | setValue v k x _ ih =>
    left
    by_cases ht : v.m_type = .JSON_OBJECT
    · rcases ih with hc | he
      · obtain ⟨_, h2, h3⟩ := hc
        simp only [type, ht] at h2 h3
        have ha : v.m_array = [] := by
          by_contra hne
          exact absurd (h2 hne) (by decide)
        have hv : v.m_value = [] := by
          by_contra hne
          rcases h3 hne with h | h | h <;> exact absurd h (by decide)
        simp [consistent, setValue, ht, ha, hv, type]
      · rw [ht] at he
        exact absurd he.1 (by decide)
    · simp [consistent, setValue, ht, clear, type]
  | append v x _ ih =>
    left
    by_cases ht : v.m_type = .JSON_ARRAY
    · rcases ih with hc | he
      · obtain ⟨h1, _, h3⟩ := hc
        simp only [type, ht] at h1 h3
        have hm : v.m_map = [] := by
          by_contra hne
          exact absurd (h1 hne) (by decide)
        have hv : v.m_value = [] := by
          by_contra hne
          rcases h3 hne with h | h | h <;> exact absurd h (by decide)
        simp [consistent, append, ht, hm, hv, type]
      · rw [ht] at he
        exact absurd he.1 (by decide)
    · simp [consistent, append, ht, clear, type]
  | remove v k _ ih =>
    have hne : mapErase v.m_map k ≠ [] → v.m_map ≠ [] := by
      intro h1 h2
      rw [h2] at h1
      exact h1 rfl
    rcases ih with hc | he
    · left
      obtain ⟨h1, h2, h3⟩ := hc
      exact ⟨fun h => h1 (hne h), h2, h3⟩
    · right
      refine ⟨he.1, he.2.1, ?_⟩
      rcases he.2.2 with h | h
      · left
        show mapErase v.m_map k = []
        rw [h]; rfl
      · exact Or.inr h
  | clear v _ _ => exact Or.inl (by simp [consistent, clear])
  | parse v data r obj _ hp ih =>
    by_cases h2 : data.length < 2
    · simp only [JsonObject.parse, h2, if_true, Option.some.injEq, Prod.mk.injEq] at hp
      rw [← hp.2]; exact ih
    · obtain ⟨hv, hcase⟩ := parse_fields v data r obj (by omega) hp
      rcases hcase with h | ⟨ha, ht | ht⟩ | ⟨hm, ht | ht⟩
      · left; rw [h]; simp [consistent, new]
      · left; simp [consistent, hv, ha, ht, type]
      · right; exact ⟨ht, hv, Or.inr ha⟩
      · left; simp [consistent, hv, hm, ht, type]
      · right; exact ⟨ht, hv, Or.inl hm⟩

end JsonObject

/-! ## The result does not depend on the fuel -/

namespace JsonObject

/-- One more unit of fuel does not change a result: the fuel is not observable. -/
theorem fuel_succ : ∀ fuel : Nat,
    (∀ data base len e obj r, _parseObject fuel data base len e obj = some r →
      _parseObject (fuel + 1) data base len e obj = some r) ∧
    (∀ data base len step errPos e sv key obj r,
      _parseObject_loop fuel data base len step errPos e sv key obj = some r →
      _parseObject_loop (fuel + 1) data base len step errPos e sv key obj = some r) ∧
    (∀ data base len e obj r, _parseArray fuel data base len e obj = some r →
      _parseArray (fuel + 1) data base len e obj = some r) ∧
    (∀ data base len step errPos e sv obj r,
      _parseArray_loop fuel data base len step errPos e sv obj = some r →
      _parseArray_loop (fuel + 1) data base len step errPos e sv obj = some r) := by
  intro fuel
  induction fuel with
  | zero =>
    refine ⟨?_, ?_, ?_, ?_⟩
    · intro data base len e obj r h
      simp [_parseObject] at h
    · intro data base len step errPos e sv key obj r h
      by_cases hlt : step < len
      · simp [_parseObject_loop, hlt] at h
      · rw [obj_loop_done _ _ _ _ _ _ _ _ _ _ hlt] at h ⊢
        exact h
    · intro data base len e obj r h
      simp [_parseArray] at h
    · intro data base len step errPos e sv obj r h
      by_cases hlt : step < len
      · simp [_parseArray_loop, hlt] at h
      · rw [arr_loop_done _ _ _ _ _ _ _ _ _ hlt] at h ⊢
        exact h
  | succ f ih =>
    obtain ⟨ihO, ihOL, ihA, ihAL⟩ := ih
    refine ⟨?_, ?_, ?_, ?_⟩
    · intro data base len e obj r h
      by_cases h2 : len < 2
      · rw [_parseObject] at h ⊢
        rw [if_pos h2] at h ⊢
        exact h
      · by_cases hc : readAt data base = '{'
        · rw [_parseObject_eq _ _ _ _ _ _ (by omega) hc] at h ⊢
          cases hres : _parseObject_loop f data base len 1 1 0 false []
              (obj.setType .JSON_OBJECT) with
          | none => rw [hres] at h; simp at h
          | some t =>
            rw [hres] at h
            rw [ihOL _ _ _ _ _ _ _ _ _ _ hres]
            exact h
        · rw [_parseObject] at h ⊢
          rw [if_neg h2, if_pos hc] at h ⊢
          exact h
    · intro data base len step errPos e sv key obj r h
      by_cases hlt : step < len
      · cases sv with
        | false =>
          by_cases hq : readAt data (base + step) = '"'
          · rw [obj_loop_key_quote _ _ _ _ _ _ _ _ _ hlt hq] at h ⊢
            split_ifs at h ⊢ <;> first | exact h | exact ihOL _ _ _ _ _ _ _ _ _ _ h
          · by_cases hc : readAt data (base + step) = ':'
            · rw [obj_loop_colon _ _ _ _ _ _ _ _ _ hlt hc] at h ⊢
              exact ihOL _ _ _ _ _ _ _ _ _ _ h
            · rw [obj_loop_key_skip _ _ _ _ _ _ _ _ _ hlt hq hc] at h ⊢
              exact ihOL _ _ _ _ _ _ _ _ _ _ h
        | true =>
          by_cases hn : readAt data (base + step) = 'n'
          · rw [obj_loop_null _ _ _ _ _ _ _ _ _ hlt hn] at h ⊢
            split_ifs at h ⊢ <;> first | exact h | exact ihOL _ _ _ _ _ _ _ _ _ _ h
          by_cases ht : readAt data (base + step) = 't'
          · rw [obj_loop_true _ _ _ _ _ _ _ _ _ hlt ht] at h ⊢
            split_ifs at h ⊢ <;> first | exact h | exact ihOL _ _ _ _ _ _ _ _ _ _ h
          by_cases hf : readAt data (base + step) = 'f'
          · rw [obj_loop_false _ _ _ _ _ _ _ _ _ hlt hf] at h ⊢
            split_ifs at h ⊢ <;> first | exact h | exact ihOL _ _ _ _ _ _ _ _ _ _ h
          by_cases hq : readAt data (base + step) = '"'
          · rw [obj_loop_quote _ _ _ _ _ _ _ _ _ hlt hq] at h ⊢
            split_ifs at h ⊢ <;> first | exact h | exact ihOL _ _ _ _ _ _ _ _ _ _ h
          by_cases hnum : isCharNumber (readAt data (base + step)) = true
          · rw [obj_loop_number _ _ _ _ _ _ _ _ _ hlt hnum] at h ⊢
            simp only [] at h ⊢
            split_ifs at h ⊢ <;> first | exact h | exact ihOL _ _ _ _ _ _ _ _ _ _ h
          by_cases ho : readAt data (base + step) = '{'
          · rw [obj_loop_object _ _ _ _ _ _ _ _ _ hlt ho] at h ⊢
            cases hres : _parseObject f data (base + step) (len - step) e new with
            | none => rw [hres] at h; simp at h
            | some t =>
              obtain ⟨r1, e1, o1⟩ := t
              rw [hres] at h
              rw [ihO _ _ _ _ _ _ hres]
              simp only [] at h ⊢
              split_ifs at h ⊢ <;> first | exact h | exact ihOL _ _ _ _ _ _ _ _ _ _ h
          by_cases ha : readAt data (base + step) = '['
          · rw [obj_loop_array _ _ _ _ _ _ _ _ _ hlt ha] at h ⊢
            cases hres : _parseArray f data (base + step) (len - step) e new with
            | none => rw [hres] at h; simp at h
            | some t =>
              obtain ⟨r1, e1, o1⟩ := t
              rw [hres] at h
              rw [ihA _ _ _ _ _ _ hres]
              simp only [] at h ⊢
              split_ifs at h ⊢ <;> first | exact h | exact ihOL _ _ _ _ _ _ _ _ _ _ h
          by_cases hcm : readAt data (base + step) = ','
          · rw [obj_loop_comma _ _ _ _ _ _ _ _ _ hlt hcm] at h ⊢
            exact ihOL _ _ _ _ _ _ _ _ _ _ h
          by_cases hcl : readAt data (base + step) = '}'
          · rw [obj_loop_close _ _ _ _ _ _ _ _ _ hlt hcl] at h ⊢
            exact h
          rw [obj_loop_other _ _ _ _ _ _ _ _ _ hlt hn ht hf hq (by simpa using hnum) ho ha
            hcm hcl] at h ⊢
          exact ihOL _ _ _ _ _ _ _ _ _ _ h
      · rw [obj_loop_done _ _ _ _ _ _ _ _ _ _ hlt] at h ⊢
        exact h
    · intro data base len e obj r h
      by_cases h2 : len < 2
      · rw [_parseArray] at h ⊢
        rw [if_pos h2] at h ⊢
        exact h
      · by_cases hc : readAt data base = '['
        · rw [_parseArray_eq _ _ _ _ _ _ (by omega) hc] at h ⊢
          cases hres : _parseArray_loop f data base len 1 1 0 true
              (obj.setType .JSON_ARRAY) with
          | none => rw [hres] at h; simp at h
          | some t =>
            rw [hres] at h
            rw [ihAL _ _ _ _ _ _ _ _ _ hres]
            exact h
        · rw [_parseArray] at h ⊢
          rw [if_neg h2, if_pos hc] at h ⊢
          exact h
    · intro data base len step errPos e sv obj r h
      by_cases hlt : step < len
      · by_cases hstart : sv = true ∧ (readAt data (base + step) = 'n' ∨
            readAt data (base + step) = 't' ∨ readAt data (base + step) = 'f' ∨
            readAt data (base + step) = '"' ∨ isCharNumber (readAt data (base + step)) = true ∨
            readAt data (base + step) = '{' ∨ readAt data (base + step) = '[')
        · obtain ⟨hsv, hcase⟩ := hstart
          subst hsv
          by_cases hn : readAt data (base + step) = 'n'
          · rw [arr_loop_null _ _ _ _ _ _ _ _ hlt hn] at h ⊢
            split_ifs at h ⊢ <;> first | exact h | exact ihAL _ _ _ _ _ _ _ _ _ h
          by_cases ht : readAt data (base + step) = 't'
          · rw [arr_loop_true _ _ _ _ _ _ _ _ hlt ht] at h ⊢
            split_ifs at h ⊢ <;> first | exact h | exact ihAL _ _ _ _ _ _ _ _ _ h
          by_cases hf : readAt data (base + step) = 'f'
          · rw [arr_loop_false _ _ _ _ _ _ _ _ hlt hf] at h ⊢
            split_ifs at h ⊢ <;> first | exact h | exact ihAL _ _ _ _ _ _ _ _ _ h
          by_cases hq : readAt data (base + step) = '"'
          · rw [arr_loop_quote _ _ _ _ _ _ _ _ hlt hq] at h ⊢
            split_ifs at h ⊢ <;> first | exact h | exact ihAL _ _ _ _ _ _ _ _ _ h
          by_cases hnum : isCharNumber (readAt data (base + step)) = true
          · rw [arr_loop_number _ _ _ _ _ _ _ _ hlt hnum] at h ⊢
            split_ifs at h ⊢ <;> first | exact h | exact ihAL _ _ _ _ _ _ _ _ _ h
          by_cases ho : readAt data (base + step) = '{'
          · rw [arr_loop_object _ _ _ _ _ _ _ _ hlt ho] at h ⊢
            cases hres : _parseObject f data (base + step) (len - step) e new with
            | none => rw [hres] at h; simp at h
            | some t =>
              obtain ⟨r1, e1, o1⟩ := t
              rw [hres] at h
              rw [ihO _ _ _ _ _ _ hres]
              simp only [] at h ⊢
              split_ifs at h ⊢ <;> first | exact h | exact ihAL _ _ _ _ _ _ _ _ _ h
          by_cases ha : readAt data (base + step) = '['
          · rw [arr_loop_array _ _ _ _ _ _ _ _ hlt ha] at h ⊢
            cases hres : _parseArray f data (base + step) (len - step) e new with
            | none => rw [hres] at h; simp at h
            | some t =>
              obtain ⟨r1, e1, o1⟩ := t
              rw [hres] at h
              rw [ihA _ _ _ _ _ _ hres]
              simp only [] at h ⊢
              split_ifs at h ⊢ <;> first | exact h | exact ihAL _ _ _ _ _ _ _ _ _ h
          rcases hcase with h1 | h1 | h1 | h1 | h1 | h1 | h1 <;> contradiction
        · have hv : sv = true → readAt data (base + step) ≠ 'n' ∧
              readAt data (base + step) ≠ 't' ∧ readAt data (base + step) ≠ 'f' ∧
              readAt data (base + step) ≠ '"' ∧
              isCharNumber (readAt data (base + step)) = false ∧
              readAt data (base + step) ≠ '{' ∧ readAt data (base + step) ≠ '[' := by
            intro hsv
            simp only [hsv, true_and, not_or] at hstart
            obtain ⟨a1, a2, a3, a4, a5, a6, a7⟩ := hstart
            exact ⟨a1, a2, a3, a4, by simpa using a5, a6, a7⟩
          rw [arr_loop_tail _ _ _ _ _ _ _ _ _ hlt hv] at h ⊢
          split_ifs at h ⊢ <;> first | exact h | exact ihAL _ _ _ _ _ _ _ _ _ h
      · rw [arr_loop_done _ _ _ _ _ _ _ _ _ hlt] at h ⊢
        exact h

/-- More fuel does not change a result. -/
theorem fuel_add (more : Nat) :
    (∀ fuel data base len e obj r, _parseObject fuel data base len e obj = some r →
      _parseObject (fuel + more) data base len e obj = some r) ∧
    (∀ fuel data base len step errPos e sv key obj r,
      _parseObject_loop fuel data base len step errPos e sv key obj = some r →
      _parseObject_loop (fuel + more) data base len step errPos e sv key obj = some r) ∧
    (∀ fuel data base len e obj r, _parseArray fuel data base len e obj = some r →
      _parseArray (fuel + more) data base len e obj = some r) ∧
    (∀ fuel data base len step errPos e sv obj r,
      _parseArray_loop fuel data base len step errPos e sv obj = some r →
      _parseArray_loop (fuel + more) data base len step errPos e sv obj = some r) := by
  induction more with
  | zero => exact ⟨fun _ _ _ _ _ _ _ h => h, fun _ _ _ _ _ _ _ _ _ _ _ h => h,
      fun _ _ _ _ _ _ _ h => h, fun _ _ _ _ _ _ _ _ _ _ h => h⟩
  | succ m ih =>
    obtain ⟨i1, i2, i3, i4⟩ := ih
    refine ⟨?_, ?_, ?_, ?_⟩
    · intro fuel data base len e obj r h
      exact (fuel_succ (fuel + m)).1 _ _ _ _ _ _ (i1 _ _ _ _ _ _ _ h)
    · intro fuel data base len step errPos e sv key obj r h
      exact (fuel_succ (fuel + m)).2.1 _ _ _ _ _ _ _ _ _ _ (i2 _ _ _ _ _ _ _ _ _ _ _ h)
    · intro fuel data base len e obj r h
      exact (fuel_succ (fuel + m)).2.2.1 _ _ _ _ _ _ (i3 _ _ _ _ _ _ _ h)
    · intro fuel data base len step errPos e sv obj r h
      exact (fuel_succ (fuel + m)).2.2.2 _ _ _ _ _ _ _ _ _ (i4 _ _ _ _ _ _ _ _ _ _ h)

end JsonObject

/-! ## Calls whose argument is the receiver -/

namespace JsonObject

theorem mapSet_mapSet (k : Str) (x y : JsonObject) :
    ∀ m : List (Str × JsonObject), mapSet (mapSet m k x) k y = mapSet m k y := by
  intro m
  induction m with
  | nil => simp [mapSet, strLt_irrefl]
  | cons e rest ih =>
    obtain ⟨k1, x1⟩ := e
    by_cases h1 : strLt k k1 = true
    · simp [mapSet, h1, strLt_irrefl]
    · by_cases h2 : strLt k1 k = true
      · simp only [mapSet, h1, h2, if_true, if_false, Bool.false_eq_true]
        rw [ih]
      · simp only [mapSet, h1, h2, if_false, Bool.false_eq_true]

theorem appendRef_other (v x : JsonObject) : v.appendRef (.other x) = v.append x := rfl

theorem setValueRef_other (inCopy : List (Str × JsonObject)) (v x : JsonObject) (k : Str) :
    v.setValueRef inCopy k (.other x) = v.setValue k x := rfl

/-- The call `v.append(v)` is `append` of the value that the receiver has after `clear()` and
the assignment to `m_type`. -/
theorem appendSelf_eq (v : JsonObject) :
    v.appendSelf
      = v.append { (if v.m_type ≠ .JSON_ARRAY then v.clear else v) with m_type := .JSON_ARRAY } :=
  rfl

/-- The call `v.setValue(key, v)` is `setValue` of some other value. -/
theorem setValueSelf_eq (inCopy : List (Str × JsonObject)) (v : JsonObject) (k : Str) :
    ∃ e, v.setValueSelf inCopy k = v.setValue k e := by
  simp only [setValueSelf, setValue]
  exact ⟨_, by rw [mapSet_mapSet]⟩

/-- Every call `v.append(x)` is `append` of some value. -/
theorem appendRef_eq (v : JsonObject) (arg : Argument) : ∃ e, v.appendRef arg = v.append e := by
  cases arg with
  | other x => exact ⟨x, rfl⟩
  | receiver => exact ⟨_, appendSelf_eq v⟩

/-- Every call `v.setValue(key, x)` is `setValue` of some value. -/
theorem setValueRef_eq (inCopy : List (Str × JsonObject)) (v : JsonObject) (k : Str)
    (arg : Argument) : ∃ e, v.setValueRef inCopy k arg = v.setValue k e := by
  cases arg with
  | other x => exact ⟨x, rfl⟩
  | receiver => exact setValueSelf_eq inCopy v k

/-- The reachable states are closed under `append` with either argument. -/
theorem reachable_appendRef (v : JsonObject) (arg : Argument) (h : Reachable v) :
    Reachable (v.appendRef arg) := by
  obtain ⟨e, he⟩ := appendRef_eq v arg
  rw [he]
  exact Reachable.append v e h

/-- The reachable states are closed under `setValue` with either argument. -/
theorem reachable_setValueRef (inCopy : List (Str × JsonObject)) (v : JsonObject) (k : Str)
    (arg : Argument) (h : Reachable v) : Reachable (v.setValueRef inCopy k arg) := by
  obtain ⟨e, he⟩ := setValueRef_eq inCopy v k arg
  rw [he]
  exact Reachable.setValue v k e h

end JsonObject

/-! ## C1: the round trip through the compact text -/

namespace JsonObject

/-- C1, as the code behaves: for every Array or Object `v` that is admissible (see `admissible`:
built values whose containers are non-empty, whose keys and strings hold no double quote and no
backslash, and where no Null, Bool or Number stands directly before a closing bracket), parsing
`stringify(v, MODE_COMPACT)` returns 0 and rebuilds `v` itself, so that the compact text of the
parsed value is identical to the one of `v`. -/
theorem C1_round_trip_admissible (self v : JsonObject)
    (hroot : v.type = .JSON_ARRAY ∨ v.type = .JSON_OBJECT) (hv : admissible v true = true) :
    ∃ obj, parse self (v.stringify .MODE_COMPACT) = some (0, obj) ∧ obj = v ∧
      obj.stringify .MODE_COMPACT = v.stringify .MODE_COMPACT := by
  refine ⟨v, ?_, rfl, rfl⟩
  obtain ⟨val, arr, t, m, ks⟩ := v
  simp only [type] at hroot
  rcases hroot with rfl | rfl
  · simp only [admissible, Bool.and_eq_true, List.isEmpty_iff, Bool.not_eq_true',
      List.isEmpty_eq_false] at hv
    obtain ⟨rfl, ⟨⟨rfl, rfl⟩, hne⟩, hadm⟩ := hv
    simp only [stringify]
    rw [stringify_array_compact]
    have hd : ('[' :: (_stringify_array arr (0 + 1) .MODE_COMPACT ++ [']'])).drop 0
        = '[' :: (_stringify_array arr (0 + 1) .MODE_COMPACT ++ ']' :: []) := rfl
    have hspec := (structure_specs
      (2 * ('[' :: (_stringify_array arr (0 + 1) .MODE_COMPACT ++ [']'])).length)).2
      _ 0 _ 0 arr [] (0 + 1) rfl (by simpa using hne) hadm hd
      (by simp only [List.length_cons]; omega) (by simp only [Nat.sub_zero]; omega)
    rw [parse_bracket _ _ (by simp only [List.length_cons, List.length_append]; omega)
      (readAt_of_drop hd)]
    simp only [Nat.sub_zero] at hspec
    rw [hspec]
    rfl
  · simp only [admissible, Bool.and_eq_true, List.isEmpty_iff, Bool.not_eq_true',
      List.isEmpty_eq_false] at hv
    obtain ⟨rfl, ⟨⟨⟨rfl, rfl⟩, hne⟩, hadm⟩, hsorted⟩ := hv
    simp only [stringify]
    rw [stringify_object_compact]
    have hd : ('{' :: (_stringify_map m (0 + 1) .MODE_COMPACT ++ ['}'])).drop 0
        = '{' :: (_stringify_map m (0 + 1) .MODE_COMPACT ++ '}' :: []) := rfl
    have hspec := (structure_specs
      (2 * ('{' :: (_stringify_map m (0 + 1) .MODE_COMPACT ++ ['}'])).length)).1
      _ 0 _ 0 m [] (0 + 1) rfl (by simpa using hne) hadm hsorted hd
      (by simp only [List.length_cons]; omega) (by simp only [Nat.sub_zero]; omega)
    rw [parse_brace _ _ (by simp only [List.length_cons, List.length_append]; omega)
      (readAt_of_drop hd)]
    simp only [Nat.sub_zero] at hspec
    rw [hspec]
    rfl

/-- C1 on `roundTripExample`, built with the constructors, `setValue` and `append`. -/
theorem C1_round_trip_admissible_witness :
    (roundTripExample.type = .JSON_ARRAY ∨ roundTripExample.type = .JSON_OBJECT) ∧
    admissible roundTripExample true = true ∧
    ∃ obj, parse new (roundTripExample.stringify .MODE_COMPACT) = some (0, obj) ∧
      obj = roundTripExample ∧
      obj.stringify .MODE_COMPACT = roundTripExample.stringify .MODE_COMPACT :=
  ⟨by decide, by decide,
    C1_round_trip_admissible new roundTripExample (by decide) (by decide)⟩

/-- C1 as stated fails.  The value built by `setValue("a", JsonObject(1))` has the compact text
`{"a":1}`, on which `parse` returns 7.  The empty array has the text `[]`, on which `parse`
returns 2, and `JsonObject(1)` the text `1`, on which it returns 1.  The array holding the
string `a"b` is printed without escaping; `parse` returns 0 on that text but builds the array
holding `a`, whose text differs. -/
theorem C1_counterexample :
    (new.setValue ['a'] (ofInt 1)).stringify .MODE_COMPACT
      = ['{', '"', 'a', '"', ':', '1', '}'] ∧
    (parse new ((new.setValue ['a'] (ofInt 1)).stringify .MODE_COMPACT)).map Prod.fst
      = some 7 ∧
    (parse new ((ofArray []).stringify .MODE_COMPACT)).map Prod.fst = some 2 ∧
    (parse new ((ofInt 1).stringify .MODE_COMPACT)).map Prod.fst = some 1 ∧
    (ofArray [ofString ['a', '"', 'b']]).stringify .MODE_COMPACT
      = ['[', '"', 'a', '"', 'b', '"', ']'] ∧
    (parse new ((ofArray [ofString ['a', '"', 'b']]).stringify .MODE_COMPACT)).map
      (fun r => (r.1, r.2.stringify .MODE_COMPACT)) = some (0, ['[', '"', 'a', '"', ']']) := by
  decide

end JsonObject

/-! ## C2: a string member -/

namespace JsonObject

/-- C2: for every key `k` and string `s` without double quote and backslash, parsing the text
`{"k": "s"}` returns 0; afterwards `type()` is `JSON_OBJECT`, `size()` is 1, `exist(k)` is true
and `value(k).toString()` is `s` verbatim. -/
theorem C2_parse_string_member (self : JsonObject) (k s : Str) (hk : plain k) (hs : plain s) :
    ∃ obj, parse self (textMember k s) = some (0, obj) ∧ obj.type = .JSON_OBJECT ∧
      obj.size = 1 ∧ obj.exist k = true ∧ ∀ d, (obj.value k).toString d = s := by
  refine ⟨_, parse_textMember self k s hk hs, ?_, ?_, ?_, ?_⟩
  · simp [type, setValue, setType]
  · simp [size, setValue, setType, new, mapSet]
  · simp [exist, setValue, setType, new, mapSet, mapFind]
  · intro d
    simp [value, setValue, setType, new, mapSet, mapFind, toString, ofString]

/-- C2 at the input `{"a": "b"}` of the specification. -/
theorem C2_parse_string_member_witness :
    plain ['a'] ∧ plain ['b'] ∧
    ∃ obj, parse new (textMember ['a'] ['b']) = some (0, obj) ∧ obj.type = .JSON_OBJECT ∧
      obj.size = 1 ∧ obj.exist ['a'] = true ∧ ∀ d, (obj.value ['a']).toString d = ['b'] :=
  ⟨by decide, by decide,
    C2_parse_string_member new ['a'] ['b'] (by decide) (by decide)⟩

end JsonObject

/-! ## C3: an array of numbers -/

namespace JsonObject

/-- C3 at the input `[1, 2, 3]` of the specification: `_parseNumber` rejects the last number,
which is ended by `]`; `parse` returns 9, the value holds the first two numbers and its kind is
`JSON_ERROR`.  The lemma `parse_textNumbers` shows the same outcome for every non-empty list of
integers. -/
theorem C3_array_of_numbers_rejected :
    parse new ['[', '1', ',', ' ', '2', ',', ' ', '3', ']']
      = some (9, (ofArray [jsonNum ['1'], jsonNum ['2']]).setType .JSON_ERROR) :=
  rfl

end JsonObject

/-! ## C4: a number directly before the closing brace -/

namespace JsonObject

/-- C4 at the input `{"a":1}`: `_parseNumber` rejects the number, which is ended by the closing
brace; `parse` returns 7, the kind is `JSON_ERROR` and no member is stored.  The lemma
`parse_textNumberMember` shows the same outcome for every key and every integer. -/
theorem C4_number_before_brace_rejected :
    parse new ['{', '"', 'a', '"', ':', '1', '}'] = some (7, new.setType .JSON_ERROR) :=
  rfl

end JsonObject

/-! ## C5: a buffer that does not start a structure -/

namespace JsonObject

/-- C5 at the buffer `ab`: the offending character is at offset 0 and `parse` returns that
offset, which is the value 0 that signals success; the value is cleared to Null.  The lemma
`parse_offending` shows that `parse` returns the offset of the offending character in general,
so the return value is non-zero exactly when a blank comes first. -/
theorem C5_offending_first_character_returns_zero :
    parse (ofString ['x']) ['a', 'b'] = some (0, new) :=
  rfl

end JsonObject

/-! ## C6: the kind after a failed parse -/

namespace JsonObject

/-- C6, as the code behaves.  `parse` always returns.  When the buffer has at least 2
characters and its first character other than space, LF and CR is `{` or `[`, a non-zero
return value comes with the root kind `JSON_ERROR`.  When `parse` fails on its own checks the
kind is not set: a buffer shorter than 2 yields 1 and leaves the value untouched, and a longer
buffer without `{` or `[` as first significant character leaves the value cleared to Null. -/
theorem C6_kind_after_failure (self : JsonObject) (data : Str) :
    ∃ r obj, parse self data = some (r, obj) ∧
      (2 ≤ data.length →
        firstSignificant data = some '{' ∨ firstSignificant data = some '[' →
        r ≠ 0 → obj.type = .JSON_ERROR) ∧
      (data.length < 2 → r = 1 ∧ obj = self) ∧
      (2 ≤ data.length → firstSignificant data ≠ some '{' →
        firstSignificant data ≠ some '[' → obj = new ∧ obj.type = .JSON_NULL) := by
  obtain ⟨⟨r, obj⟩, hp⟩ := Option.isSome_iff_exists.mp (parse_isSome self data)
  refine ⟨r, obj, hp, ?_, ?_, ?_⟩
  · intro h2 hfirst hr
    simp only [parse] at hp
    rw [if_neg (by omega)] at hp
    rcases parse_loop_error data data.length self.clear data.length 0 r obj (by omega) hp hr
      with h | ⟨_, h1, h2⟩
    · exact h
    · simp only [List.drop_zero] at h1 h2
      rcases hfirst with h | h
      · exact absurd h h1
      · exact absurd h h2
  · intro hlt
    simp only [parse] at hp
    rw [if_pos hlt] at hp
    simp only [Option.some.injEq, Prod.mk.injEq] at hp
    exact ⟨hp.1.symm, hp.2.symm⟩
  · intro h2 h1 h3
    simp only [parse] at hp
    rw [if_neg (by omega)] at hp
    obtain ⟨r1, hr1⟩ := parse_loop_no_structure data data.length self.clear data.length 0
      (by omega) (by simpa using h1) (by simpa using h3)
    rw [hr1] at hp
    simp only [Option.some.injEq, Prod.mk.injEq] at hp
    rw [← hp.2]
    exact ⟨rfl, rfl⟩

/-- C6 at the buffer `{"a":1}`, where the failure is reported by `_parseObject`: `parse` returns
7 and the kind is `JSON_ERROR`. -/
theorem C6_kind_after_failure_witness :
    ∃ r obj, parse new ['{', '"', 'a', '"', ':', '1', '}'] = some (r, obj) ∧ r = 7 ∧
      obj.type = .JSON_ERROR := by
  obtain ⟨r, obj, hp, herr, _, _⟩ :=
    C6_kind_after_failure new ['{', '"', 'a', '"', ':', '1', '}']
  have hval : parse new ['{', '"', 'a', '"', ':', '1', '}']
      = some (7, new.setType .JSON_ERROR) := rfl
  rw [hval] at hp
  simp only [Option.some.injEq, Prod.mk.injEq] at hp
  have hr : r = 7 := hp.1.symm
  exact ⟨r, obj, by rw [hval, ← hp.1, ← hp.2], hr,
    herr (by decide) (Or.inl (by decide)) (by omega)⟩

/-- C6 as stated fails: on the empty buffer, on two spaces and on the buffer of a space and `x`,
`parse` returns 1 and the kind of a fresh value is `JSON_NULL` afterwards, not `JSON_ERROR`. -/
theorem C6_counterexample :
    (parse new []).map (fun p => (p.1, p.2.type)) = some (1, .JSON_NULL) ∧
    (parse new [' ', ' ']).map (fun p => (p.1, p.2.type)) = some (1, .JSON_NULL) ∧
    (parse new [' ', 'x']).map (fun p => (p.1, p.2.type)) = some (1, .JSON_NULL) := by
  decide

end JsonObject

/-! ## C7: the offset with leading blanks -/

namespace JsonObject

/-- C7 at the input `{"x": tru}`: with and without one leading space `parse` returns 10, so the
returned offset counts from the opening brace, not from the start of the buffer. -/
theorem C7_offset_ignores_leading_blank :
    (parse new text_x_tru).map Prod.fst = some 10 ∧
    (parse new (' ' :: text_x_tru)).map Prod.fst = some 10 := by
  decide

end JsonObject

/-! ## C8: a truncated structure -/

namespace JsonObject

theorem parse_textTruncated (self : JsonObject) (k s : Str) (hk : plain k) (hs : plain s)
    (hne : s ≠ []) :
    parse self (textTruncated k s)
      = some (0, (new.setType .JSON_OBJECT).setValue k (ofString s)) := by
  have hpos : 0 < s.length := List.length_pos.mpr hne
  have hlen : (textTruncated k s).length = k.length + s.length + 7 := by
    simp [textTruncated]; omega
  have h0 : (textTruncated k s).drop 0
      = '{' :: '"' :: (k ++ '"' :: ':' :: ' ' :: '"' :: (s ++ ['"'])) := rfl
  have h1 := drop_succ_of_drop h0
  have h2 := drop_succ_of_drop h1
  have h3 := drop_add_of_drop k h2
  have h4 := drop_succ_of_drop h3
  have h5 := drop_succ_of_drop h4
  have h6 := drop_succ_of_drop h5
  obtain ⟨f, hf⟩ : ∃ f, 2 * (textTruncated k s).length = f + 1 + 1 + 2 + 1 :=
    ⟨2 * (textTruncated k s).length - 5, by rw [hlen]; omega⟩
  rw [parse_brace _ _ (by omega) (readAt_of_drop h0), hf,
    _parseObject_eq _ _ _ _ _ _ (by omega) (readAt_of_drop h0)]
  rw [obj_loop_key_colon _ _ _ _ _ _ _ _ k _ _ (by omega) hk
    (by rw [readPrev_succ, readAt_of_drop h0]; decide) h1]
  rw [obj_loop_space _ _ _ _ _ _ _ _ _ (by omega)
    (Or.inl (by
      rw [show 0 + (1 + k.length + 3) = 0 + 1 + 1 + k.length + 1 + 1 by omega]
      exact readAt_of_drop h5))]
  have hidx : 0 + (1 + k.length + 3 + 1) = (0 + 1 + 1 + k.length + 1 + 1) + 1 := by omega
  rw [obj_loop_string _ _ _ _ _ _ _ _ s [] _ (by omega) hs
    (by rw [hidx, readPrev_succ, readAt_of_drop h5]; decide)
    (by rw [hidx]; exact h6) (by simp; omega)]
  rw [obj_loop_done _ _ _ _ _ _ _ _ _ _ (by omega)]
  rfl

theorem parse_textTruncatedArray (self : JsonObject) (s : Str) (hs : plain s) (hne : s ≠ []) :
    parse self (textTruncatedArray s) = some (0, ofArray [ofString s]) := by
  have hpos : 0 < s.length := List.length_pos.mpr hne
  have hlen : (textTruncatedArray s).length = s.length + 3 := by
    simp [textTruncatedArray]
  have h0 : (textTruncatedArray s).drop 0 = '[' :: '"' :: (s ++ ['"']) := rfl
  have h1 := drop_succ_of_drop h0
  have h2 := drop_succ_of_drop h1
  obtain ⟨f, hf⟩ : ∃ f, 2 * (textTruncatedArray s).length = f + 1 + 1 :=
    ⟨2 * (textTruncatedArray s).length - 2, by rw [hlen]; omega⟩
  have ht : _parseText (textTruncatedArray s) (0 + 1) ((textTruncatedArray s).length - 1) 0
      = (0, s.length + 1) :=
    _parseText_quoted _ _ _ _ s [] (by rw [readPrev_succ, readAt_of_drop h0]; decide) hs h1
      (by omega) (by omega)
  rw [parse_bracket _ _ (by omega) (readAt_of_drop h0), hf,
    _parseArray_eq _ _ _ _ _ _ (by omega) (readAt_of_drop h0),
    arr_loop_quote _ _ _ _ _ _ _ _ (by omega) (readAt_of_drop h1), ht]
  simp only [gt_iff_lt, Nat.lt_irrefl, if_false, Nat.add_one_ne_zero, Nat.add_sub_cancel]
  rw [substr_of_drop s h2, arr_loop_done _ _ _ _ _ _ _ _ _ (by omega)]
  rfl

/-- C8, as the code behaves: the end of the buffer closes a structure like the closing bracket
does.  For every key `k` and every non-empty string `s` without double quote and backslash,
parsing `{"k": "s"` with the closing brace missing returns 0 and leaves the same value as parsing
the complete text `{"k": "s"}`: an Object of size 1 whose member `k` is the String `s`.
Likewise parsing `["s"` with the closing bracket missing returns 0 and leaves the Array of size
1 whose element is the String `s`. -/
theorem C8_truncated_structure_accepted (self : JsonObject) (k s : Str) (hk : plain k)
    (hs : plain s) (hne : s ≠ []) :
    (∃ obj, parse self (textTruncated k s) = some (0, obj) ∧
      parse self (textMember k s) = some (0, obj) ∧ obj.type = .JSON_OBJECT ∧
      obj.size = 1 ∧ ∀ d, (obj.value k).toString d = s) ∧
    (∃ arr, parse self (textTruncatedArray s) = some (0, arr) ∧ arr.type = .JSON_ARRAY ∧
      arr.size = 1 ∧ ∀ d, (arr.«at» 0).toString d = s) := by
  refine ⟨⟨_, parse_textTruncated self k s hk hs hne, parse_textMember self k s hk hs,
    ?_, ?_, ?_⟩, ⟨_, parse_textTruncatedArray self s hs hne, ?_, ?_, ?_⟩⟩
  · simp [type, setValue, setType]
  · simp [size, setValue, setType, new, mapSet]
  · intro d
    simp [value, setValue, setType, new, mapSet, mapFind, toString, ofString]
  · rfl
  · rfl
  · intro d
    rfl

/-- C8 at the 9-byte buffer `{"a": "b"` and at the buffer `["b"`. -/
theorem C8_truncated_structure_accepted_witness :
    plain ['a'] ∧ plain ['b'] ∧ ['b'] ≠ [] ∧
    (∃ obj, parse new (textTruncated ['a'] ['b']) = some (0, obj) ∧
      parse new (textMember ['a'] ['b']) = some (0, obj) ∧ obj.type = .JSON_OBJECT ∧
      obj.size = 1 ∧ ∀ d, (obj.value ['a']).toString d = ['b']) ∧
    (∃ arr, parse new (textTruncatedArray ['b']) = some (0, arr) ∧ arr.type = .JSON_ARRAY ∧
      arr.size = 1 ∧ ∀ d, (arr.«at» 0).toString d = ['b']) :=
  ⟨by decide, by decide, by decide,
    C8_truncated_structure_accepted new ['a'] ['b'] (by decide) (by decide) (by decide)⟩

/-- C8 as stated fails: the 9-byte buffer `{"a": "b"` starts with `{`, contains no `}`, and
`parse` returns 0; likewise `["a"` starts with `[`, contains no `]`, and `parse` returns 0. -/
theorem C8_counterexample :
    textTruncated ['a'] ['b'] = ['{', '"', 'a', '"', ':', ' ', '"', 'b', '"'] ∧
    '}' ∉ ['{', '"', 'a', '"', ':', ' ', '"', 'b', '"'] ∧
    (parse new ['{', '"', 'a', '"', ':', ' ', '"', 'b', '"']).map Prod.fst = some 0 ∧
    ']' ∉ ['[', '"', 'a', '"'] ∧
    (parse new ['[', '"', 'a', '"']).map Prod.fst = some 0 := by
  decide

end JsonObject

/-! ## C9: a trailing comma -/

namespace JsonObject

theorem parse_textTrailingComma (self : JsonObject) (k : Str) (n : Int) (hk : plain k) :
    parse self (textTrailingComma k n)
      = some (0, (new.setType .JSON_OBJECT).mapAssign k (jsonNum (to_string n))) := by
  have hlen : (textTrailingComma k n).length = k.length + (to_string n).length + 6 := by
    simp [textTrailingComma]; omega
  have hpos : 0 < (to_string n).length := List.length_pos.mpr (to_string_ne_nil n)
  have h0 : (textTrailingComma k n).drop 0
      = '{' :: '"' :: (k ++ '"' :: ':' :: (to_string n ++ [',', '}'])) := rfl
  have h1 := drop_succ_of_drop h0
  have h2 := drop_succ_of_drop h1
  have h3 := drop_add_of_drop k h2
  have h4 := drop_succ_of_drop h3
  have h5 := drop_succ_of_drop h4
  have h6 := drop_add_of_drop (to_string n) h5
  have h7 := drop_succ_of_drop h6
  obtain ⟨f, hf⟩ : ∃ f, 2 * (textTrailingComma k n).length = f + 6 :=
    ⟨2 * (textTrailingComma k n).length - 6, by rw [hlen]; omega⟩
  rw [parse_brace _ _ (by omega) (readAt_of_drop h0), hf,
    _parseObject_eq _ _ _ _ _ _ (by omega) (readAt_of_drop h0)]
  -- the key
  have hkey : _parseText (textTrailingComma k n) (0 + 1) ((textTrailingComma k n).length - 1) 0
      = (0, k.length + 1) :=
    _parseText_quoted _ _ _ _ k _ (by simp [readPrev, readAt_of_drop h0]) hk h1
      (by omega) (by omega)
  rw [obj_loop_key _ _ _ _ _ _ _ _ _ _ (by omega) (readAt_of_drop h1) hkey (by omega)]
  have hsub : substr (textTrailingComma k n) (0 + 1 + 1) (k.length + 1 - 1) = k := by
    simpa using substr_of_drop k h2
  rw [hsub]
  -- the colon
  rw [obj_loop_colon _ _ _ _ _ _ _ _ _ (by omega)
    (by rw [show 0 + (1 + (k.length + 1) + 1) = 0 + 1 + 1 + k.length + 1 by omega]
        exact readAt_of_drop h4)]
  -- the number, ended by the comma
  have hidx : 0 + (1 + (k.length + 1) + 1 + 1) = 0 + 1 + 1 + k.length + 1 + 1 := by omega
  obtain ⟨c, ds, hcd⟩ : ∃ c ds, to_string n = c :: ds := by
    cases hts : to_string n with
    | nil => exact absurd hts (to_string_ne_nil n)
    | cons c ds => exact ⟨c, ds, rfl⟩
  have hfirst : isCharNumber (readAt (textTrailingComma k n) (0 + (1 + (k.length + 1) + 1 + 1)))
      = true := by
    rw [hidx]
    have h5c := h5
    rw [hcd] at h5c
    rw [readAt_of_drop h5c]
    exact to_string_numbers n c (by rw [hcd]; exact List.mem_cons_self _ _)
  have hnum : _parseNumber (textTrailingComma k n) (0 + (1 + (k.length + 1) + 1 + 1))
      ((textTrailingComma k n).length - (1 + (k.length + 1) + 1 + 1)) (k.length + 1)
      = (0, (to_string n).length) := by
    rw [hidx, _parseNumber_token _ _ _ _ (to_string n) ',' ['}'] (to_string_numbers n)
      (by decide) h5 (by omega) (by omega)]
    simp
  rw [obj_loop_number_ok _ _ _ _ _ _ _ _ _ _ (by omega) hfirst hnum (by omega)]
  have hsub2 : substr (textTrailingComma k n) (0 + (1 + (k.length + 1) + 1 + 1))
      (to_string n).length = to_string n := by
    rw [hidx]
    exact substr_of_drop (to_string n) h5
  rw [hsub2]
  -- the comma, then the brace in the key state, then the end of the buffer
  rw [obj_loop_comma _ _ _ _ _ _ _ _ _ (by omega)
    (by rw [show 0 + (1 + (k.length + 1) + 1 + 1 + ((to_string n).length - 1) + 1)
          = 0 + 1 + 1 + k.length + 1 + 1 + (to_string n).length by omega]
        exact readAt_of_drop h6)]
  have hbr : readAt (textTrailingComma k n)
      (0 + (1 + (k.length + 1) + 1 + 1 + ((to_string n).length - 1) + 1 + 1)) = '}' := by
    rw [show 0 + (1 + (k.length + 1) + 1 + 1 + ((to_string n).length - 1) + 1 + 1)
          = 0 + 1 + 1 + k.length + 1 + 1 + (to_string n).length + 1 by omega]
    exact readAt_of_drop h7
  rw [obj_loop_key_skip _ _ _ _ _ _ _ _ _ (by omega) (by rw [hbr]; decide)
    (by rw [hbr]; decide)]
  rw [obj_loop_done _ _ _ _ _ _ _ _ _ _ (by omega)]
  rfl

/-- C9, as the code behaves: a trailing comma before the closing brace is accepted.  For every
key `k` without double quote and backslash and every integer `n`, parsing `{"k":n,}` returns 0
and leaves an Object of size 1 whose member `k` is the Number with the decimal text of `n`. -/
theorem C9_trailing_comma_accepted (self : JsonObject) (k : Str) (n : Int) (hk : plain k) :
    ∃ obj, parse self (textTrailingComma k n) = some (0, obj) ∧ obj.type = .JSON_OBJECT ∧
      obj.size = 1 ∧ (obj.value k).type = .JSON_NUMBER ∧ (obj.value k).m_value = to_string n := by
  refine ⟨_, parse_textTrailingComma self k n hk, ?_, ?_, ?_, ?_⟩
  · simp [type, mapAssign, setType]
  · simp [size, mapAssign, setType, new, mapSet]
  · simp [value, mapAssign, setType, new, mapSet, mapFind, type, jsonNum]
  · simp [value, mapAssign, setType, new, mapSet, mapFind, jsonNum, ofString]

/-- C9 at the input `{"a":1,}` of the specification. -/
theorem C9_trailing_comma_accepted_witness :
    plain ['a'] ∧
    ∃ obj, parse new (textTrailingComma ['a'] 1) = some (0, obj) ∧ obj.type = .JSON_OBJECT ∧
      obj.size = 1 ∧ (obj.value ['a']).type = .JSON_NUMBER ∧
      (obj.value ['a']).m_value = to_string 1 :=
  ⟨by decide, C9_trailing_comma_accepted new ['a'] 1 (by decide)⟩

/-- C9 as stated fails: parsing `{"a":1,}` returns 0, not the offset 7 of the closing brace. -/
theorem C9_counterexample :
    textTrailingComma ['a'] 1 = ['{', '"', 'a', '"', ':', '1', ',', '}'] ∧
    (parse new ['{', '"', 'a', '"', ':', '1', ',', '}']).map Prod.fst = some 0 := by
  decide

end JsonObject

/-! ## C10: a malformed literal -/

namespace JsonObject

end JsonObject

/-! ## C11: a buffer shorter than 2 -/

namespace JsonObject

/-- C11: for every buffer of length 0 or 1, `parse` returns 1 and the value it was called on is
left exactly as it was. -/
theorem C11_short_buffer (self : JsonObject) (data : Str) (h : data.length < 2) :
    parse self data = some (1, self) := by
  simp only [parse]
  rw [if_pos h]

/-- C11 on the empty buffer and on the buffer `x`, for the value `roundTripExample`. -/
theorem C11_short_buffer_witness :
    ([] : Str).length < 2 ∧ parse roundTripExample [] = some (1, roundTripExample) ∧
    ['x'].length < 2 ∧ parse roundTripExample ['x'] = some (1, roundTripExample) :=
  ⟨by decide, C11_short_buffer roundTripExample [] (by decide), by decide,
    C11_short_buffer roundTripExample ['x'] (by decide)⟩

end JsonObject

/-! ## C12: parse replaces prior content -/

namespace JsonObject

/-- C12: for every buffer of length at least 2 and every two starting values `v1` and `v2`, of
any kind and content, `parse` returns, with the same code on both, and leaves both values
equal: the result depends only on the buffer. -/
theorem C12_parse_replaces_content (v1 v2 : JsonObject) (data : Str) (h : 2 ≤ data.length) :
    ∃ r obj, parse v1 data = some (r, obj) ∧ parse v2 data = some (r, obj) := by
  obtain ⟨⟨r, obj⟩, hp⟩ := Option.isSome_iff_exists.mp (parse_isSome v1 data)
  refine ⟨r, obj, hp, ?_⟩
  have hc : v2.clear = v1.clear := rfl
  rw [← hp]
  simp only [parse]
  rw [if_neg (by omega), if_neg (by omega), hc]

/-- C12 on the text `{"a": "b"}`, for a fresh value and for a populated Object whose key cache
is filled: both become the Object with the member `a`. -/
theorem C12_parse_replaces_content_witness :
    2 ≤ (textMember ['a'] ['b']).length ∧
    ∃ r obj, parse new (textMember ['a'] ['b']) = some (r, obj) ∧
      parse roundTripExample.keys.2 (textMember ['a'] ['b']) = some (r, obj) :=
  ⟨by decide,
    C12_parse_replaces_content new roundTripExample.keys.2 (textMember ['a'] ['b'])
      (by decide)⟩

end JsonObject

/-! ## C13: destructive coercion -/

namespace JsonObject

end JsonObject

/-! ## C14: setValue on an Object -/

namespace JsonObject

end JsonObject

/-! ## C15: the key order -/

namespace JsonObject

/-- C15: for every list of entries with distinct keys and every second list whose keys are a
reordering of them, inserting the entries with `setValue` into a fresh value (no `keys()` call
in between) makes `keys()` return the same list in both cases: the keys in strictly ascending
byte-wise lexicographic order, hence without duplicates, each inserted key once. -/
theorem C15_key_order (l1 l2 : List (Str × JsonObject)) (hd : (l1.map Prod.fst).Nodup)
    (hp : (l1.map Prod.fst).Perm (l2.map Prod.fst)) :
    (insertAll l1 new).keys.1 = (insertAll l2 new).keys.1 ∧
    List.Pairwise (fun a b => strLt a b = true) (insertAll l1 new).keys.1 ∧
    (insertAll l1 new).keys.1.Nodup ∧
    (insertAll l1 new).keys.1.Perm (l1.map Prod.fst) := by
  have hs1 := pairwise_of_sortedKeys _ (sortedKeys_foldl l1 [] rfl)
  have hs2 := pairwise_of_sortedKeys _ (sortedKeys_foldl l2 [] rfl)
  have hm1 : ∀ k, k ∈ (l1.foldl (fun m e => mapSet m e.1 e.2) []).map Prod.fst ↔
      k ∈ l1.map Prod.fst := by
    intro k
    rw [mem_keys_foldl]
    simp only [List.map_nil, List.not_mem_nil, false_or]
  have hm2 : ∀ k, k ∈ (l2.foldl (fun m e => mapSet m e.1 e.2) []).map Prod.fst ↔
      k ∈ l2.map Prod.fst := by
    intro k
    rw [mem_keys_foldl]
    simp only [List.map_nil, List.not_mem_nil, false_or]
  rw [keys_insertAll_new, keys_insertAll_new]
  refine ⟨?_, hs1, nodup_of_pairwise_strLt _ hs1, ?_⟩
  · exact sorted_keys_unique _ _ hs1 hs2 (fun k => by rw [hm1, hm2]; exact hp.mem_iff)
  · exact (List.perm_ext_iff_of_nodup (nodup_of_pairwise_strLt _ hs1) hd).mpr hm1

/-- C15 on the keys `b`, `a`, `c` inserted in this order and in the order `c`, `b`, `a`:
`keys()` returns `a`, `b`, `c` both times. -/
theorem C15_key_order_witness :
    ([(['b'], ofInt 1), (['a'], ofInt 2), (['c'], ofInt 3)].map Prod.fst).Nodup ∧
    (insertAll [(['b'], ofInt 1), (['a'], ofInt 2), (['c'], ofInt 3)] new).keys.1
      = [['a'], ['b'], ['c']] ∧
    (insertAll [(['c'], ofInt 1), (['b'], ofInt 2), (['a'], ofInt 3)] new).keys.1
      = [['a'], ['b'], ['c']] ∧
    (insertAll [(['b'], ofInt 1), (['a'], ofInt 2), (['c'], ofInt 3)] new).keys.1
      = (insertAll [(['c'], ofInt 1), (['b'], ofInt 2), (['a'], ofInt 3)] new).keys.1 :=
  ⟨by decide, by decide, by decide,
    (C15_key_order [(['b'], ofInt 1), (['a'], ofInt 2), (['c'], ofInt 3)]
      [(['c'], ofInt 1), (['b'], ofInt 2), (['a'], ofInt 3)] (by decide) (by decide)).1⟩

end JsonObject

/-! ## C16: the key cache -/

namespace JsonObject

/-- C16 at the calls `setValue("a", 1)`, `keys()`, `setValue("b", 2)`, `keys()` on a fresh
value: the first `keys()` returns `a`; the second finds the cache of length 1 stale and appends
both keys of the map to it without clearing it, so it returns `a`, `a`, `b`, a list of length 3
with `a` twice, while `size()` is 2 and the map holds the keys `a`, `b`. -/
theorem C16_keys_appends_to_stale_cache :
    (new.setValue ['a'] (ofInt 1)).keys.1 = [['a']] ∧
    ((new.setValue ['a'] (ofInt 1)).keys.2.setValue ['b'] (ofInt 2)).keys.1
      = [['a'], ['a'], ['b']] ∧
    ((new.setValue ['a'] (ofInt 1)).keys.2.setValue ['b'] (ofInt 2)).keys.2.size = 2 ∧
    (((new.setValue ['a'] (ofInt 1)).keys.2.setValue ['b'] (ofInt 2)).keys.2.toMap).map Prod.fst
      = [['a'], ['b']] := by
  decide

end JsonObject

/-! ## C17: the default on a kind mismatch -/

namespace JsonObject

/-- C17: for every value `v` and every default `d`, `toString(d)` is the stored text when the
kind is String and `d` otherwise; `toBool(d)` is whether the stored text is `true` when the kind
is Bool and `d` otherwise; `toNumber(d)` returns `d` (and does not call the conversion) when the
kind is not Number; `toArray()` is the list of elements when the kind is Array and the empty
list otherwise.  In particular `JsonObject(42).toString("fallback")` is `fallback` and
`JsonObject("x").toNumber(d)` is `d`. -/
theorem C17_default_on_mismatch (v : JsonObject) :
    (∀ d, (v.type = .JSON_STRING → v.toString d = v.m_value) ∧
      (v.type ≠ .JSON_STRING → v.toString d = d)) ∧
    (∀ d, (v.type = .JSON_BOOL → v.toBool d = (v.m_value == ['t', 'r', 'u', 'e'])) ∧
      (v.type ≠ .JSON_BOOL → v.toBool d = d)) ∧
    (∀ (D : Type) (stod : Str → Option D) (d : D),
      v.type ≠ .JSON_NUMBER → toNumber stod v d = some d) ∧
    ((v.type = .JSON_ARRAY → v.toArray = v.m_array) ∧ (v.type ≠ .JSON_ARRAY → v.toArray = [])) ∧
    (ofInt 42).toString ['f', 'a', 'l', 'l', 'b', 'a', 'c', 'k']
      = ['f', 'a', 'l', 'l', 'b', 'a', 'c', 'k'] ∧
    (∀ (D : Type) (stod : Str → Option D) (d : D), toNumber stod (ofString ['x']) d = some d) := by
  refine ⟨fun d => ⟨?_, ?_⟩, fun d => ⟨?_, ?_⟩, ?_, ⟨?_, ?_⟩, rfl, fun D stod d => rfl⟩
  · intro h
    simp only [type] at h
    simp [toString, h]
  · intro h
    simp only [type] at h
    simp [toString, h]
  · intro h
    simp only [type] at h
    simp [toBool, h]
  · intro h
    simp only [type] at h
    simp [toBool, h]
  · intro D stod d h
    simp only [type] at h
    simp [toNumber, h]
  · intro h
    simp only [type] at h
    simp [toArray, h]
  · intro h
    simp only [type] at h
    simp [toArray, h]

/-- C17 on the Number 42 (kind mismatch for `toString`, `toBool`, `toArray`), on the String `x`
(match for `toString`, mismatch for `toNumber` with the default -1 and a conversion that always
throws) and on the Bool `true` and an Array (match). -/
theorem C17_default_on_mismatch_witness :
    (ofInt 42).type ≠ .JSON_STRING ∧ (ofInt 42).toString ['d'] = ['d'] ∧
    (ofString ['x']).type = .JSON_STRING ∧ (ofString ['x']).toString ['d'] = ['x'] ∧
    (ofInt 42).type ≠ .JSON_BOOL ∧ (ofInt 42).toBool true = true ∧
    (ofBool true).type = .JSON_BOOL ∧ (ofBool true).toBool false = true ∧
    (ofString ['x']).type ≠ .JSON_NUMBER ∧
    toNumber (fun _ => (none : Option Int)) (ofString ['x']) (-1) = some (-1) ∧
    (ofInt 42).type ≠ .JSON_ARRAY ∧ (ofInt 42).toArray = [] ∧
    (ofArray [new, ofInt 1]).type = .JSON_ARRAY ∧ (ofArray [new, ofInt 1]).toArray = [new, ofInt 1] :=
  ⟨by decide, ((C17_default_on_mismatch (ofInt 42)).1 ['d']).2 (by decide),
    by decide, ((C17_default_on_mismatch (ofString ['x'])).1 ['d']).1 (by decide),
    by decide, ((C17_default_on_mismatch (ofInt 42)).2.1 true).2 (by decide),
    by decide, ((C17_default_on_mismatch (ofBool true)).2.1 false).1 (by decide),
    by decide,
    (C17_default_on_mismatch (ofString ['x'])).2.2.1 Int (fun _ => none) (-1) (by decide),
    by decide, (C17_default_on_mismatch (ofInt 42)).2.2.2.1.2 (by decide),
    by decide, (C17_default_on_mismatch (ofArray [new, ofInt 1])).2.2.2.1.1 (by decide)⟩

end JsonObject

/-! ## C18: the number token `-` -/

namespace JsonObject

/-- C18 at the 8-byte buffer made of `{"a":-`, a space and the closing brace: `parse` returns 0
and the kind of the value is Object; `value("a")` is a Number whose stored text is the single
character `-`, and `toNumber(d)` on it is the outcome of the conversion `std::stod` on the text
`-`, for every conversion and every default `d`: when the conversion throws, `toNumber`
throws. -/
theorem C18_minus_token_reaches_conversion :
    ∃ obj, parse new text_minus = some (0, obj) ∧ obj.type = .JSON_OBJECT ∧
      (obj.value ['a']).type = .JSON_NUMBER ∧ (obj.value ['a']).m_value = ['-'] ∧
      (∀ (D : Type) (stod : Str → Option D) (d : D),
        toNumber stod (obj.value ['a']) d = stod ['-']) ∧
      (∀ (D : Type) (stod : Str → Option D) (d : D),
        stod ['-'] = none → toNumber stod (obj.value ['a']) d = none) :=
  ⟨mkObject [(['a'], jsonNum ['-'])], rfl, rfl, rfl, rfl, fun _ _ _ => rfl, fun _ _ _ h => h⟩

end JsonObject

/-! ## C19: at(index) after a failed parse -/

namespace JsonObject

/-- C19 at the input `["a",1]` of the specification: `parse` returns 7 and leaves a value of
kind `JSON_ERROR` that still holds the element parsed before the error; `size()` is 0, and
`at(0)` returns that element, the String `a`, not the Null value.  The same happens after the
failed parse of `["a",tru]`. -/
theorem C19_at_ignores_kind :
    (∃ obj, parse new text_a_1 = some (7, obj) ∧ obj.type = .JSON_ERROR ∧ obj.size = 0 ∧
      obj.«at» 0 = ofString ['a'] ∧ (obj.«at» 0).type = .JSON_STRING) ∧
    (∃ r obj, parse new ['[', '"', 'a', '"', ',', 't', 'r', 'u', ']'] = some (r, obj) ∧ r ≠ 0 ∧
      obj.type = .JSON_ERROR ∧ obj.«at» 0 = ofString ['a']) :=
  ⟨⟨(ofArray [ofString ['a']]).setType .JSON_ERROR, rfl, rfl, rfl, rfl, rfl⟩,
    ⟨_, (ofArray [ofString ['a']]).setType .JSON_ERROR, rfl, by decide, rfl, rfl⟩⟩

end JsonObject

/-! ## C20: the rendering -/

namespace JsonObject

/-- C20: for every tree `v` and every mode, `stringify(mode)` is the reference rendering
`R(v, 0)` for the step of the mode (0, 2 or 4): items joined with the separator between
consecutive items, none after the last.  (On a tree with an Error node both sides render the
node as the empty text, so the equality needs no hypothesis.)  An empty array and an empty
object render as `[]` and `{}` in the compact mode and as the bracket, two newlines and the
closing bracket in the other two modes. -/
theorem C20_stringify_reference (v : JsonObject) (mode : StringifyMode) :
    v.stringify mode = reference v 0 mode.spaces ∧
    (mode.spaces = 0 ∨ mode.spaces = 2 ∨ mode.spaces = 4) ∧
    (ofArray []).stringify .MODE_COMPACT = ['[', ']'] ∧
    (mkObject []).stringify .MODE_COMPACT = ['{', '}'] ∧
    (ofArray []).stringify .MODE_2_SPACES = ['[', '\n', '\n', ']'] ∧
    (mkObject []).stringify .MODE_2_SPACES = ['{', '\n', '\n', '}'] ∧
    (ofArray []).stringify .MODE_4_SPACES = ['[', '\n', '\n', ']'] ∧
    (mkObject []).stringify .MODE_4_SPACES = ['{', '\n', '\n', '}'] :=
  ⟨_stringify_reference mode v 0, by cases mode <;> decide, rfl, rfl, rfl, rfl, rfl, rfl⟩

end JsonObject

/-! ## C21: kind and payload -/

namespace JsonObject

/-- C21, amended: in every state reachable from a constructor by `setValue`, `append`, `remove`,
`clear` and `parse` calls (successful or failed), the key map is non-empty only if the kind is
Object or Error, the element list is non-empty only if the kind is Array or Error, the scalar
text is non-empty only if the kind is Bool, Number or String, and the key map and the element
list are never both non-empty; in every reachable state whose kind is not Error, kind and
payload are consistent as claimed. -/
theorem C21_kind_payload_reachable (v : JsonObject) (h : Reachable v) :
    (v.m_map ≠ [] → v.type = .JSON_OBJECT ∨ v.type = .JSON_ERROR) ∧
    (v.m_array ≠ [] → v.type = .JSON_ARRAY ∨ v.type = .JSON_ERROR) ∧
    (v.m_value ≠ [] →
      v.type = .JSON_BOOL ∨ v.type = .JSON_NUMBER ∨ v.type = .JSON_STRING) ∧
    (v.m_map = [] ∨ v.m_array = []) ∧
    (v.type ≠ .JSON_ERROR → consistent v) := by
  rcases reachable_invariant v h with hc | he
  · obtain ⟨h1, h2, h3⟩ := hc
    refine ⟨fun hne => Or.inl (h1 hne), fun hne => Or.inl (h2 hne), h3, ?_, fun _ => ⟨h1, h2, h3⟩⟩
    by_cases hm : v.m_map = []
    · exact Or.inl hm
    · right
      by_contra ha
      have := h1 hm
      rw [h2 ha] at this
      exact absurd this (by decide)
  · obtain ⟨ht, hv, hor⟩ := he
    refine ⟨fun _ => Or.inr ht, fun _ => Or.inr ht, fun hne => absurd hv hne, hor,
      fun hne => absurd ht hne⟩

/-- C21 on the root left by the failed parse of `{"a":"b","c":tru}` (kind Error, the member `a`
stored) and on the root left by the parse of `{"a": "b"}` (kind Object). -/
theorem C21_kind_payload_reachable_witness :
    Reachable ((mkObject [(['a'], ofString ['b'])]).setType .JSON_ERROR) ∧
    ((mkObject [(['a'], ofString ['b'])]).setType .JSON_ERROR).m_array = [] ∧
    Reachable (mkObject [(['a'], ofString ['b'])]) ∧
    consistent (mkObject [(['a'], ofString ['b'])]) := by
  have r1 : Reachable ((mkObject [(['a'], ofString ['b'])]).setType .JSON_ERROR) :=
    Reachable.parse new text_a_b_c_tru 17 _ Reachable.new rfl
  have r2 : Reachable (mkObject [(['a'], ofString ['b'])]) :=
    Reachable.parse new (textMember ['a'] ['b']) 0 _ Reachable.new rfl
  refine ⟨r1, ?_, r2, (C21_kind_payload_reachable _ r2).2.2.2.2 (by decide)⟩
  rcases (C21_kind_payload_reachable _ r1).2.2.2.1 with h | h
  · exact absurd h (by simp [mkObject, setType])
  · exact h

/-- C21 as stated fails at the input of the claim: after the parse of `{"a":"b","c":1}`, which
returns 15, and after the parse of `{"a":"b","c":tru}`, which returns 17, the root is
reachable, its kind is Error and its key map holds the member `a`, so kind and payload are not
consistent. -/
theorem C21_counterexample :
    parse new text_a_b_c_1 = some (15, (mkObject [(['a'], ofString ['b'])]).setType .JSON_ERROR) ∧
    parse new text_a_b_c_tru
      = some (17, (mkObject [(['a'], ofString ['b'])]).setType .JSON_ERROR) ∧
    Reachable ((mkObject [(['a'], ofString ['b'])]).setType .JSON_ERROR) ∧
    ((mkObject [(['a'], ofString ['b'])]).setType .JSON_ERROR).type = .JSON_ERROR ∧
    ((mkObject [(['a'], ofString ['b'])]).setType .JSON_ERROR).m_map ≠ [] ∧
    ¬ consistent ((mkObject [(['a'], ofString ['b'])]).setType .JSON_ERROR) := by
  refine ⟨rfl, rfl, Reachable.parse new text_a_b_c_1 15 _ Reachable.new rfl, rfl,
    by simp [mkObject, setType], ?_⟩
  intro hc
  exact absurd (hc.1 (by simp [mkObject, setType])) (by decide)

end JsonObject

/-! ## C22: parse is total -/

namespace JsonObject

/-- C22: for every value and every buffer `parse` returns.  The loops of `_parseObject` and
`_parseArray`, entered at `step` with `2 * (len - step)` units of fuel, and the two sub-parsers,
called on `len` bytes with `2 * len - 1` units (at least 1), return a result, and the
result is the same with any larger amount of fuel: each iteration moves `step` forward and each
recursive call is made on a shorter rest of the buffer, so the bound is never used up. -/
theorem C22_parse_total (self : JsonObject) (data : Str) :
    (∃ r obj, parse self data = some (r, obj)) ∧
    (∀ (base len e fuel : Nat) (obj : JsonObject), 1 ≤ fuel → 2 * len ≤ fuel + 1 →
      ∃ r, ∀ more, _parseObject (fuel + more) data base len e obj = some r) ∧
    (∀ (base len e fuel : Nat) (obj : JsonObject), 1 ≤ fuel → 2 * len ≤ fuel + 1 →
      ∃ r, ∀ more, _parseArray (fuel + more) data base len e obj = some r) ∧
    (∀ (base len step errPos e fuel : Nat) (sv : Bool) (key : Str) (obj : JsonObject),
      2 * (len - step) ≤ fuel →
      ∃ r, ∀ more,
        _parseObject_loop (fuel + more) data base len step errPos e sv key obj = some r) ∧
    (∀ (base len step errPos e fuel : Nat) (sv : Bool) (obj : JsonObject),
      2 * (len - step) ≤ fuel →
      ∃ r, ∀ more, _parseArray_loop (fuel + more) data base len step errPos e sv obj = some r) := by
  refine ⟨?_, ?_, ?_, ?_, ?_⟩
  · obtain ⟨⟨r, obj⟩, hp⟩ := Option.isSome_iff_exists.mp (parse_isSome self data)
    exact ⟨r, obj, hp⟩
  · intro base len e fuel obj h1 h2
    obtain ⟨r, hr⟩ := Option.isSome_iff_exists.mp
      ((fuel_suffices fuel).1 data base len e obj h1 h2)
    exact ⟨r, fun more => (fuel_add more).1 _ _ _ _ _ _ _ hr⟩
  · intro base len e fuel obj h1 h2
    obtain ⟨r, hr⟩ := Option.isSome_iff_exists.mp
      ((fuel_suffices fuel).2.2.1 data base len e obj h1 h2)
    exact ⟨r, fun more => (fuel_add more).2.2.1 _ _ _ _ _ _ _ hr⟩
  · intro base len step errPos e fuel sv key obj h
    obtain ⟨r, hr⟩ := Option.isSome_iff_exists.mp
      ((fuel_suffices fuel).2.1 data base len step errPos e sv key obj h)
    exact ⟨r, fun more => (fuel_add more).2.1 _ _ _ _ _ _ _ _ _ _ _ hr⟩
  · intro base len step errPos e fuel sv obj h
    obtain ⟨r, hr⟩ := Option.isSome_iff_exists.mp
      ((fuel_suffices fuel).2.2.2 data base len step errPos e sv obj h)
    exact ⟨r, fun more => (fuel_add more).2.2.2 _ _ _ _ _ _ _ _ _ _ hr⟩

/-- C22 on the text `[[[[[1]]]]]` of length 11: `parse` returns, and `_parseArray` called on
the whole text returns the same result with 21 units of fuel and with any larger amount. -/
theorem C22_parse_total_witness :
    (∃ r obj, parse roundTripExample
      ['[', '[', '[', '[', '[', '1', ']', ']', ']', ']', ']'] = some (r, obj)) ∧
    1 ≤ 21 ∧ 2 * 11 ≤ 21 + 1 ∧
    (∃ r, ∀ more, _parseArray (21 + more)
      ['[', '[', '[', '[', '[', '1', ']', ']', ']', ']', ']'] 0 11 0 new = some r) :=
  ⟨(C22_parse_total roundTripExample
      ['[', '[', '[', '[', '[', '1', ']', ']', ']', ']', ']']).1,
    by decide, by decide,
    (C22_parse_total roundTripExample
      ['[', '[', '[', '[', '[', '1', ']', ']', ']', ']', ']']).2.2.1 0 11 0 21 new
      (by decide) (by decide)⟩

end JsonObject

/-! ## C23: the byte after a matched word -/

namespace JsonObject

/-- C23 at the 5-byte buffer `[null`: the loop of `_parseArray` reads `n` at offset 1 and
calls `_compareWord(data + 1, 4, "null")`; the word matches the four bytes left, and
`_compareWord` then reads `lastSymbol = data[size]`, the byte at index 5 of the buffer, which
is not below the length 5.  (With the NUL that ends a `std::string` at that index the call
returns 4 and `parse` returns 5, with kind Error.) -/
theorem C23_compareWord_reads_past_the_end :
    text_null_open.length = 5 ∧
    readAt text_null_open 0 = '[' ∧ readAt text_null_open (0 + 1) = 'n' ∧
    (∀ (fuel errPos e : Nat) (obj : JsonObject),
      _parseArray_loop (fuel + 1) text_null_open 0 5 1 errPos e true obj
        = some (1, _compareWord text_null_open (0 + 1) (5 - 1) word_null, e, obj)) ∧
    _compareWord_reads text_null_open (0 + 1) (5 - 1) word_null = [1, 2, 3, 4, 5] ∧
    5 ∈ _compareWord_reads text_null_open (0 + 1) (5 - 1) word_null ∧
    ¬ 5 < text_null_open.length ∧
    _compareWord text_null_open (0 + 1) (5 - 1) word_null = 4 ∧
    parse new text_null_open = some (5, new.setType .JSON_ERROR) := by
  refine ⟨rfl, rfl, rfl, ?_, by decide, by decide, by decide, by decide, rfl⟩
  intro fuel errPos e obj
  rw [arr_loop_null fuel text_null_open 0 5 1 errPos e obj (by omega) rfl]
  rw [if_pos (by decide)]

end JsonObject

/-! ## C24: empty containers -/

namespace JsonObject

/-- C24: for every run `w` of spaces, CR and LF (possibly empty) and every value, `parse` on
the buffer `{` + `w` + `}` returns the length plus 1 and on the buffer `[` + `w` + `]` the
length, both non-zero, and the root is left with kind Error and no content; so `{}` gives 3 and
`[]` gives 2, and the compact texts that `stringify` produces for an empty object and an empty
array do not parse back. -/
theorem C24_empty_container_rejected (self : JsonObject) (w : Str)
    (hw : ∀ c ∈ w, isBlank c = true) :
    parse self (textEmptyObject w)
      = some ((textEmptyObject w).length + 1, new.setType .JSON_ERROR) ∧
    parse self (textEmptyArray w) = some ((textEmptyArray w).length, new.setType .JSON_ERROR) ∧
    (textEmptyObject w).length + 1 ≠ 0 ∧ (textEmptyArray w).length ≠ 0 ∧
    (new.setType .JSON_ERROR).type = .JSON_ERROR ∧
    parse self ((mkObject []).stringify .MODE_COMPACT) = some (3, new.setType .JSON_ERROR) ∧
    parse self ((ofArray []).stringify .MODE_COMPACT) = some (2, new.setType .JSON_ERROR) := by
  have hlenA : (textEmptyArray w).length = w.length + 2 := by
    simp only [textEmptyArray, List.length_cons, List.length_append, List.length_nil]
  refine ⟨?_, ?_, by omega, by rw [hlenA]; omega, rfl, ?_, ?_⟩
  · refine parse_no_key self (w ++ ['}']) ?_ (by simp)
    intro x hx
    rcases List.mem_append.mp hx with h | h
    · rcases isBlank_cases (hw x h) with h1 | h1 | h1 <;> subst h1 <;> decide
    · rw [List.mem_singleton.mp h]; decide
  · rw [hlenA]
    exact parse_no_element self w [] hw
  · exact parse_no_key self ['}'] (by decide) (by decide)
  · exact parse_no_element self [] [] (by decide)

/-- C24 on the run made of a space, a LF and a CR, for a populated value: the object form of
length 5 gives 6 and the array form of length 5 gives 5. -/
theorem C24_empty_container_rejected_witness :
    (∀ c ∈ [' ', '\n', '\r'], isBlank c = true) ∧
    parse roundTripExample ['{', ' ', '\n', '\r', '}'] = some (6, new.setType .JSON_ERROR) ∧
    parse roundTripExample ['[', ' ', '\n', '\r', ']'] = some (5, new.setType .JSON_ERROR) :=
  ⟨by decide,
    (C24_empty_container_rejected roundTripExample [' ', '\n', '\r'] (by decide)).1,
    (C24_empty_container_rejected roundTripExample [' ', '\n', '\r'] (by decide)).2.1⟩

end JsonObject
